import Mathlib

set_option autoImplicit false
set_option maxHeartbeats 1000000
set_option linter.unusedVariables false
set_option linter.unreachableTactic false
set_option linter.unusedTactic false

/-!
Verification development for the nedb embedded document database.

The development shallowly embeds the JavaScript source of the model layer
(model.js), the index layer (index-basic.js, index-uniqueString.js), the
datastore index orchestration (datastore.js), the persistence layer
(persistence.js) and the executor (executor.js) as pure Lean functions over
an inductive type of JavaScript values.  Stateful JavaScript code becomes
explicit state passing: an operation that may throw while mutating returns a
pair of an optional error and the state as it is when the exception
surfaces.  External collaborators (the AVL multimap package, the native JSON
codec, the filesystem) are modelled by their documented interfaces.
-/

namespace Nedb

/-- JavaScript values as they occur in nedb documents: undefined, null,
booleans, (finite) numbers, strings, dates (by millisecond timestamp),
arrays, and plain objects as insertion-ordered association lists.  Numbers
are modelled as integers; IEEE-754 non-integral values, NaN and infinities
are outside the model.  Object reference identity is not representable; the
development notes where the source relies on it. -/
inductive Value where
  | undef : Value
  | null : Value
  | bool : Bool → Value
  | num : Int → Value
  | str : String → Value
  | date : Int → Value
  | arr : List Value → Value
  | obj : List (String × Value) → Value
  deriving Repr

mutual
/-- Structural equality test for values (JavaScript deep equality on
document trees, used to model identity of documents). -/
def beqV : Value → Value → Bool
  | .undef, .undef => true
  | .null, .null => true
  | .bool a, .bool b => a == b
  | .num a, .num b => a == b
  | .str a, .str b => a == b
  | .date a, .date b => a == b
  | .arr a, .arr b => beqListV a b
  | .obj a, .obj b => beqFieldsV a b
  | _, _ => false
def beqListV : List Value → List Value → Bool
  | [], [] => true
  | x :: xs, y :: ys => beqV x y && beqListV xs ys
  | _, _ => false
def beqFieldsV : List (String × Value) → List (String × Value) → Bool
  | [], [] => true
  | (k, v) :: f, (l, w) :: g => k == l && beqV v w && beqFieldsV f g
  | _, _ => false
end

mutual
theorem beqV_iff : ∀ a b, beqV a b = true ↔ a = b
  | .undef, b => by cases b <;> simp [beqV]
  | .null, b => by cases b <;> simp [beqV]
  | .bool a, b => by cases b <;> simp [beqV]
  | .num a, b => by cases b <;> simp [beqV]
  | .str a, b => by cases b <;> simp [beqV]
  | .date a, b => by cases b <;> simp [beqV]
  | .arr xs, b => by
      cases b
      case arr ys => simpa [beqV] using beqListV_iff xs ys
      all_goals simp [beqV]
  | .obj f, b => by
      cases b
      case obj g => simpa [beqV] using beqFieldsV_iff f g
      all_goals simp [beqV]
theorem beqListV_iff : ∀ xs ys, beqListV xs ys = true ↔ xs = ys
  | [], ys => by cases ys <;> simp [beqListV]
  | x :: xs, ys => by
      cases ys with
      | nil => simp [beqListV]
      | cons y ys =>
        simp [beqListV, Bool.and_eq_true, beqV_iff x y, beqListV_iff xs ys]
theorem beqFieldsV_iff : ∀ f g, beqFieldsV f g = true ↔ f = g
  | [], g => by cases g <;> simp [beqFieldsV]
  | (k, v) :: f, g => by
      cases g with
      | nil => simp [beqFieldsV]
      | cons p g =>
        rcases p with ⟨l, w⟩
        simp [beqFieldsV, Bool.and_eq_true, beqV_iff v w, beqFieldsV_iff f g]
end

instance : DecidableEq Value := fun a b => decidable_of_iff _ (beqV_iff a b)

mutual
/-- Nesting depth of a value, used as a termination measure. -/
def depth : Value → Nat
  | .arr xs => depthList xs + 1
  | .obj f => depthFields f + 1
  | _ => 1
def depthList : List Value → Nat
  | [] => 0
  | x :: xs => max (depth x) (depthList xs)
def depthFields : List (String × Value) → Nat
  | [] => 0
  | (_, v) :: f => max (depth v) (depthFields f)
end

/-- JavaScript truthiness of a value. -/
def truthy : Value → Bool
  | .undef => false
  | .null => false
  | .bool b => b
  | .num n => n != 0
  | .str s => s ≠ ""
  | .date _ => true
  | .arr _ => true
  | .obj _ => true

/-- Rank of a value in the type hierarchy used by compareThings:
undefined, null, numbers, strings, booleans, dates, arrays, objects. -/
def typeRank : Value → Nat
  | .undef => 0
  | .null => 1
  | .num _ => 2
  | .str _ => 3
  | .bool _ => 4
  | .date _ => 5
  | .arr _ => 6
  | .obj _ => 7

/-- Three-way comparison on integers, following compareNSB from model.js. -/
def cmpInt (a b : Int) : Int := if a < b then -1 else if b < a then 1 else 0

/-- Three-way comparison on strings (compareNSB on strings; the optional
caller-supplied comparator defaults to this one and the claims address the
default). -/
def cmpStr (a b : String) : Int := if a < b then -1 else if b < a then 1 else 0

/-- Three-way comparison on booleans (compareNSB; false is less than true). -/
def cmpBool (a b : Bool) : Int := if a < b then -1 else if b < a then 1 else 0

/-- Three-way comparison on natural numbers (compareNSB on lengths). -/
def cmpNat (a b : Nat) : Int := if a < b then -1 else if b < a then 1 else 0

/-- Insertion of a string into a sorted list, the building block of the
model of the JavaScript default Array sort used on object keys. -/
def insertSorted (s : String) : List String → List String
  | [] => [s]
  | t :: ts => if s ≤ t then s :: t :: ts else t :: insertSorted s ts

/-- Sort a list of strings (model of Object.keys(a).sort() with the default
string comparator). -/
def sortStrings : List String → List String
  | [] => []
  | s :: ss => insertSorted s (sortStrings ss)

/-- Sorted key list of an object, as computed by compareThings. -/
def objSortedKeys (f : List (String × Value)) : List String :=
  sortStrings (f.map Prod.fst)

/-- Values of an object listed in sorted key order; property access on a
JavaScript object returns its unique binding, modelled by the first
binding of the association list. -/
def objVals (f : List (String × Value)) : List Value :=
  (objSortedKeys f).map (fun k => (f.lookup k).getD .undef)

theorem mem_insertSorted {s x : String} {l : List String} :
    x ∈ insertSorted s l → x = s ∨ x ∈ l := by
  induction l with
  | nil => intro h; simp [insertSorted] at h; exact Or.inl h
  | cons t ts ih =>
    intro h
    by_cases hst : s ≤ t
    · simp only [insertSorted, if_pos hst, List.mem_cons] at h
      rcases h with h | h
      · exact Or.inl h
      · exact Or.inr (by simp [List.mem_cons, h])
    · simp only [insertSorted, if_neg hst, List.mem_cons] at h
      rcases h with h | h
      · exact Or.inr (by simp [List.mem_cons, h])
      · rcases ih h with h' | h'
        · exact Or.inl h'
        · exact Or.inr (by simp [List.mem_cons, h'])

theorem mem_sortStrings {x : String} {l : List String} (h : x ∈ sortStrings l) : x ∈ l := by
  induction l with
  | nil => simp [sortStrings] at h
  | cons s ss ih =>
    simp only [sortStrings] at h
    rcases mem_insertSorted h with h' | h'
    · simp [h']
    · simp [ih h']

theorem depth_lookup_of_mem {f : List (String × Value)} {k : String}
    (hk : k ∈ f.map Prod.fst) :
    depth ((f.lookup k).getD .undef) ≤ depthFields f := by
  induction f with
  | nil => simp at hk
  | cons p ps ih =>
    rcases p with ⟨k', v⟩
    by_cases he : k == k'
    · simp only [List.lookup, he, Option.getD_some, depthFields]
      exact Nat.le_max_left _ _
    · have hk' : k ∈ ps.map Prod.fst := by
        simp only [List.map, List.mem_cons] at hk
        rcases hk with h | h
        · exact absurd h (by simpa using he)
        · exact h
      calc depth ((List.lookup k ((k', v) :: ps)).getD .undef)
          = depth ((List.lookup k ps).getD .undef) := by
            simp only [List.lookup, he]
        _ ≤ depthFields ps := ih hk'
        _ ≤ depthFields ((k', v) :: ps) := by
            simp only [depthFields]; exact Nat.le_max_right _ _

theorem depthList_objVals_le (f : List (String × Value)) :
    depthList (objVals f) ≤ depthFields f := by
  unfold objVals
  have hmem : ∀ k ∈ objSortedKeys f, k ∈ f.map Prod.fst := by
    intro k hk
    exact mem_sortStrings hk
  generalize objSortedKeys f = ks at hmem
  induction ks with
  | nil => simp [depthList]
  | cons k ks ih =>
    simp only [List.map, depthList]
    have h1 := depth_lookup_of_mem (hmem k (by simp))
    have h2 := ih (fun k hk => hmem k (by simp [hk]))
    omega

theorem depth_head_le (x : Value) (xs : List Value) : depth x ≤ depthList (x :: xs) := by
  simp only [depthList]; exact Nat.le_max_left _ _

theorem depthList_tail_le (x : Value) (xs : List Value) : depthList xs ≤ depthList (x :: xs) := by
  simp only [depthList]; exact Nat.le_max_right _ _

theorem prodLex_of_le_of_lt {a c b d : Nat} (hac : a ≤ c) (hbd : b < d) :
    Prod.Lex (· < ·) (· < ·) (a, b) (c, d) := by
  rcases Nat.lt_or_ge a c with h | h
  · exact Prod.Lex.left _ _ h
  · have : a = c := Nat.le_antisymm hac h
    subst this
    exact Prod.Lex.right _ hbd

mutual
/-- Total comparison of heterogeneous values, translated from compareThings
in model.js: the guard cascade on undefined, null, numbers, strings,
booleans, dates, arrays and finally objects, where objects compare their
values in sorted key order and break ties by the number of keys.
compareSeq below is the common element-by-element loop of compareArrays and
of the object branch (first difference wins, identical common section falls
through to the length comparison performed by the caller). -/
def compareThings : Value → Value → Int
  | .undef, .undef => 0
  | .undef, _ => -1
  | _, .undef => 1
  | .null, .null => 0
  | .null, _ => -1
  | _, .null => 1
  | .num a, .num b => cmpInt a b
  | .num _, _ => -1
  | _, .num _ => 1
  | .str a, .str b => cmpStr a b
  | .str _, _ => -1
  | _, .str _ => 1
  | .bool a, .bool b => cmpBool a b
  | .bool _, _ => -1
  | _, .bool _ => 1
  | .date a, .date b => cmpInt a b
  | .date _, _ => -1
  | _, .date _ => 1
  | .arr xs, .arr ys =>
    let c := compareSeq xs ys
    if c = 0 then cmpNat xs.length ys.length else c
  | .arr _, _ => -1
  | _, .arr _ => 1
  | .obj f, .obj g =>
    let c := compareSeq (objVals f) (objVals g)
    if c = 0 then cmpNat (objSortedKeys f).length (objSortedKeys g).length else c
termination_by a b => (depth a + depth b, 0)
decreasing_by
  · apply Prod.Lex.left
    simp only [depth]
    omega
  · apply Prod.Lex.left
    simp only [depth]
    have h1 := depthList_objVals_le f
    have h2 := depthList_objVals_le g
    omega

def compareSeq : List Value → List Value → Int
  | [], _ => 0
  | _, [] => 0
  | x :: xs, y :: ys =>
    let c := compareThings x y
    if c = 0 then compareSeq xs ys else c
termination_by xs ys => (depthList xs + depthList ys, xs.length + 1)
decreasing_by
  · exact prodLex_of_le_of_lt
      (Nat.add_le_add (depth_head_le x xs) (depth_head_le y ys)) (by simp [List.length_cons])
  · exact prodLex_of_le_of_lt
      (Nat.add_le_add (depthList_tail_le x xs) (depthList_tail_le y ys)) (by simp [List.length_cons])
end

/-- Combined sequence-then-length comparison shared by the array branch and
the object branch of compareThings. -/
def listCmp (xs ys : List Value) : Int :=
  let c := compareSeq xs ys
  if c = 0 then cmpNat xs.length ys.length else c

/-- Dollar test on the first character of a key. -/
def startsDollar (s : String) : Bool :=
  match s.data with
  | c :: _ => c = '$'
  | [] => false

/-- Dot-containment test on a key or path. -/
def hasDot (s : String) : Bool := s.data.contains '.'

/-- Split of a dot path on the dot character (String.prototype.split with a
one-character separator, written over the character list so that concrete
paths evaluate). -/
def splitDotsChars : List Char → List Char → List String
  | [], acc => [String.mk acc.reverse]
  | c :: cs, acc =>
    if c = '.' then String.mk acc.reverse :: splitDotsChars cs [] else splitDotsChars cs (c :: acc)

/-- Split of a dot path string. -/
def splitDots (s : String) : List String := splitDotsChars s.data []

/-- Test for the digits-only regular expression used by getDotValue to tell
array indices from property names. -/
def isIndexSeg (s : String) : Bool := s.data ≠ [] && s.data.all Char.isDigit

/-- Canonical decimal index denoted by a property name, if any: digits
only and no leading zero except for the name 0 itself (a JavaScript array
stores the element of index 1 under the name 1, never under 01). -/
def canonIndex? (p : String) : Option Nat :=
  if p.data ≠ [] ∧ p.data.all Char.isDigit ∧ (p = "0" ∨ p.data.head? ≠ some '0') then
    some (p.data.foldl (fun n c => n * 10 + (c.toNat - 48)) 0)
  else none

/-- Array property access: a property of an array is an element exactly
when the name is the canonical decimal representation of an index in range
(the name 01 is a plain property, not index 1); the length property is the
element count; other names are not own properties and give undefined. -/
def jsArrGet (xs : List Value) (p : String) : Value :=
  if p = "length" then .num xs.length
  else match canonIndex? p with
    | some n => xs.getD n .undef
    | none => Value.undef

/-- String property access: length and canonical character indices
(character positions approximate JavaScript UTF-16 units by code points). -/
def jsStrGet (s : String) (p : String) : Value :=
  if p = "length" then .num s.data.length
  else match canonIndex? p with
    | some n =>
      if n < s.data.length then .str (String.mk [s.data.getD n ' ']) else .undef
    | none => Value.undef

/-- Property access v[p] for a value that is not null or undefined: own
properties of objects, indices and length of arrays and strings; the
remaining primitives have no own properties and give undefined (prototype
members are functions and outside the document model). -/
def jsGetSafe : Value → String → Value
  | .obj f, p => (f.lookup p).getD .undef
  | .arr xs, p => jsArrGet xs p
  | .str s, p => jsStrGet s p
  | _, _ => Value.undef

/-- Property access v[p] as a JavaScript expression: throws a TypeError on
null and undefined, otherwise as jsGetSafe. -/
def jsGetE (v : Value) (p : String) : Except Unit Value :=
  if v = .null ∨ v = .undef then .error () else .ok (jsGetSafe v p)

/-- Projection of the last path segment over the elements of an array, the
branch obj.map of getDotValue for a final non-index segment; the element
access may throw when an element is null or undefined. -/
def projSegLast : List Value → String → Except Unit (List Value)
  | [], _ => .ok []
  | o :: os, p =>
    match jsGetE o p with
    | .error e => .error e
    | .ok w =>
      match projSegLast os p with
      | .error e => .error e
      | .ok ws => .ok (w :: ws)

mutual
/-- Walk of the split dot path, translated from the while loop of
getDotValue in model.js: falsy values stop the walk with undefined, an
empty segment returns the current value, arrays dispatch on whether the
segment is an index and whether it is last, and every other value steps
into its property. -/
def walkSegs : Value → List String → Except Unit Value
  | v, [] => .ok v
  | v, prop :: rest =>
    if truthy v = false then .ok .undef
    else if prop = "" then .ok v
    else match v with
      | .arr xs =>
        if rest.isEmpty then
          if isIndexSeg prop then .ok (jsArrGet xs prop)
          else
            match projSegLast xs prop with
            | .error e => .error e
            | .ok vs => .ok (.arr vs)
        else
          if isIndexSeg prop then getDotValueSegs (jsArrGet xs prop) rest
          else
            match projSegRec xs prop rest with
            | .error e => .error e
            | .ok vs => .ok (.arr vs)
      | _ => walkSegs (jsGetSafe v prop) rest
termination_by v segs => (segs.length, 0)
decreasing_by
  all_goals first
    | (apply Prod.Lex.left; omega)
    | (apply Prod.Lex.left; simp only [List.length_cons]; omega)
    | (apply Prod.Lex.right; omega)
    | (apply Prod.Lex.right; simp only [List.length_cons]; omega)

/-- Re-entry of getDotValue on an intermediate value with the remaining
path (the recursive calls of the array branches go through the function
head again, so a null intermediate is returned unchanged rather than
becoming undefined). -/
def getDotValueSegs (v : Value) (segs : List String) : Except Unit Value :=
  if v = .null ∨ v = .undef then .ok v
  else walkSegs v segs
termination_by (segs.length, 1)
decreasing_by
  all_goals first
    | (apply Prod.Lex.left; omega)
    | (apply Prod.Lex.left; simp only [List.length_cons]; omega)
    | (apply Prod.Lex.right; omega)
    | (apply Prod.Lex.right; simp only [List.length_cons]; omega)

/-- Projection of a non-final segment over the elements of an array with
recursion into the remaining path, the branch obj.map of getDotValue for a
non-index segment followed by more segments. -/
def projSegRec : List Value → String → List String → Except Unit (List Value)
  | [], _, _ => .ok []
  | o :: os, prop, rest =>
    match jsGetE o prop with
    | .error e => .error e
    | .ok w =>
      match getDotValueSegs w rest with
      | .error e => .error e
      | .ok v =>
        match projSegRec os prop rest with
        | .error e => .error e
        | .ok vs => .ok (v :: vs)
termination_by xs _ rest => (rest.length, xs.length + 2)
decreasing_by
  all_goals first
    | (apply Prod.Lex.left; omega)
    | (apply Prod.Lex.left; simp only [List.length_cons]; omega)
    | (apply Prod.Lex.right; omega)
    | (apply Prod.Lex.right; simp only [List.length_cons]; omega)
end

/-- getDotValue from model.js over a document and a dot-path string; the
result is an exception exactly when the walk performs a property access on
a null or undefined array element. -/
def getDotValue (v : Value) (dotPath : String) : Except Unit Value :=
  if dotPath = "" ∨ v = .null ∨ v = .undef then .ok v
  else if hasDot dotPath = false then .ok (jsGetSafe v dotPath)
  else walkSegs v (splitDots dotPath)

/-- Numeric test used by the date sentinel exemption of checkKey. -/
def isNumV : Value → Bool
  | .num _ => true
  | _ => false

/-- Validity test of checkKey from model.js (true means no throw): a key
beginning with the dollar sign is invalid except the four sentinel forms,
and no key may contain a dot. -/
def checkKeyOk (k : String) (v : Value) : Bool :=
  if startsDollar k = true ∧ ¬ (k = "$$date" ∧ isNumV v = true) ∧ ¬ (k = "$$deleted" ∧ v = .bool true)
      ∧ k ≠ "$$indexCreated" ∧ k ≠ "$$indexRemoved" then false
  else !(hasDot k)

mutual
/-- checkObject from model.js: checkKey applied to every key of every
nested object (the source walks a work stack over array elements and
object values; the model states the net condition recursively).  True
means no exception is thrown. -/
def checkObjectOk : Value → Bool
  | .arr xs => checkListOk xs
  | .obj f => checkFieldsOk f
  | _ => true
def checkListOk : List Value → Bool
  | [] => true
  | x :: xs => checkObjectOk x && checkListOk xs
def checkFieldsOk : List (String × Value) → Bool
  | [] => true
  | (k, v) :: f => checkKeyOk k v && checkObjectOk v && checkFieldsOk f
end

mutual
/-- cloneDeep from model.js; with strictKeys, object fields whose key
begins with the dollar sign or contains a dot are dropped.  Values outside
the document domain clone to undefined; within the domain the clone is
structurally identical. -/
def cloneDeep (strictKeys : Bool) : Value → Value
  | .bool b => .bool b
  | .num n => .num n
  | .str s => .str s
  | .null => .null
  | .date d => .date d
  | .arr xs => .arr (cloneDeepList strictKeys xs)
  | .obj f => .obj (cloneDeepFields strictKeys f)
  | .undef => .undef
def cloneDeepList (strictKeys : Bool) : List Value → List Value
  | [] => []
  | x :: xs => cloneDeep strictKeys x :: cloneDeepList strictKeys xs
def cloneDeepFields (strictKeys : Bool) : List (String × Value) → List (String × Value)
  | [] => []
  | (k, v) :: f =>
    if strictKeys = false ∨ (startsDollar k = false ∧ hasDot k = false) then
      (k, cloneDeep strictKeys v) :: cloneDeepFields strictKeys f
    else cloneDeepFields strictKeys f
end

/-- Error raised while serializing: a checkKey failure, or the case where
JSON.stringify yields no string at all (undefined at the root). -/
inductive SerErr where
  | badKey : SerErr
  | undefinedRoot : SerErr
  deriving Repr, DecidableEq

mutual
/-- serialize from model.js, modelled at the JSON-tree level: the native
JSON codec is an external collaborator that is exact on JSON trees, so
serialize is the serializing replacer: every object key is checked with
checkKey, dates are encoded as the object with the single field $$date
holding the millisecond timestamp, undefined entries of arrays become null
and undefined object fields are dropped, as JSON.stringify does. -/
def serializeJ : Value → Except SerErr Value
  | .undef => .error .undefinedRoot
  | .null => .ok .null
  | .bool b => .ok (.bool b)
  | .num n => .ok (.num n)
  | .str s => .ok (.str s)
  | .date d => .ok (.obj [("$$date", .num d)])
  | .arr xs =>
    match serializeArr xs with
    | .error e => .error e
    | .ok js => .ok (.arr js)
  | .obj f =>
    match serializeFields f with
    | .error e => .error e
    | .ok fs => .ok (.obj fs)
def serializeArr : List Value → Except SerErr (List Value)
  | [] => .ok []
  | x :: xs =>
    match (match x with | .undef => Except.ok Value.null | _ => serializeJ x) with
    | .error e => .error e
    | .ok j =>
      match serializeArr xs with
      | .error e => .error e
      | .ok rest => .ok (j :: rest)
def serializeFields : List (String × Value) → Except SerErr (List (String × Value))
  | [] => .ok []
  | (k, v) :: f =>
      if checkKeyOk k v = false then .error .badKey
      else match v with
        | .undef => serializeFields f
        | _ =>
          match serializeJ v with
          | .error e => .error e
          | .ok j =>
            match serializeFields f with
            | .error e => .error e
            | .ok rest => .ok ((k, j) :: rest)
end

/-- Millisecond argument of the date constructor applied to a revived
value; faithful for the numeric payloads that serialize produces (booleans
and null coerce as in JavaScript; strings and objects would give an
invalid date, approximated by timestamp 0, a case no theorem exercises). -/
def jsDateArgMs : Value → Int
  | .num n => n
  | .bool true => 1
  | .bool false => 0
  | .null => 0
  | .date m => m
  | _ => 0

/-- Unwrapping step of the deserializing reviver for every key other than
the date sentinel: strings, numbers and booleans pass through, and any
object whose field $$date is truthy is replaced by that field; this is how
an encoded date is restored at the position of the containing key. -/
def reviveElem (v : Value) : Value :=
  match v with
  | .str _ => v
  | .num _ => v
  | .bool _ => v
  | .obj f =>
    match f.lookup "$$date" with
    | some d => if truthy d then d else v
    | none => v
  | _ => v

mutual
/-- Bottom-up walk of JSON.parse with the deserializing reviver from
model.js: children are revived first, then the reviver runs on each key;
the key $$date builds a date, every other key (including array index keys)
applies the unwrapping step. -/
def reviveJ : Value → Value
  | .arr xs => .arr (reviveArr xs)
  | .obj f => .obj (reviveFields f)
  | v => v
def reviveArr : List Value → List Value
  | [] => []
  | x :: xs => reviveElem (reviveJ x) :: reviveArr xs
def reviveFields : List (String × Value) → List (String × Value)
  | [] => []
  | (k, v) :: f =>
    (k, if k = "$$date" then .date (jsDateArgMs (reviveJ v)) else reviveElem (reviveJ v))
      :: reviveFields f
end

/-- deserialize from model.js: parse (exact on JSON trees) then revive,
with the final reviver call on the root under the empty key. -/
def deserializeJ (j : Value) : Value := reviveElem (reviveJ j)

/-- Duplicate-freedom test for a key list (a JavaScript object cannot hold
two bindings of one key). -/
def nodupKeysB : List String → Bool
  | [] => true
  | k :: ks => !(ks.contains k) && nodupKeysB ks

mutual
/-- Documents for which the round-trip property is provable: no undefined,
every key valid for checkKey, no duplicate keys, and no field named with
the reserved date-encoding name (a literal such field is re-interpreted as
a date on load; the counterexample to the claim as stated exhibits this). -/
def goodDoc : Value → Bool
  | .undef => false
  | .null => true
  | .bool _ => true
  | .num _ => true
  | .str _ => true
  | .date _ => true
  | .arr xs => goodList xs
  | .obj f => nodupKeysB (f.map Prod.fst) && goodFields f
def goodList : List Value → Bool
  | [] => true
  | x :: xs => goodDoc x && goodList xs
def goodFields : List (String × Value) → Bool
  | [] => true
  | (k, v) :: f => checkKeyOk k v && (k != "$$date") && goodDoc v && goodFields f
end

/-- Object.keys of a value (ES6 semantics: primitives give an empty list,
arrays and strings give their index names, null and undefined throw). -/
def jsKeysE : Value → Except Unit (List String)
  | .null => .error ()
  | .undef => .error ()
  | .obj f => .ok (f.map Prod.fst)
  | .arr xs => .ok ((List.range xs.length).map Nat.repr)
  | .str s => .ok ((List.range s.length).map Nat.repr)
  | _ => .ok []

/-- Errors thrown by modifyDoc and by the modifier machinery. -/
inductive ModErr where
  | idChange : ModErr
  | mixedModifiers : ModErr
  | unknownModifier : ModErr
  | badModifierArg : ModErr
  | badKey : ModErr
  | jsError : ModErr
  deriving Repr, DecidableEq

/-- Shape of a modifier function from model-modifiers.js after translation
to state passing: the document root, the field path and the argument give
the updated root or an exception. -/
def ModFn := Value → String → Value → Except ModErr Value

/-- Typeof test for the modifier-argument check of modifyDoc (typeof gives
the string object for null, dates, arrays and plain objects). -/
def typeofIsObject : Value → Bool
  | .null => true
  | .date _ => true
  | .arr _ => true
  | .obj _ => true
  | _ => false

/-- First-occurrence deduplication, the effect of iterating a Set built
from a key list. -/
def dedupFirst : List String → List String
  | [] => []
  | x :: xs => x :: dedupFirst (xs.filter (fun y => y ≠ x))
termination_by l => l.length
decreasing_by
  simp only [List.length_cons]
  exact Nat.lt_succ_of_le (List.length_filter_le _ _)

/-- Inner loop of modifyDoc: one modifier applied to every key of its
argument object in order. -/
def applyModKeys (fn : ModFn) (q : Value) : List String → Value → Except ModErr Value
  | [], d => .ok d
  | k :: ks, d =>
    match fn d k (jsGetSafe q k) with
    | .error e => .error e
    | .ok d' => applyModKeys fn q ks d'

/-- Outer loop of modifyDoc: each named modifier is resolved in the table,
its argument must be of object type (as typeof reports it, so null passes
the test and then throws on key enumeration), and it is applied key by
key. -/
def applyMods (table : String → Option ModFn) (u : Value) :
    List String → Value → Except ModErr Value
  | [], d => .ok d
  | m :: ms, d =>
      match table m with
      | none => .error .unknownModifier
      | some fn =>
          let q := jsGetSafe u m
          if typeofIsObject q = false then .error .badModifierArg
          else
            match jsKeysE q with
            | .error _ => .error .jsError
            | .ok ks =>
              match applyModKeys fn q ks d with
              | .error e => .error e
              | .ok d' => applyMods table u ms d'

/-- Strict-mode assignment of the _id property performed by the
full-replacement branch of modifyDoc: assigning to a primitive, null or
undefined throws; arrays and dates accept expando properties in JavaScript
which the value model cannot carry, so that branch is modelled as a
failure and no theorem exercises it (update queries are plain objects). -/
def objSet (f : List (String × Value)) (k : String) (v : Value) : List (String × Value) :=
  if (f.map Prod.fst).contains k then
    f.map (fun p => if p.1 = k then (k, v) else p)
  else f ++ [(k, v)]

/-- Assignment of the _id property on the cloned replacement document. -/
def objSetIdE (v : Value) (idv : Value) : Except ModErr Value :=
  match v with
  | .obj f => .ok (.obj (objSet f "_id" idv))
  | _ => .error .jsError

/-- modifyDoc from model.js, parameterized by the modifier table of
model-modifiers.js: the identifier-preservation claims hold for every
table, in particular for the real one, because they rest only on the
checks modifyDoc itself performs; JavaScript strict equality on the two
_id values is modelled structurally. -/
def modifyDocWith (table : String → Option ModFn) (doc updateQuery : Value) :
    Except ModErr Value :=
  match jsKeysE updateQuery with
  | .error _ => .error .jsError
  | .ok keys =>
    if keys.contains "_id" ∧ jsGetSafe updateQuery "_id" ≠ jsGetSafe doc "_id" then
      .error .idChange
    else if (keys.filter startsDollar).length ≠ 0
        ∧ (keys.filter startsDollar).length ≠ keys.length then
      .error .mixedModifiers
    else
      match (if (keys.filter startsDollar).length = 0 then
               objSetIdE (cloneDeep false updateQuery) (jsGetSafe doc "_id")
             else
               applyMods table updateQuery (dedupFirst keys) (cloneDeep false doc)) with
      | .error e => .error e
      | .ok newDoc =>
        if checkObjectOk newDoc = false then .error .badKey
        else if jsGetSafe doc "_id" ≠ jsGetSafe newDoc "_id" then .error .idChange
        else .ok newDoc

/-- Errors surfaced by the index layer. -/
inductive IdxErr where
  | uniqueViolated : Value → IdxErr
  | invalidDoc : IdxErr
  | typeError : IdxErr
  | missingFieldName : IdxErr
  deriving Repr, DecidableEq

/-- State of a UniqueStringIndex (index-uniqueString.js): the field name
and the backing hash map, modelled as the insertion-ordered association
list of a JavaScript Map. -/
structure USI where
  fieldName : String
  map : List (String × Value)
  deriving Repr, DecidableEq

/-- Membership test of a JavaScript Map. -/
def mapHas (m : List (String × Value)) (k : String) : Bool :=
  (m.map Prod.fst).contains k

/-- Map set: replace the binding in place when the key exists, append
otherwise. -/
def mapSet (m : List (String × Value)) (k : String) (v : Value) : List (String × Value) :=
  if mapHas m k then m.map (fun p => if p.1 = k then (k, v) else p) else m ++ [(k, v)]

/-- Map delete. -/
def mapDel (m : List (String × Value)) (k : String) : List (String × Value) :=
  m.filter (fun p => p.1 ≠ k)

/-- String test used by the document validation of UniqueStringIndex. -/
def isStrV : Value → Bool
  | .str _ => true
  | _ => false

/-- Validation of one document in _assertValidDocs: the document must be
truthy, of object type, and carry a string under the index field. -/
def usiDocOk (f : String) (d : Value) : Bool :=
  truthy d && typeofIsObject d && isStrV (jsGetSafe d f)

/-- String key of a pre-validated document under the index field. -/
def usiFieldOf (f : String) (d : Value) : String :=
  match jsGetSafe d f with
  | .str s => s
  | _ => ""

/-- Internal _insert loop of UniqueStringIndex: insert each document under
its string key; a key already present rolls back the keys inserted so far
in reverse order and surfaces uniqueViolated with the conflicting key. -/
def usiRawInsertGo (f : String) :
    List (String × Value) → List Value → List String → Option IdxErr × List (String × Value)
  | m, [], _ => (none, m)
  | m, d :: ds, done =>
    let k := usiFieldOf f d
    if mapHas m k then
      (some (.uniqueViolated (.str k)), done.foldl (fun m k => mapDel m k) m)
    else
      usiRawInsertGo f (mapSet m k d) ds (k :: done)

/-- Raw insertion of a batch of pre-validated documents. -/
def usiRawInsert (f : String) (m : List (String × Value)) (docs : List Value) :
    Option IdxErr × List (String × Value) :=
  usiRawInsertGo f m docs []

/-- insert of UniqueStringIndex: validate every document, then raw
insert. -/
def usiInsert (i : USI) (docs : List Value) : Option IdxErr × USI :=
  if docs.all (usiDocOk i.fieldName) = false then (some .invalidDoc, i)
  else
    let (e, m) := usiRawInsert i.fieldName i.map docs
    (e, { i with map := m })

/-- remove of UniqueStringIndex: validate, then delete each key. -/
def usiRemove (i : USI) (docs : List Value) : Option IdxErr × USI :=
  if docs.all (usiDocOk i.fieldName) = false then (some .invalidDoc, i)
  else (none, { i with map := docs.foldl (fun m d => mapDel m (usiFieldOf i.fieldName d)) i.map })

/-- Validation of one old and new pair in update of UniqueStringIndex. -/
def usiPairOk (f : String) (p : Value × Value) : Bool :=
  truthy p.1 && truthy p.2 && isStrV (jsGetSafe p.1 f) && isStrV (jsGetSafe p.2 f)

/-- Vectorized update of UniqueStringIndex: validate all pairs, remove the
old documents, insert the new ones (raw insertion rolls itself back on a
duplicate), and on failure re-insert the old documents before surfacing
the original error; an exception of the re-insertion replaces it. -/
def usiUpdate (i : USI) (pairs : List (Value × Value)) : Option IdxErr × USI :=
  if pairs.all (usiPairOk i.fieldName) = false then (some .invalidDoc, i)
  else
    let olds := pairs.map Prod.fst
    let news := pairs.map Prod.snd
    let m1 := olds.foldl (fun m d => mapDel m (usiFieldOf i.fieldName d)) i.map
    match usiRawInsert i.fieldName m1 news with
    | (none, m2) => (none, { i with map := m2 })
    | (some e, m2) =>
      match usiInsert { i with map := m2 } olds with
      | (none, i3) => (some e, i3)
      | (some e2, i3) => (some e2, i3)

/-- revertUpdate of UniqueStringIndex on a pair list: update with the roles
of old and new swapped. -/
def usiRevert (i : USI) (pairs : List (Value × Value)) : Option IdxErr × USI :=
  usiUpdate i (pairs.map (fun p => (p.2, p.1)))

/-- State of an ordered index (index-basic.js): the options and the content
of the backing AVL multimap.  The AVL package is an external collaborator
modelled by its documented interface: the observable content is the
collection of key and document pairs, insertion throws uniqueViolated when
a unique tree already holds a key comparing equal, and deletion removes
the pairs whose key compares equal and whose document is identical
(checkValueEquality is reference equality in the source, modelled
structurally; the development notes where freshness of documents stands in
for reference freshness). -/
structure OIdx where
  fieldName : String
  unique : Bool
  sparse : Bool
  tree : List (Value × Value)
  deriving Repr, DecidableEq

/-- Key-presence test of the AVL with compareThings equality. -/
def treeHasKey (t : List (Value × Value)) (k : Value) : Bool :=
  t.any (fun e => compareThings e.1 k == 0)

/-- AVL insertion of one key and document pair. -/
def treeInsert (u : Bool) (t : List (Value × Value)) (k : Value) (d : Value) :
    Option IdxErr × List (Value × Value) :=
  if u && treeHasKey t k then (some (.uniqueViolated k), t) else (none, t ++ [(k, d)])

/-- AVL deletion of a document under a key. -/
def treeDel (t : List (Value × Value)) (k : Value) (d : Value) : List (Value × Value) :=
  t.filter (fun e => !(compareThings e.1 k == 0 && decide (e.2 = d)))

/-- First-occurrence deduplication over values. -/
def dedupFirstV : List Value → List Value
  | [] => []
  | x :: xs => x :: dedupFirstV (xs.filter (fun y => !(decide (y = x))))
termination_by l => l.length
decreasing_by
  simp only [List.length_cons]
  exact Nat.lt_succ_of_le (List.length_filter_le _ _)

/-- toDateSafeUnique from customUtils.js: duplicate-free copy of an array
of field values, dates counting as identical when their timestamps agree
(already true of the date model) and primitives comparing by value.
JavaScript keeps structurally equal but referentially distinct objects,
which the structural model conflates; no claim exercises the difference. -/
def toDateSafeUnique (vs : List Value) : List Value :=
  if vs.length ≤ 1 then vs else dedupFirstV vs

/-- Loop of the array branch of insert in index-basic.js: insert the
document under each deduplicated value, rolling back the values already
inserted (in reverse order) when one insertion violates the unique
constraint. -/
def treeInsValsGo (u : Bool) (d : Value) :
    List (Value × Value) → List Value → List Value → Option IdxErr × List (Value × Value)
  | t, [], _ => (none, t)
  | t, v :: vs, done =>
    match treeInsert u t v d with
    | (some e, t') => (some e, done.foldl (fun t w => treeDel t w d) t')
    | (none, t') => treeInsValsGo u d t' vs (v :: done)

/-- insert of one document into an ordered index: resolve the dot value
(dot resolution itself may throw), skip undefined under a sparse index,
spread array values with rollback, plain insertion otherwise. -/
def oidxInsertOne (i : OIdx) (d : Value) : Option IdxErr × OIdx :=
  match getDotValue d i.fieldName with
  | .error _ => (some .typeError, i)
  | .ok fv =>
    if fv = .undef ∧ i.sparse then (none, i)
    else match fv with
      | .arr elems =>
        let (e, t) := treeInsValsGo i.unique d i.tree (toDateSafeUnique elems) []
        (e, { i with tree := t })
      | _ =>
        let (e, t) := treeInsert i.unique i.tree fv d
        (e, { i with tree := t })

/-- remove of one document from an ordered index. -/
def oidxRemoveOne (i : OIdx) (d : Value) : Option IdxErr × OIdx :=
  match getDotValue d i.fieldName with
  | .error _ => (some .typeError, i)
  | .ok fv =>
    if fv = .undef ∧ i.sparse then (none, i)
    else match fv with
      | .arr elems =>
        (none, { i with tree := (toDateSafeUnique elems).foldl (fun t v => treeDel t v d) i.tree })
      | _ => (none, { i with tree := treeDel i.tree fv d })

/-- Sequential removal of several documents, aborting when one removal
throws (a plain JavaScript loop over remove). -/
def oidxRemoveSeq : OIdx → List Value → Option IdxErr × OIdx
  | i, [] => (none, i)
  | i, d :: ds =>
    match oidxRemoveOne i d with
    | (some e, i') => (some e, i')
    | (none, i') => oidxRemoveSeq i' ds

/-- Sequential insertion of several documents without batch rollback,
aborting when one insertion throws (the re-insertion loop of the catch
blocks). -/
def oidxInsertSeq : OIdx → List Value → Option IdxErr × OIdx
  | i, [] => (none, i)
  | i, d :: ds =>
    match oidxInsertOne i d with
    | (some e, i') => (some e, i')
    | (none, i') => oidxInsertSeq i' ds

/-- Loop of insertMultipleDocs in index-basic.js: insert the documents in
order and on failure remove the previously inserted ones in reverse order
(an exception of the rollback itself propagates in place of the original
error and aborts the remaining rollback). -/
def oidxInsertMultiGo : OIdx → List Value → List Value → Option IdxErr × OIdx
  | i, [], _ => (none, i)
  | i, d :: ds, done =>
    match oidxInsertOne i d with
    | (some e, i') =>
      match oidxRemoveSeq i' done with
      | (some e2, i'') => (some e2, i'')
      | (none, i'') => (some e, i'')
    | (none, i') => oidxInsertMultiGo i' ds (d :: done)

/-- insertMultipleDocs of an ordered index. -/
def oidxInsertMulti (i : OIdx) (docs : List Value) : Option IdxErr × OIdx :=
  oidxInsertMultiGo i docs []

/-- Loop of updateMultipleDocs after the removal phase: insert the new
documents in order; on failure remove the already inserted new documents
in reverse order, re-insert all old documents, and surface the original
error (an exception of the rollback itself propagates instead). -/
def oidxUpdateInsGo (olds : List Value) : OIdx → List Value → List Value → Option IdxErr × OIdx
  | i, [], _ => (none, i)
  | i, n :: ns, added =>
    match oidxInsertOne i n with
    | (none, i') => oidxUpdateInsGo olds i' ns (n :: added)
    | (some e, i') =>
      match oidxRemoveSeq i' added with
      | (some e2, i'') => (some e2, i'')
      | (none, i'') =>
        match oidxInsertSeq i'' olds with
        | (some e3, i3) => (some e3, i3)
        | (none, i3) => (some e, i3)

/-- updateMultipleDocs of an ordered index: remove every old document (this
phase precedes the try block, so an exception here leaves prior removals
in place), then the insertion phase with rollback. -/
def oidxUpdatePairs (i : OIdx) (pairs : List (Value × Value)) : Option IdxErr × OIdx :=
  match oidxRemoveSeq i (pairs.map Prod.fst) with
  | (some e, i1) => (some e, i1)
  | (none, i1) => oidxUpdateInsGo (pairs.map Prod.fst) i1 (pairs.map Prod.snd) []

/-- revertUpdate of an ordered index on a pair list: update with the roles
of old and new swapped. -/
def oidxRevert (i : OIdx) (pairs : List (Value × Value)) : Option IdxErr × OIdx :=
  oidxUpdatePairs i (pairs.map (fun p => (p.2, p.1)))

/-- An index of the datastore: the unique-string primary index or an
ordered index. -/
inductive Idx where
  | usi : USI → Idx
  | ord : OIdx → Idx
  deriving Repr, DecidableEq

/-- Field name of an index. -/
def idxFieldName : Idx → String
  | .usi i => i.fieldName
  | .ord i => i.fieldName

/-- Documents stored in an index (getAll; the AVL traversal returns them in
key order, the map in insertion order; the claims use only membership for
ordered indexes). -/
def idxDocs : Idx → List Value
  | .usi i => i.map.map Prod.snd
  | .ord i => i.tree.map Prod.snd

/-- insert of a single document dispatched over the index kind. -/
def idxInsertOne : Idx → Value → Option IdxErr × Idx
  | .usi i, d => let (e, i') := usiInsert i [d]; (e, .usi i')
  | .ord i, d => let (e, i') := oidxInsertOne i d; (e, .ord i')

/-- remove of a single document dispatched over the index kind. -/
def idxRemoveOne : Idx → Value → Option IdxErr × Idx
  | .usi i, d => let (e, i') := usiRemove i [d]; (e, .usi i')
  | .ord i, d => let (e, i') := oidxRemoveOne i d; (e, .ord i')

/-- Batch insert dispatched over the index kind (document arrays validate
up front on the primary). -/
def idxInsertMulti : Idx → List Value → Option IdxErr × Idx
  | .usi i, ds => let (e, i') := usiInsert i ds; (e, .usi i')
  | .ord i, ds => let (e, i') := oidxInsertMulti i ds; (e, .ord i')

/-- Vectorized update dispatched over the index kind. -/
def idxUpdatePairs : Idx → List (Value × Value) → Option IdxErr × Idx
  | .usi i, ps => let (e, i') := usiUpdate i ps; (e, .usi i')
  | .ord i, ps => let (e, i') := oidxUpdatePairs i ps; (e, .ord i')

/-- Vectorized revertUpdate dispatched over the index kind. -/
def idxRevertPairs : Idx → List (Value × Value) → Option IdxErr × Idx
  | .usi i, ps => let (e, i') := usiRevert i ps; (e, .usi i')
  | .ord i, ps => let (e, i') := oidxRevert i ps; (e, .ord i')

/-- reset of an index: clear the backing store and, when documents are
given, insert them all (index-basic.js rolls the insertion back on error,
leaving the index cleared; the unique-string index validates first). -/
def idxReset : Idx → List Value → Option IdxErr × Idx
  | .usi i, ds => let (e, i') := usiInsert { i with map := [] } ds; (e, .usi i')
  | .ord i, ds => let (e, i') := oidxInsertMulti { i with tree := [] } ds; (e, .ord i')

/-- Insertion phase of addToIndexes in datastore.js: walk the indexes in
order, returning the updated list, the error of the failing insert if any,
and the count of successful inserts before it (totalRevertible). -/
def idxInsertPhase (d : Value) : List Idx → List Idx × Option IdxErr × Nat
  | [] => ([], none, 0)
  | i :: rest =>
    match idxInsertOne i d with
    | (some e, i') => (i' :: rest, some e, 0)
    | (none, i') =>
      let (rest', e, k) := idxInsertPhase d rest
      (i' :: rest', e, match e with | none => 0 | some _ => k + 1)

/-- Rollback loop of addToIndexes: remove the document from the first k
indexes, from position k-1 down to position 0, aborting when a removal
itself throws. -/
def idxRollbackFirst (d : Value) : Nat → List Idx → Option IdxErr × List Idx
  | 0, l => (none, l)
  | _ + 1, [] => (none, [])
  | k + 1, i :: rest =>
    match idxRollbackFirst d k rest with
    | (some e, rest') => (some e, i :: rest')
    | (none, rest') =>
      let (e, i') := idxRemoveOne i d
      (e, i' :: rest')

/-- addToIndexes from datastore.js: insert one document into every index;
on failure remove it from every index already written (in reverse order)
and surface the error (an exception of the rollback replaces it). -/
def addToIndexes (d : Value) (idxs : List Idx) : Option IdxErr × List Idx :=
  let (idxs1, e, k) := idxInsertPhase d idxs
  match e with
  | none => (none, idxs1)
  | some e =>
    let (e2, idxs2) := idxRollbackFirst d k idxs1
    (some (match e2 with | some e2 => e2 | none => e), idxs2)

/-- _removeFromIndexes from datastore.js for one document: remove it from
every index in order (a thrown removal aborts the loop). -/
def removeFromIndexes (d : Value) : List Idx → Option IdxErr × List Idx
  | [] => (none, [])
  | i :: rest =>
    match idxRemoveOne i d with
    | (some e, i') => (some e, i' :: rest)
    | (none, i') =>
      let (e, rest') := removeFromIndexes d rest
      (e, i' :: rest')

/-- Insertion phase of _addMultipleDocsToIndexes: addToIndexes per document
in order, with the count of fully indexed documents before a failure. -/
def docsInsertPhase : List Idx → List Value → List Idx × Option IdxErr × Nat
  | idxs, [] => (idxs, none, 0)
  | idxs, d :: ds =>
    match addToIndexes d idxs with
    | (some e, idxs') => (idxs', some e, 0)
    | (none, idxs') =>
      let (idxs'', e, k) := docsInsertPhase idxs' ds
      (idxs'', e, match e with | none => 0 | some _ => k + 1)

/-- Rollback loop of _addMultipleDocsToIndexes: _removeFromIndexes for the
first k documents, from position k-1 down to 0, aborting on an exception. -/
def docsRollbackFirst : Nat → List Value → List Idx → Option IdxErr × List Idx
  | 0, _, idxs => (none, idxs)
  | _ + 1, [], idxs => (none, idxs)
  | k + 1, d :: ds, idxs =>
    match docsRollbackFirst k ds idxs with
    | (some e, idxs') => (some e, idxs')
    | (none, idxs') => removeFromIndexes d idxs'

/-- _addMultipleDocsToIndexes from datastore.js. -/
def addMultipleDocsToIndexes (docs : List Value) (idxs : List Idx) : Option IdxErr × List Idx :=
  let (idxs1, e, k) := docsInsertPhase idxs docs
  match e with
  | none => (none, idxs1)
  | some e =>
    let (e2, idxs2) := docsRollbackFirst k docs idxs1
    (some (match e2 with | some e2 => e2 | none => e), idxs2)

/-- Update phase of _updateIndexes: vectorized update per index in order,
with the count of indexes updated before a failure. -/
def idxUpdatePhase (pairs : List (Value × Value)) : List Idx → List Idx × Option IdxErr × Nat
  | [] => ([], none, 0)
  | i :: rest =>
    match idxUpdatePairs i pairs with
    | (some e, i') => (i' :: rest, some e, 0)
    | (none, i') =>
      let (rest', e, k) := idxUpdatePhase pairs rest
      (i' :: rest', e, match e with | none => 0 | some _ => k + 1)

/-- Rollback loop of _updateIndexes: revertUpdate on the first k indexes,
from position k-1 down to 0, aborting on an exception. -/
def idxRevertFirst (pairs : List (Value × Value)) : Nat → List Idx → Option IdxErr × List Idx
  | 0, l => (none, l)
  | _ + 1, [] => (none, [])
  | k + 1, i :: rest =>
    match idxRevertFirst pairs k rest with
    | (some e, rest') => (some e, i :: rest')
    | (none, rest') =>
      let (e, i') := idxRevertPairs i pairs
      (e, i' :: rest')

/-- _updateIndexes from datastore.js on a list of old and new pairs. -/
def updateIndexes (pairs : List (Value × Value)) (idxs : List Idx) : Option IdxErr × List Idx :=
  let (idxs1, e, k) := idxUpdatePhase pairs idxs
  match e with
  | none => (none, idxs1)
  | some e =>
    let (e2, idxs2) := idxRevertFirst pairs k idxs1
    (some (match e2 with | some e2 => e2 | none => e), idxs2)

/-- getAllData: all documents of the primary index (the index stored under
the _id key). -/
def getAllData (idxs : List Idx) : List Value :=
  match idxs.find? (fun i => idxFieldName i = "_id") with
  | some i => idxDocs i
  | none => []

/-- Reference-freshness of a document with respect to an index, the
structural stand-in for the fact that a freshly cloned document object is
not identical to any object already stored: no ordered-index entry holds
the document (the unique-string index rolls back by key, so it needs no
freshness). -/
def docFreshB (d : Value) : Idx → Bool
  | .usi _ => true
  | .ord i => i.tree.all (fun p => !(decide (p.2 = d)))

/-- Entry equality of the AVL content, routed through decidable equality
so that counting lemmas share one instance. -/
instance beqVPInst : BEq (Value × Value) := instBEqOfDecidableEq

/-- Lawfulness of the routed entry equality. -/
instance lawfulBeqVPInst : LawfulBEq (Value × Value) :=
  ⟨fun h => of_decide_eq_true h, fun {a} => decide_eq_true rfl⟩

/-- Values under which one document is indexed by an ordered index on a
field: the deduplicated elements of an array field value, the plain field
value otherwise, and nothing when the dot resolution throws. -/
def docKeys (f : String) (d : Value) : List Value :=
  match getDotValue d f with
  | .error _ => []
  | .ok (Value.arr elems) => toDateSafeUnique elems
  | .ok fv => [fv]

/-- Entries one document contributes to the tree of an ordered index:
none under the sparse skip, one entry per indexed value otherwise. -/
def docEntries (f : String) (sp : Bool) (d : Value) : List (Value × Value) :=
  match getDotValue d f with
  | .error _ => []
  | .ok fv =>
    if fv = Value.undef ∧ sp = true then []
    else (docKeys f d).map (fun v => (v, d))

/-- Keys one document effectively contributes to an ordered index (none
under the sparse skip). -/
def docKeysEff (f : String) (sp : Bool) (d : Value) : List Value :=
  (docEntries f sp d).map Prod.fst

/-- Entries contributed by a list of documents, in order. -/
def entriesSeq (f : String) (sp : Bool) : List Value → List (Value × Value)
  | [] => []
  | d :: ds => docEntries f sp d ++ entriesSeq f sp ds

/-- The deletion predicate of remove on an ordered index: an entry is
dropped when its key compares equal to one of the removed document's
indexed values and it holds that document. -/
def remPred (f : String) (d : Value) (q : Value × Value) : Bool :=
  (docKeys f d).any (fun v => compareThings q.1 v == 0) && decide (q.2 = d)

/-- Conditions under which one old and new pair interacts cleanly with an
ordered index: both field values resolve without throwing, the new
document is not yet stored, the entries matched by the removal of the old
document are exactly its canonical entries (unless the sparse skip
applies), and under a unique index every stored entry whose key compares
equal to an old key belongs to the old document and the old keys are
pairwise distinct under comparison. -/
def ordPairRestorable (o : OIdx) (p : Value × Value) : Prop :=
  ∃ fvo fvn,
    getDotValue p.1 o.fieldName = Except.ok fvo ∧
    getDotValue p.2 o.fieldName = Except.ok fvn ∧
    (∀ q ∈ o.tree, q.2 ≠ p.2) ∧
    (¬(fvo = Value.undef ∧ o.sparse = true) →
      List.Perm (o.tree.filter (remPred o.fieldName p.1))
        (docEntries o.fieldName o.sparse p.1)) ∧
    (o.unique = true → ¬(fvo = Value.undef ∧ o.sparse = true) →
      ∀ q ∈ o.tree, ∀ v ∈ docKeys o.fieldName p.1,
        (compareThings q.1 v = 0 ∨ compareThings v q.1 = 0) → q.2 = p.1) ∧
    (o.unique = true →
      (docKeysEff o.fieldName o.sparse p.1).Pairwise
        (fun a b => compareThings a b ≠ 0))

/-- Conditions under which a vectorized update interacts cleanly with an
ordered index (sparse or not, unique or not, array field values allowed):
the old and the new documents are pairwise distinct and every pair is
individually restorable. -/
def ordRestorable (o : OIdx) (pairs : List (Value × Value)) : Prop :=
  (pairs.map Prod.fst).Pairwise (fun a b => a ≠ b) ∧
  (pairs.map Prod.snd).Pairwise (fun a b => a ≠ b) ∧
  ∀ p ∈ pairs, ordPairRestorable o p

/-- Conditions under which a vectorized update interacts cleanly with the
unique-string index: the stored keys are pairwise distinct (true of a
JavaScript Map), the old documents are valid, their keys are pairwise
distinct and each old document is stored under its key. -/
def usiRestorable (u : USI) (pairs : List (Value × Value)) : Prop :=
  (u.map.map Prod.fst).Pairwise (fun a b => a ≠ b) ∧
  (pairs.map (fun p => usiFieldOf u.fieldName p.1)).Pairwise (fun a b => a ≠ b) ∧
  ∀ p ∈ pairs, usiDocOk u.fieldName p.1 = true ∧ (usiFieldOf u.fieldName p.1, p.1) ∈ u.map

/-- Restorability of an update batch against one index. -/
def idxRestorable : Idx → List (Value × Value) → Prop
  | .usi u, ps => usiRestorable u ps
  | .ord o, ps => ordRestorable o ps

/-- Options accepted by ensureIndex. -/
structure IndexOptions where
  fieldName : String
  unique : Bool
  sparse : Bool
  expireAfterSeconds : Option Value
  deriving Repr, DecidableEq

/-- State of a datastore as the claims need it: the index list (the
primary _id index first, as created by the constructor) and the TTL
mapping ttlIndexes. -/
structure DbState where
  idxs : List Idx
  ttl : List (String × Value)
  deriving Repr, DecidableEq

/-- ensureIndex from datastore.js: reject a missing field name, succeed
without change when an index for the field exists, otherwise create the
ordered index, record the TTL mapping when expireAfterSeconds is given
(before the population attempt, so the mapping survives a failed
population, as in the source), populate it from getAllData, and drop the
new index again when population fails. -/
def ensureIndexM (st : DbState) (opts : IndexOptions) : Option IdxErr × DbState :=
  if opts.fieldName = "" then (some .missingFieldName, st)
  else if st.idxs.any (fun i => idxFieldName i = opts.fieldName) then (none, st)
  else
    let ttl' := match opts.expireAfterSeconds with
      | some v => mapSet st.ttl opts.fieldName v
      | none => st.ttl
    let newIdx : OIdx := ⟨opts.fieldName, opts.unique, opts.sparse, []⟩
    match oidxInsertMulti newIdx (getAllData st.idxs) with
    | (some e, _) => (some e, { st with ttl := ttl' })
    | (none, populated) => (none, { idxs := st.idxs ++ [.ord populated], ttl := ttl' })

/-- Sequential _removeFromIndexes over the documents matched by _remove. -/
def removeDocsSeq : List Idx → List Value → Option IdxErr × List Idx
  | idxs, [] => (none, idxs)
  | idxs, d :: ds =>
    match removeFromIndexes d idxs with
    | (some e, idxs') => (some e, idxs')
    | (none, idxs') => removeDocsSeq idxs' ds

/-- The in-memory index effect of one client mutation: the insert path
(addToIndexes for a single document, _addMultipleDocsToIndexes for a
batch, as in _insert), the update path (_updateIndexes), the remove path
(_removeFromIndexes per matched document) and ensureIndex. -/
inductive Mutation where
  | ins : List Value → Mutation
  | upd : List (Value × Value) → Mutation
  | rem : List Value → Mutation
  | ensIdx : IndexOptions → Mutation

/-- Application of a mutation to the datastore state. -/
def applyMutation (st : DbState) : Mutation → Option IdxErr × DbState
  | .ins docs =>
    match docs with
    | [d] => let (e, idxs') := addToIndexes d st.idxs; (e, { st with idxs := idxs' })
    | _ => let (e, idxs') := addMultipleDocsToIndexes docs st.idxs; (e, { st with idxs := idxs' })
  | .upd pairs => let (e, idxs') := updateIndexes pairs st.idxs; (e, { st with idxs := idxs' })
  | .rem docs => let (e, idxs') := removeDocsSeq st.idxs docs; (e, { st with idxs := idxs' })
  | .ensIdx opts => ensureIndexM st opts

/-- Errors of the load path. -/
inductive LoadErr where
  | corruptAlert : LoadErr
  | serialization : LoadErr
  | idx : IdxErr → LoadErr
  deriving Repr, DecidableEq

/-- Result of treatRawData: the surviving documents and the accumulated
index definitions keyed by field name. -/
structure TreatRes where
  data : List Value
  indexes : List (String × Value)
  deriving Repr, DecidableEq

/-- Accumulator of the treatRawData loop: the document map keyed by _id,
the index definitions and the corrupt-line counter (which starts at minus
one: the last line of every data file is usually blank so not really
corrupt, as the source comment puts it). -/
structure TreatAcc where
  dataById : List (Value × Value)
  indexes : List (String × Value)
  corrupt : Int
  deriving Repr, DecidableEq

/-- Set on the _id-keyed document map (object and map versions of the
source coincide for the string identifiers the claims use). -/
def assocSetV (m : List (Value × Value)) (k : Value) (v : Value) : List (Value × Value) :=
  if (m.map Prod.fst).contains k then m.map (fun p => if p.1 = k then (k, v) else p)
  else m ++ [(k, v)]

/-- Delete on the _id-keyed document map. -/
def assocDelV (m : List (Value × Value)) (k : Value) : List (Value × Value) :=
  m.filter (fun p => p.1 ≠ k)

/-- String key coercion of a JavaScript object key (claims exercise only
string field names; object and array coercions are not modelled). -/
def jsKeyString : Value → String
  | .str s => s
  | .num n => toString n
  | .bool true => "true"
  | .bool false => "false"
  | .null => "null"
  | .undef => "undefined"
  | _ => ""

/-- One line of the datafile after the parse step: the JSON tree of the
line, or none when JSON.parse throws (an empty line always fails to
parse, in particular the final empty line a trailing newline produces). -/
def RawLine : Type := Option Value

/-- Processing of one line by treatRawData: an unparseable line counts as
corrupt; a parsed line is deserialized and then dispatched on its _id
(insertion or tombstone), its index-created record, or its index-removed
record; reading the _id of a parsed null throws and also counts as
corrupt. -/
def treatLine (acc : TreatAcc) (line : Option Value) : TreatAcc :=
  match line with
  | none => { acc with corrupt := acc.corrupt + 1 }
  | some j =>
    let doc := deserializeJ j
    if doc = .null ∨ doc = .undef then { acc with corrupt := acc.corrupt + 1 }
    else
      let idv := jsGetSafe doc "_id"
      if truthy idv then
        if jsGetSafe doc "$$deleted" = .bool true then
          { acc with dataById := assocDelV acc.dataById idv }
        else
          { acc with dataById := assocSetV acc.dataById idv doc }
      else
        let ic := jsGetSafe doc "$$indexCreated"
        if truthy ic ∧ jsGetSafe ic "fieldName" ≠ .undef then
          { acc with indexes := mapSet acc.indexes (jsKeyString (jsGetSafe ic "fieldName")) ic }
        else
          match jsGetSafe doc "$$indexRemoved" with
          | .str s => { acc with indexes := mapDel acc.indexes s }
          | _ => acc

/-- treatRawData from persistence.js over the parsed lines of the
datafile; the floating-point corruption ratio is modelled with rational
arithmetic.  The collection is rebuilt by replaying documents and
tombstones in order; loading aborts when the corrupt counter exceeds the
threshold share of the lines. -/
def treatRawDataM (q : ℚ) (lines : List (Option Value)) : Except LoadErr TreatRes :=
  let acc := lines.foldl treatLine ⟨[], [], -1⟩
  if 0 < lines.length ∧ (acc.corrupt : ℚ) / (lines.length : ℚ) > q then .error .corruptAlert
  else .ok ⟨acc.dataById.map Prod.snd, acc.indexes⟩


/-- Test deciding whether treatRawData counts a line as corrupt: an
unparseable line, or a parsed line whose deserialization is null or
undefined (reading its _id would throw). -/
def corruptLineB : Option Value → Bool
  | none => true
  | some j => if deserializeJ j = Value.null ∨ deserializeJ j = Value.undef then true else false

/-- Record written by persistCachedDatabase for a non-primary index: only
fieldName, unique and sparse are emitted (expireAfterSeconds is not). -/
def idxOptionLine (o : OIdx) : Value :=
  .obj [("$$indexCreated",
    .obj [("fieldName", .str o.fieldName), ("unique", .bool o.unique), ("sparse", .bool o.sparse)])]

/-- Non-primary ordered indexes of the datastore, in index-dictionary
order (persistCachedDatabase skips the field name _id; the only
unique-string index a datastore holds is the primary). -/
def nonPrimaryOrds (idxs : List Idx) : List OIdx :=
  idxs.filterMap (fun i =>
    match i with
    | .ord o => if o.fieldName ≠ "_id" then some o else none
    | .usi _ => none)

/-- persistCachedDatabase (compaction) from persistence.js modelled at the
record level: one serialized line per live document of getAllData followed
by one index-created line per non-primary index; the crash-safe whole-file
write is the storage collaborator and replaces the file with exactly these
lines.  Reading the file back splits on the final newline, which appends
one empty (unparseable) line. -/
def serializeEach : List Value → Except SerErr (List Value)
  | [] => .ok []
  | v :: vs =>
    match serializeJ v with
    | .error e => .error e
    | .ok j =>
      match serializeEach vs with
      | .error e => .error e
      | .ok js => .ok (j :: js)

/-- persistCachedDatabase record list, continued: serialize the documents
then the index records, propagating a serialization exception. -/
def persistCachedLines (st : DbState) : Except SerErr (List Value) :=
  match serializeEach (getAllData st.idxs) with
  | .error e => .error e
  | .ok docLines =>
    match serializeEach ((nonPrimaryOrds st.idxs).map idxOptionLine) with
    | .error e => .error e
    | .ok idxLines => .ok (docLines ++ idxLines)

/-- Parsed line list an on-disk file written with the given records
produces on reading: every record parses back to itself (the native JSON
codec is exact on JSON trees) and the trailing newline yields one final
empty line that does not parse. -/
def readBackLines (records : List Value) : List (Option Value) :=
  records.map some ++ [none]

/-- Reset of all indexes with the loaded documents (resetIndexes in
datastore.js as called by loadDatabase), aborting on the first failure
(whereupon loadDatabase resets everything and surfaces the error). -/
def idxResetAll : List Idx → List Value → Option IdxErr × List Idx
  | [], _ => (none, [])
  | i :: rest, docs =>
    match idxReset i docs with
    | (some e, i') => (some e, i' :: rest)
    | (none, i') =>
      let (e, rest') := idxResetAll rest docs
      (e, i' :: rest')

/-- Ordered index reconstructed by loadDatabase from a captured
index-created record (new Index of the stored options). -/
def idxFromOptions (ic : Value) : OIdx :=
  ⟨(match jsGetSafe ic "fieldName" with | .str s => s | _ => ""),
   truthy (jsGetSafe ic "unique"), truthy (jsGetSafe ic "sparse"), []⟩

/-- loadDatabase from persistence.js into a fresh datastore (the state a
new process holds before replaying the file): treat the raw data, recreate
one ordered index per captured definition next to the fresh primary index,
and fill every index with the surviving documents.  The TTL mapping of a
fresh datastore is empty and loadDatabase never writes it. -/
def loadStateM (q : ℚ) (lines : List (Option Value)) : Except LoadErr DbState :=
  match treatRawDataM q lines with
  | .error e => .error e
  | .ok tr =>
    let idxs0 := Idx.usi ⟨"_id", []⟩ :: tr.indexes.map (fun p => Idx.ord (idxFromOptions p.2))
    match idxResetAll idxs0 tr.data with
    | (some e, _) => .error (.idx e)
    | (none, idxs1) => .ok ⟨idxs1, []⟩

/-- State of the executor (executor.js): the readiness flag, the buffer of
tasks received before readiness, the run queue, and the task currently
executing.  Tasks are identified abstractly. -/
structure ExecState where
  ready : Bool
  buffer : List Nat
  tasks : List Nat
  current : Option Nat
  deriving Repr, DecidableEq

/-- Events of the executor: push of one task (pushing an array is the same
sequence of single pushes), processBuffer, a scheduled processNext wake-up
(setImmediate is the scheduler of the host and may fire at any time), and
completion of the current task through the wrapped callback. -/
inductive ExecEv where
  | push : Nat → Bool → ExecEv
  | procBuffer : ExecEv
  | procNext : ExecEv
  | finish : ExecEv
  deriving Repr, DecidableEq

/-- One step of the executor: push appends to the run queue when ready or
forced and to the buffer otherwise; processBuffer marks the executor ready
and moves the whole buffer to the run queue in order; processNext starts
the head of the run queue only when no task is executing; finishing
clears the current task (a second completion of the same task throws in
the source and changes nothing). -/
def execStep (st : ExecState) : ExecEv → ExecState
  | .push t force =>
      if st.ready || force then { st with tasks := st.tasks ++ [t] }
      else { st with buffer := st.buffer ++ [t] }
  | .procBuffer => { st with ready := true, tasks := st.tasks ++ st.buffer, buffer := [] }
  | .procNext =>
      if st.current ≠ none ∨ st.tasks = [] then st
      else { st with current := st.tasks.head?, tasks := st.tasks.tail }
  | .finish =>
      match st.current with
      | none => st
      | some _ => { st with current := none }

/-- Run of the executor over an event list, also returning the list of
tasks started (in the order processNext dequeued them), the list of tasks
that entered the run queue (in arrival order) and the list of completed
tasks. -/
def execRun (st : ExecState) : List ExecEv → ExecState × List Nat × List Nat × List Nat
  | [] => (st, [], [], [])
  | ev :: evs =>
    let started0 : List Nat :=
      match ev with
      | .procNext => if st.current = none then st.tasks.take 1 else []
      | _ => []
    let arrived0 : List Nat :=
      match ev with
      | .push t force => if st.ready || force then [t] else []
      | .procBuffer => st.buffer
      | _ => []
    let finished0 : List Nat :=
      match ev, st.current with
      | .finish, some t => [t]
      | _, _ => []
    let r := execRun (execStep st ev) evs
    (r.1, started0 ++ r.2.1, arrived0 ++ r.2.2.1, finished0 ++ r.2.2.2)

mutual
/-- Documents whose arrays contain no null and no undefined elements at
any nesting level; on these getDotValue cannot throw. -/
def cleanArrays : Value → Bool
  | .arr xs => cleanElems xs
  | .obj f => cleanFieldVals f
  | _ => true
def cleanElems : List Value → Bool
  | [] => true
  | x :: xs =>
    !(decide (x = Value.null)) && !(decide (x = Value.undef)) && cleanArrays x && cleanElems xs
def cleanFieldVals : List (String × Value) → Bool
  | [] => true
  | (_, v) :: f => cleanArrays v && cleanFieldVals f
end

/-- Contribution of the current-task slot to the execution count. -/
def curCount (st : ExecState) : Nat := if st.current = none then 0 else 1

/-!
Theorems.  Each claim of the frozen list gets exactly one theorem (plus a
witness for theorems with hypotheses, and a counterexample for corrected
claims); the remaining theorems are shared supporting lemmas.
-/

theorem execRun_fifo (evs : List ExecEv) : ∀ st : ExecState,
    (execRun st evs).2.1 ++ (execRun st evs).1.tasks
      = st.tasks ++ (execRun st evs).2.2.1 := by
  induction evs with
  | nil => intro st; simp [execRun]
  | cons ev evs ih =>
    intro st
    cases ev with
    | push t force =>
      by_cases hr : (st.ready || force) = true
      · have h := ih { st with tasks := st.tasks ++ [t] }
        simp [execRun, execStep, hr] at h ⊢
        simp [h]
      · have h := ih { st with buffer := st.buffer ++ [t] }
        simp [execRun, execStep, hr] at h ⊢
        simp [h]
    | procBuffer =>
      have h := ih { st with ready := true, tasks := st.tasks ++ st.buffer, buffer := [] }
      simp [execRun, execStep] at h ⊢
      simp [h]
    | procNext =>
      by_cases hc : st.current = none
      · cases ht : st.tasks with
        | nil =>
          have h := ih st
          simp [execRun, execStep, hc, ht] at h ⊢
          simp [h]
        | cons x xs =>
          have h := ih { st with current := some x, tasks := xs }
          simp [execRun, execStep, hc, ht] at h ⊢
          simp [h]
      · have h := ih st
        simp [execRun, execStep, hc] at h ⊢
        simp [h]
    | finish =>
      cases hc : st.current with
      | none =>
        have h := ih st
        simp [execRun, execStep, hc] at h ⊢
        simp [h]
      | some t =>
        have h := ih { st with current := none }
        simp [execRun, execStep, hc] at h ⊢
        simp [h]

theorem execRun_serial (evs : List ExecEv) : ∀ st : ExecState,
    (execRun st evs).2.1.length + curCount st
      = (execRun st evs).2.2.2.length + curCount (execRun st evs).1 := by
  induction evs with
  | nil => intro st; simp [execRun]
  | cons ev evs ih =>
    intro st
    cases ev with
    | push t force =>
      by_cases hr : (st.ready || force) = true
      · have h := ih { st with tasks := st.tasks ++ [t] }
        simp [execRun, execStep, hr, curCount] at h ⊢
        omega
      · have h := ih { st with buffer := st.buffer ++ [t] }
        simp [execRun, execStep, hr, curCount] at h ⊢
        omega
    | procBuffer =>
      have h := ih { st with ready := true, tasks := st.tasks ++ st.buffer, buffer := [] }
      simp [execRun, execStep, curCount] at h ⊢
      omega
    | procNext =>
      by_cases hc : st.current = none
      · cases ht : st.tasks with
        | nil =>
          have h := ih st
          simp [execRun, execStep, hc, ht, curCount] at h ⊢
          omega
        | cons x xs =>
          have h := ih { st with current := some x, tasks := xs }
          simp [execRun, execStep, hc, ht, curCount] at h ⊢
          omega
      · have h := ih st
        simp [execRun, execStep, hc, curCount] at h ⊢
        omega
    | finish =>
      cases hc : st.current with
      | none =>
        have h := ih st
        simp [execRun, execStep, hc, curCount] at h ⊢
        omega
      | some t =>
        have h := ih { st with current := none }
        simp [execRun, execStep, hc, curCount] at h ⊢
        omega

/-- Claim C9: the executor runs tasks one at a time in FIFO order; a task
pushed without forceQueuing while the executor is not ready goes into the
buffer and not into the run queue; a task pushed with forceQueuing enters
the run queue directly even when the executor is not ready; processBuffer
appends all buffered tasks to the run queue in arrival order (and marks
the executor ready).  FIFO order is stated as: over any event sequence,
the tasks started (in start order) followed by the remaining run queue
are exactly the initial run queue followed by the tasks that entered the
run queue, in arrival order; one at a time is stated as: the number of
started tasks never exceeds the number of completed tasks by more than
the one occupied execution slot, and a wake-up while a task is executing
changes nothing. -/
theorem claim_C9_executor :
    (∀ (st : ExecState) (t : Nat), st.ready = false →
      execStep st (.push t false) = { st with buffer := st.buffer ++ [t] }) ∧
    (∀ (st : ExecState) (t : Nat),
      execStep st (.push t true) = { st with tasks := st.tasks ++ [t] }) ∧
    (∀ st : ExecState,
      execStep st .procBuffer = { st with ready := true, tasks := st.tasks ++ st.buffer, buffer := [] }) ∧
    (∀ st : ExecState, st.current ≠ none → execStep st .procNext = st) ∧
    (∀ (st : ExecState) (evs : List ExecEv),
      (execRun st evs).2.1 ++ (execRun st evs).1.tasks = st.tasks ++ (execRun st evs).2.2.1) ∧
    (∀ (st : ExecState) (evs : List ExecEv),
      (execRun st evs).2.1.length + curCount st
        = (execRun st evs).2.2.2.length + curCount (execRun st evs).1) := by
  refine ⟨?_, ?_, ?_, ?_, ?_, ?_⟩
  · intro st t hr; simp [execStep, hr]
  · intro st t; simp [execStep]
  · intro st; simp [execStep]
  · intro st hc; simp [execStep, hc]
  · intro st evs; exact execRun_fifo evs st
  · intro st evs; exact execRun_serial evs st

theorem claim_C9_witness :
    execStep ⟨false, [2], [9], none⟩ (.push 7 false) = ⟨false, [2, 7], [9], none⟩ ∧
    (execRun ⟨true, [], [3, 4], none⟩ [.procNext, .finish, .procNext]).2.1 = [3, 4] := by
  constructor
  · exact claim_C9_executor.1 ⟨false, [2], [9], none⟩ 7 rfl
  · rfl

theorem cleanElems_cons {o : Value} {os : List Value} (h : cleanElems (o :: os) = true) :
    o ≠ .null ∧ o ≠ .undef ∧ cleanArrays o = true ∧ cleanElems os = true := by
  simp only [cleanElems, Bool.and_eq_true] at h
  obtain ⟨⟨⟨hn, hu⟩, hco⟩, hcos⟩ := h
  refine ⟨?_, ?_, hco, hcos⟩
  · simpa using hn
  · simpa using hu

theorem cleanElems_getD {xs : List Value} (h : cleanElems xs = true) (n : Nat) :
    cleanArrays (xs.getD n .undef) = true := by
  induction xs generalizing n with
  | nil => simp [List.getD, cleanArrays]
  | cons y ys ih =>
    rcases cleanElems_cons h with ⟨_, _, hy, hys⟩
    cases n with
    | zero => simpa [List.getD] using hy
    | succ n => simpa [List.getD] using ih hys n

theorem cleanFieldVals_lookup {f : List (String × Value)} (h : cleanFieldVals f = true)
    (k : String) : cleanArrays ((f.lookup k).getD .undef) = true := by
  induction f with
  | nil => simp [List.lookup, cleanArrays]
  | cons p ps ih =>
    rcases p with ⟨k', v⟩
    simp only [cleanFieldVals, Bool.and_eq_true] at h
    by_cases he : k == k'
    · simpa [List.lookup, he] using h.1
    · simpa [List.lookup, he] using ih h.2

theorem cleanArrays_jsGetSafe {v : Value} (h : cleanArrays v = true) (p : String) :
    cleanArrays (jsGetSafe v p) = true := by
  cases v with
  | obj f => exact cleanFieldVals_lookup (by simpa [cleanArrays] using h) p
  | arr xs =>
    simp only [jsGetSafe, jsArrGet]
    split
    · simp [cleanArrays]
    · split
      · exact cleanElems_getD (by simpa [cleanArrays] using h) _
      · simp [cleanArrays]
  | str s =>
    simp only [jsGetSafe, jsStrGet]
    split
    · simp [cleanArrays]
    · split
      · split
        · simp [cleanArrays]
        · simp [cleanArrays]
      · simp [cleanArrays]
  | undef => simp [jsGetSafe, cleanArrays]
  | null => simp [jsGetSafe, cleanArrays]
  | bool b => simp [jsGetSafe, cleanArrays]
  | num n => simp [jsGetSafe, cleanArrays]
  | date d => simp [jsGetSafe, cleanArrays]

theorem projSegLast_ok {xs : List Value} (h : cleanElems xs = true) (p : String) :
    ∃ ws, projSegLast xs p = .ok ws := by
  induction xs with
  | nil => exact ⟨[], rfl⟩
  | cons o os ih =>
    rcases cleanElems_cons h with ⟨ho1, ho2, _, hos⟩
    rcases ih hos with ⟨ws, hws⟩
    refine ⟨jsGetSafe o p :: ws, ?_⟩
    simp [projSegLast, jsGetE, ho1, ho2, hws]

theorem getDot_total_aux : ∀ n : Nat, ∀ segs : List String, segs.length ≤ n →
    (∀ v, cleanArrays v = true → ∃ w, walkSegs v segs = .ok w) ∧
    (∀ v, cleanArrays v = true → ∃ w, getDotValueSegs v segs = .ok w) ∧
    (∀ xs prop, cleanElems xs = true → ∃ ws, projSegRec xs prop segs = .ok ws) := by
  intro n
  induction n with
  | zero =>
    intro segs hlen
    have hnil : segs = [] := List.length_eq_zero.mp (Nat.le_zero.mp hlen)
    subst hnil
    have W : ∀ v, cleanArrays v = true → ∃ w, walkSegs v [] = .ok w :=
      fun v _ => ⟨v, by simp [walkSegs]⟩
    have G : ∀ v, cleanArrays v = true → ∃ w, getDotValueSegs v [] = .ok w := by
      intro v hv
      by_cases hnv : v = .null ∨ v = .undef
      · exact ⟨v, by simp [getDotValueSegs, hnv]⟩
      · exact ⟨v, by simp [getDotValueSegs, hnv, walkSegs]⟩
    refine ⟨W, G, ?_⟩
    intro xs prop hxs
    induction xs with
    | nil => exact ⟨[], by simp [projSegRec]⟩
    | cons o os ih =>
      rcases cleanElems_cons hxs with ⟨ho1, ho2, hco, hos⟩
      rcases ih hos with ⟨ws, hws⟩
      rcases G (jsGetSafe o prop) (cleanArrays_jsGetSafe hco prop) with ⟨w, hw⟩
      exact ⟨w :: ws, by simp [projSegRec, jsGetE, ho1, ho2, hw, hws]⟩
  | succ n ihn =>
    intro segs hlen
    have W : ∀ v, cleanArrays v = true → ∃ w, walkSegs v segs = .ok w := by
      intro v hv
      cases segs with
      | nil => exact ⟨v, by simp [walkSegs]⟩
      | cons prop rest =>
        have hrest : rest.length ≤ n := by
          simp only [List.length_cons] at hlen; omega
        by_cases htr : truthy v = true
        · by_cases hpe : prop = ""
          · subst hpe
            exact ⟨v, by rw [walkSegs.eq_def]; simp [htr]⟩
          · cases v with
            | arr xs =>
              have hxs : cleanElems xs = true := by simpa [cleanArrays] using hv
              by_cases hre : rest.isEmpty
              · by_cases hia : isIndexSeg prop = true
                · exact ⟨jsArrGet xs prop, by simp [walkSegs, htr, hpe, hre, hia]⟩
                · rcases projSegLast_ok hxs prop with ⟨ws, hws⟩
                  exact ⟨.arr ws, by simp [walkSegs, htr, hpe, hre, hia, hws]⟩
              · by_cases hia : isIndexSeg prop = true
                · have hcl : cleanArrays (jsArrGet xs prop) = true := by
                    have h2 := cleanArrays_jsGetSafe (v := .arr xs) hv prop
                    simpa [jsGetSafe] using h2
                  rcases (ihn rest hrest).2.1 _ hcl with ⟨w, hw⟩
                  exact ⟨w, by simp [walkSegs, htr, hpe, hre, hia, hw]⟩
                · rcases (ihn rest hrest).2.2 xs prop hxs with ⟨ws, hws⟩
                  exact ⟨.arr ws, by simp [walkSegs, htr, hpe, hre, hia, hws]⟩
            | obj f =>
              rcases (ihn rest hrest).1 (jsGetSafe (.obj f) prop)
                  (cleanArrays_jsGetSafe hv prop) with ⟨w, hw⟩
              exact ⟨w, by simp only [walkSegs, htr, hpe]; simpa using hw⟩
            | undef => simp [truthy] at htr
            | null => simp [truthy] at htr
            | bool b =>
              rcases (ihn rest hrest).1 (jsGetSafe (.bool b) prop)
                  (cleanArrays_jsGetSafe hv prop) with ⟨w, hw⟩
              exact ⟨w, by simp only [walkSegs, htr, hpe]; simpa using hw⟩
            | num m =>
              rcases (ihn rest hrest).1 (jsGetSafe (.num m) prop)
                  (cleanArrays_jsGetSafe hv prop) with ⟨w, hw⟩
              exact ⟨w, by simp only [walkSegs, htr, hpe]; simpa using hw⟩
            | str s =>
              rcases (ihn rest hrest).1 (jsGetSafe (.str s) prop)
                  (cleanArrays_jsGetSafe hv prop) with ⟨w, hw⟩
              exact ⟨w, by simp only [walkSegs, htr, hpe]; simpa using hw⟩
            | date d =>
              rcases (ihn rest hrest).1 (jsGetSafe (.date d) prop)
                  (cleanArrays_jsGetSafe hv prop) with ⟨w, hw⟩
              exact ⟨w, by simp only [walkSegs, htr, hpe]; simpa using hw⟩
        · exact ⟨.undef, by rw [walkSegs.eq_def]; simp [htr]⟩
    have G : ∀ v, cleanArrays v = true → ∃ w, getDotValueSegs v segs = .ok w := by
      intro v hv
      by_cases hnv : v = .null ∨ v = .undef
      · exact ⟨v, by simp [getDotValueSegs, hnv]⟩
      · rcases W v hv with ⟨w, hw⟩
        exact ⟨w, by simp [getDotValueSegs, hnv, hw]⟩
    refine ⟨W, G, ?_⟩
    intro xs prop hxs
    induction xs with
    | nil => exact ⟨[], by simp [projSegRec]⟩
    | cons o os ih =>
      rcases cleanElems_cons hxs with ⟨ho1, ho2, hco, hos⟩
      rcases ih hos with ⟨ws, hws⟩
      rcases G (jsGetSafe o prop) (cleanArrays_jsGetSafe hco prop) with ⟨w, hw⟩
      exact ⟨w :: ws, by simp [projSegRec, jsGetE, ho1, ho2, hw, hws]⟩

theorem claim_C10_counterexample :
    getDotValue (.obj [("a", .arr [.null])]) "a.b" = .error () := by
  have hsplit : splitDots "a.b" = ["a", "b"] := rfl
  have hdot : hasDot "a.b" = true := rfl
  simp [getDotValue, hdot, hsplit, walkSegs, truthy, jsGetSafe, List.lookup,
    isIndexSeg, projSegLast, jsGetE, getDotValueSegs]

/-- Claim C10 as amended: getDotValue cannot throw on documents whose
arrays contain no null and no undefined elements (in general a non-index
segment projected over an array holding a null or undefined element throws
a TypeError, as the counterexample shows); an empty dot path returns the
value unchanged, an empty segment stops the walk and returns the current
truthy value, null and undefined documents are returned unchanged, and a
missing field in the object walk makes the remaining walk yield
undefined. -/
theorem claim_C10_getdotvalue :
    (∀ (v : Value) (p : String), cleanArrays v = true → ∃ w, getDotValue v p = .ok w) ∧
    (∀ v : Value, getDotValue v "" = .ok v) ∧
    (∀ (v : Value) (rest : List String), truthy v = true → walkSegs v ("" :: rest) = .ok v) ∧
    (∀ p : String, getDotValue .undef p = .ok .undef ∧ getDotValue .null p = .ok .null) ∧
    (∀ (f : List (String × Value)) (k k2 : String) (rest : List String),
      f.lookup k = none → k ≠ "" → walkSegs (.obj f) (k :: k2 :: rest) = .ok .undef) := by
  refine ⟨?_, ?_, ?_, ?_, ?_⟩
  · intro v p hv
    by_cases h1 : p = "" ∨ v = .null ∨ v = .undef
    · exact ⟨v, by simp [getDotValue, h1]⟩
    · by_cases h2 : hasDot p = false
      · exact ⟨jsGetSafe v p, by simp [getDotValue, h1, h2]⟩
      · rcases (getDot_total_aux (splitDots p).length (splitDots p) le_rfl).1 v hv
          with ⟨w, hw⟩
        exact ⟨w, by simp [getDotValue, h1, h2, hw]⟩
  · intro v; simp [getDotValue]
  · intro v rest htr; rw [walkSegs.eq_def]; simp [htr]
  · intro p; constructor <;> simp [getDotValue]
  · intro f k k2 rest hk hke
    have h1 : truthy (Value.obj f) = true := rfl
    simp only [walkSegs, h1, hke]
    simp [jsGetSafe, hk, walkSegs, truthy, getDotValueSegs, hke]

theorem claim_C10_witness :
    (∃ w, getDotValue (.obj [("a", .obj [("b", .num 7)])]) "a.b" = .ok w) ∧
    walkSegs (.obj [("x", .num 1)]) ("" :: ["y"]) = .ok (.obj [("x", .num 1)]) := by
  constructor
  · exact claim_C10_getdotvalue.1 (.obj [("a", .obj [("b", .num 7)])]) "a.b" (by decide)
  · exact claim_C10_getdotvalue.2.2.1 (.obj [("x", .num 1)]) ["y"] (by decide)

/-- Claim C7: whatever the modifier table does, a normal return of
modifyDoc carries the _id of the original document (first conjunct); a
full-replacement update (no dollar-prefixed keys) that returns normally
returns the clone of the update query with the _id overwritten by the
original _id (second conjunct); an update query containing an _id
different from the _id of the document throws (third conjunct). -/
theorem claim_C7_modifydoc :
    (∀ (table : String → Option ModFn) (d u r : Value),
      modifyDocWith table d u = .ok r → jsGetSafe r "_id" = jsGetSafe d "_id") ∧
    (∀ (table : String → Option ModFn) (d : Value) (uf : List (String × Value)) (r : Value),
      (uf.map Prod.fst).all (fun k => !(startsDollar k)) = true →
      modifyDocWith table d (.obj uf) = .ok r →
      r = .obj (objSet (cloneDeepFields false uf) "_id" (jsGetSafe d "_id"))) ∧
    (∀ (table : String → Option ModFn) (d : Value) (uf : List (String × Value)),
      (uf.map Prod.fst).contains "_id" = true →
      jsGetSafe (.obj uf) "_id" ≠ jsGetSafe d "_id" →
      modifyDocWith table d (.obj uf) = .error .idChange) := by
  refine ⟨?_, ?_, ?_⟩
  · intro table d u r h
    unfold modifyDocWith at h
    split at h
    · exact absurd h (by simp)
    · split at h
      · exact absurd h (by simp)
      · split at h
        · exact absurd h (by simp)
        · split at h
          · exact absurd h (by simp)
          · split at h
            · exact absurd h (by simp)
            · split at h
              · exact absurd h (by simp)
              · next hne =>
                cases h
                by_contra hx
                exact hne (fun he => hx he.symm)
  · intro table d uf r hnodollar h
    have hzero : ((uf.map Prod.fst).filter startsDollar).length = 0 := by
      rw [List.length_eq_zero]
      rw [List.filter_eq_nil_iff]
      intro k hk
      have := List.all_eq_true.mp hnodollar k hk
      simpa using this
    unfold modifyDocWith at h
    split at h
    · exact absurd h (by simp)
    · next ks heq =>
      have hkeys : jsKeysE (Value.obj uf) = Except.ok (uf.map Prod.fst) := rfl
      rw [hkeys] at heq
      injection heq with hks
      subst hks
      split at h
      · exact absurd h (by simp)
      · split at h
        · exact absurd h (by simp)
        · have hset : objSetIdE (cloneDeep false (Value.obj uf)) (jsGetSafe d "_id")
              = Except.ok (Value.obj (objSet (cloneDeepFields false uf) "_id"
                  (jsGetSafe d "_id"))) := rfl
          rw [hset] at h
          split at h
          · exact absurd h (by simp)
          · next d2 heq2 =>
            injection heq2 with hd
            subst hd
            split at h
            · exact absurd h (by simp)
            · by_cases hid : jsGetSafe d "_id" ≠ jsGetSafe (Value.obj (objSet
                  (cloneDeepFields false uf) "_id" (jsGetSafe d "_id"))) "_id"
              · rw [if_pos hid] at h
                exact absurd h (by simp)
              · rw [if_neg hid] at h
                injection h with h2
                exact h2.symm
  · intro table d uf hc hne
    unfold modifyDocWith
    split
    · next e heq =>
      exact absurd heq (by simp [jsKeysE])
    · next ks heq =>
      have hkeys : jsKeysE (Value.obj uf) = Except.ok (uf.map Prod.fst) := rfl
      rw [hkeys] at heq
      injection heq with hks
      subst hks
      split
      · rfl
      · next hfalse => exact absurd ⟨hc, hne⟩ hfalse

theorem claim_C7_witness :
    modifyDocWith (fun _ => none) (.obj [("_id", .str "a"), ("x", .num 1)])
        (.obj [("y", .num 2)]) = .ok (.obj [("y", .num 2), ("_id", .str "a")]) ∧
    jsGetSafe (.obj [("y", .num 2), ("_id", .str "a")]) "_id"
      = jsGetSafe (.obj [("_id", .str "a"), ("x", .num 1)]) "_id" := by
  have h : modifyDocWith (fun _ => none) (.obj [("_id", .str "a"), ("x", .num 1)])
      (.obj [("y", .num 2)]) = .ok (.obj [("y", .num 2), ("_id", .str "a")]) := by rfl
  exact ⟨h, claim_C7_modifydoc.1 (fun _ => none) _ _ _ h⟩

/-- Lookup of the date sentinel key fails on every good field list, since
goodFields forbids that key. -/
theorem goodFields_lookup_date : ∀ f, goodFields f = true → List.lookup "$$date" f = none
  | [], _ => rfl
  | (k, v) :: f, h => by
      simp only [goodFields, Bool.and_eq_true, bne_iff_ne, ne_eq] at h
      have hne : ("$$date" == k) = false := by
        refine beq_eq_false_iff_ne.mpr ?_
        intro he
        exact h.1.1.2 he.symm
      simp [List.lookup, hne, goodFields_lookup_date f h.2]

mutual
/-- Round trip of serialization on good documents: serialize succeeds and
the reviver restores the original value. -/
theorem ser_roundtrip : ∀ v, goodDoc v = true →
    ∃ j, serializeJ v = Except.ok j ∧ reviveElem (reviveJ j) = v
  | .undef, h => by simp [goodDoc] at h
  | .null, _ => ⟨.null, rfl, rfl⟩
  | .bool b, _ => ⟨.bool b, rfl, rfl⟩
  | .num n, _ => ⟨.num n, rfl, rfl⟩
  | .str s, _ => ⟨.str s, rfl, rfl⟩
  | .date d, _ => ⟨.obj [("$$date", .num d)], rfl, by
      simp [reviveJ, reviveFields, reviveElem, jsDateArgMs, truthy, List.lookup]⟩
  | .arr xs, h => by
      have h1 : goodList xs = true := by simpa [goodDoc] using h
      obtain ⟨js, hs, hr⟩ := ser_roundtrip_list xs h1
      refine ⟨.arr js, ?_, ?_⟩
      · simp [serializeJ, hs]
      · simp [reviveJ, reviveElem, hr]
  | .obj f, h => by
      have h1 : goodFields f = true := by
        simp only [goodDoc, Bool.and_eq_true] at h
        exact h.2
      obtain ⟨fs, hs, hr⟩ := ser_roundtrip_fields f h1
      refine ⟨.obj fs, ?_, ?_⟩
      · simp [serializeJ, hs]
      · simp [reviveJ, hr, reviveElem, goodFields_lookup_date f h1]
theorem ser_roundtrip_list : ∀ xs, goodList xs = true →
    ∃ js, serializeArr xs = Except.ok js ∧ reviveArr js = xs
  | [], _ => ⟨[], rfl, rfl⟩
  | x :: xs, h => by
      have hx : goodDoc x = true ∧ goodList xs = true := by
        simpa [goodList, Bool.and_eq_true] using h
      obtain ⟨j, hsj, hrj⟩ := ser_roundtrip x hx.1
      obtain ⟨js, hsl, hrl⟩ := ser_roundtrip_list xs hx.2
      refine ⟨j :: js, ?_, ?_⟩
      · cases x
        case undef => simp [serializeJ] at hsj
        all_goals simp [serializeArr, hsj, hsl]
      · simp [reviveArr, hrj, hrl]
theorem ser_roundtrip_fields : ∀ f, goodFields f = true →
    ∃ fs, serializeFields f = Except.ok fs ∧ reviveFields fs = f
  | [], _ => ⟨[], rfl, rfl⟩
  | (k, v) :: f, h => by
      simp only [goodFields, Bool.and_eq_true, bne_iff_ne, ne_eq] at h
      obtain ⟨⟨⟨hk, hkd⟩, hv⟩, hf⟩ := h
      obtain ⟨j, hsj, hrj⟩ := ser_roundtrip v hv
      obtain ⟨fs, hsf, hrf⟩ := ser_roundtrip_fields f hf
      refine ⟨(k, j) :: fs, ?_, ?_⟩
      · cases v
        case undef => simp [serializeJ] at hsj
        all_goals simp [serializeFields, hk, hsj, hsf]
      · simp [reviveFields, hkd, hrj, hrf]
end

/-- Claim C6, amended: deserialize inverts serialize on every document
free of undefined, of duplicate keys, and of fields named with the
reserved date-encoding key; dates are encoded on disk as the object with
the single millisecond field and restored to the millisecond.  The claim
as stated is refuted by the counterexample below: a valid document may
itself contain a literal field named with the reserved key (checkKey
accepts it with a numeric payload), and the reviver turns it into a date,
so the round trip is not the identity on all valid documents. -/
theorem claim_C6_serialize :
    (∀ v, goodDoc v = true → ∃ j, serializeJ v = Except.ok j ∧ deserializeJ j = v) ∧
    (∀ d : Int, serializeJ (.date d) = Except.ok (.obj [("$$date", .num d)]) ∧
      deserializeJ (.obj [("$$date", .num d)]) = .date d) := by
  constructor
  · intro v h
    obtain ⟨j, hs, hr⟩ := ser_roundtrip v h
    exact ⟨j, hs, hr⟩
  · intro d
    refine ⟨rfl, ?_⟩
    simp [deserializeJ, reviveJ, reviveFields, reviveElem, jsDateArgMs, truthy, List.lookup]

/-- Claim C6 counterexample: a document carrying a literal object field
named with the reserved date key passes checkObject (so insert accepts
it), serializes unchanged, yet deserializes to a different document in
which that object has become a date. -/
theorem claim_C6_counterexample :
    checkObjectOk (Value.obj [("x", Value.obj [("$$date", Value.num 5)])]) = true ∧
    serializeJ (Value.obj [("x", Value.obj [("$$date", Value.num 5)])])
      = Except.ok (Value.obj [("x", Value.obj [("$$date", Value.num 5)])]) ∧
    deserializeJ (Value.obj [("x", Value.obj [("$$date", Value.num 5)])])
      = Value.obj [("x", Value.date 5)] ∧
    Value.obj [("x", Value.date 5)] ≠ Value.obj [("x", Value.obj [("$$date", Value.num 5)])] := by
  exact ⟨rfl, rfl, rfl, by decide⟩

theorem claim_C6_witness :
    goodDoc (Value.obj [("a", Value.date 3), ("b", Value.arr [Value.num 1, Value.null])]) = true ∧
    (∃ j, serializeJ (Value.obj [("a", Value.date 3),
        ("b", Value.arr [Value.num 1, Value.null])]) = Except.ok j ∧
      deserializeJ j = Value.obj [("a", Value.date 3),
        ("b", Value.arr [Value.num 1, Value.null])]) :=
  ⟨by decide, claim_C6_serialize.1 _ (by decide)⟩

/-- Processing one line changes the corrupt counter by one exactly on
corrupt lines and leaves it unchanged otherwise. -/
theorem treatLine_corrupt (acc : TreatAcc) (l : Option Value) :
    (treatLine acc l).corrupt = acc.corrupt + (if corruptLineB l then 1 else 0) := by
  cases l with
  | none => simp [treatLine, corruptLineB]
  | some j =>
    by_cases hd : deserializeJ j = Value.null ∨ deserializeJ j = Value.undef
    · simp [treatLine, corruptLineB, hd]
    · simp only [treatLine, corruptLineB, if_neg hd, if_false, add_zero]
      split
      · split <;> simp
      · split
        · simp
        · split <;> simp

/-- Corrupt counter after the treatRawData fold: the initial value plus
the number of corrupt lines. -/
theorem foldl_treatLine_corrupt : ∀ (lines : List (Option Value)) (acc : TreatAcc),
    (lines.foldl treatLine acc).corrupt = acc.corrupt + (lines.countP corruptLineB : Int)
  | [], acc => by simp
  | l :: ls, acc => by
      have ih := foldl_treatLine_corrupt ls (treatLine acc l)
      simp only [List.foldl_cons]
      rw [ih, treatLine_corrupt, List.countP_cons]
      by_cases h : corruptLineB l = true <;> simp [h] <;> push_cast <;> omega

/-- Claim C8, amended: loading aborts exactly when the number of corrupt
lines MINUS ONE exceeds the threshold share of the lines; on success the
returned documents are the fold of the line replay (tombstones applied
through the per-line delete, stated in the third conjunct) and the
returned index definitions are the accumulated ones.  The claim as stated
is refuted by the counterexample below: the counter starts at minus one
unconditionally, so it is not the final empty line that is uncounted but
one arbitrary corrupt line; a one-line file that is entirely garbage and
has no trailing newline loads without complaint at any threshold. -/
theorem claim_C8_treatrawdata :
    ∀ (q : ℚ) (lines : List (Option Value)),
      (treatRawDataM q lines = Except.error LoadErr.corruptAlert ↔
        0 < lines.length ∧
          ((lines.countP corruptLineB : ℚ) - 1) / (lines.length : ℚ) > q) ∧
      (∀ res, treatRawDataM q lines = Except.ok res →
        res.data = (lines.foldl treatLine ⟨[], [], -1⟩).dataById.map Prod.snd ∧
        res.indexes = (lines.foldl treatLine ⟨[], [], -1⟩).indexes) ∧
      (∀ (acc : TreatAcc) (j : Value),
        ¬(deserializeJ j = Value.null ∨ deserializeJ j = Value.undef) →
        truthy (jsGetSafe (deserializeJ j) "_id") = true →
        jsGetSafe (deserializeJ j) "$$deleted" = Value.bool true →
        (treatLine acc (some j)).dataById
          = assocDelV acc.dataById (jsGetSafe (deserializeJ j) "_id")) := by
  intro q lines
  refine ⟨?_, ?_, ?_⟩
  · have hc : ((lines.foldl treatLine ⟨[], [], -1⟩).corrupt : ℚ)
        = (lines.countP corruptLineB : ℚ) - 1 := by
      have h := foldl_treatLine_corrupt lines ⟨[], [], -1⟩
      rw [h]
      push_cast
      ring
    constructor
    · intro h
      simp only [treatRawDataM] at h
      split at h
      · next hcond =>
        obtain ⟨h1, h2⟩ := hcond
        rw [hc] at h2
        exact ⟨h1, h2⟩
      · exact absurd h (by simp)
    · intro h
      obtain ⟨h1, h2⟩ := h
      rw [← hc] at h2
      simp only [treatRawDataM]
      rw [if_pos ⟨h1, h2⟩]
  · intro res h
    simp only [treatRawDataM] at h
    split at h
    · exact absurd h (by simp)
    · cases h
      exact ⟨rfl, rfl⟩
  · intro acc j hnn htr hdel
    simp only [treatLine]
    rw [if_neg hnn, if_pos htr, if_pos hdel]

/-- Claim C8 counterexample: a datafile consisting of one garbage line
and no trailing newline parses to a single corrupt line, all of the file
is corrupt, yet loading succeeds at the default threshold of one tenth
because the counter started at minus one. -/
theorem claim_C8_counterexample :
    treatRawDataM (1/10) [none] = Except.ok ⟨[], []⟩ ∧
    (([none] : List (Option Value)).countP corruptLineB : ℚ)
      / (([none] : List (Option Value)).length : ℚ) > 1/10 := by
  constructor
  · have hfold : ([none] : List (Option Value)).foldl treatLine ⟨[], [], -1⟩
        = (⟨[], [], 0⟩ : TreatAcc) := rfl
    simp only [treatRawDataM, hfold]
    norm_num
  · norm_num [List.countP, List.countP.go, corruptLineB]

theorem claim_C8_witness :
    treatRawDataM (1/10) [none, none] = Except.error LoadErr.corruptAlert :=
  (claim_C8_treatrawdata (1/10) [none, none]).1.mpr
    (by norm_num [List.countP, List.countP.go, corruptLineB])

/-- Characterization of the integer three-way comparison. -/
theorem cmpInt_eq_neg1 (a b : Int) : cmpInt a b = -1 ↔ a < b := by
  unfold cmpInt
  split
  · constructor <;> intro h2 <;> omega
  · split
    · constructor <;> intro h3 <;> omega
    · constructor <;> intro h3 <;> omega

theorem cmpInt_eq_zero (a b : Int) : cmpInt a b = 0 ↔ a = b := by
  unfold cmpInt
  split
  · constructor <;> intro h2 <;> omega
  · split
    · constructor <;> intro h3 <;> omega
    · constructor <;> intro h3 <;> omega

theorem cmpInt_tri (a b : Int) : cmpInt a b = -1 ∨ cmpInt a b = 0 ∨ cmpInt a b = 1 := by
  unfold cmpInt
  split
  · exact Or.inl rfl
  · split
    · exact Or.inr (Or.inr rfl)
    · exact Or.inr (Or.inl rfl)

theorem cmpInt_swap (a b : Int) : cmpInt b a = -cmpInt a b := by
  unfold cmpInt
  rcases lt_trichotomy a b with h | h | h
  · have h1 : ¬ b < a := by omega
    rw [if_neg h1, if_pos h, if_pos h]
    norm_num
  · subst h
    simp
  · have h1 : ¬ a < b := by omega
    rw [if_pos h, if_neg h1, if_pos h]

/-- Characterization of the string three-way comparison. -/
theorem cmpStr_eq_neg1 (a b : String) : cmpStr a b = -1 ↔ a < b := by
  unfold cmpStr
  rcases lt_trichotomy a b with h | h | h
  · simp [h]
  · subst h
    simp [lt_irrefl]
  · have h1 : ¬ a < b := asymm h
    norm_num [h1, h]

theorem cmpStr_eq_zero (a b : String) : cmpStr a b = 0 ↔ a = b := by
  unfold cmpStr
  rcases lt_trichotomy a b with h | h | h
  · simp [h, ne_of_lt h]
  · subst h
    simp [lt_irrefl]
  · have h1 : ¬ a < b := asymm h
    norm_num [h1, h]
    exact ne_of_gt h

theorem cmpStr_tri (a b : String) : cmpStr a b = -1 ∨ cmpStr a b = 0 ∨ cmpStr a b = 1 := by
  unfold cmpStr
  split
  · exact Or.inl rfl
  · split
    · exact Or.inr (Or.inr rfl)
    · exact Or.inr (Or.inl rfl)

theorem cmpStr_swap (a b : String) : cmpStr b a = -cmpStr a b := by
  unfold cmpStr
  rcases lt_trichotomy a b with h | h | h
  · rw [if_neg (asymm h), if_pos h, if_pos h]
    norm_num
  · subst h
    simp [lt_irrefl]
  · rw [if_pos h, if_neg (asymm h), if_pos h]

/-- Characterization of the boolean three-way comparison (false before
true, as in JavaScript coercion to numbers). -/
theorem cmpBool_eq_neg1 (a b : Bool) : cmpBool a b = -1 ↔ a < b := by
  revert a b
  decide

theorem cmpBool_eq_zero (a b : Bool) : cmpBool a b = 0 ↔ a = b := by
  revert a b
  decide

theorem cmpBool_tri (a b : Bool) : cmpBool a b = -1 ∨ cmpBool a b = 0 ∨ cmpBool a b = 1 := by
  revert a b
  decide

theorem cmpBool_swap (a b : Bool) : cmpBool b a = -cmpBool a b := by
  revert a b
  decide

theorem cmpNat_tri (a b : Nat) : cmpNat a b = -1 ∨ cmpNat a b = 0 ∨ cmpNat a b = 1 := by
  unfold cmpNat
  split
  · exact Or.inl rfl
  · split
    · exact Or.inr (Or.inr rfl)
    · exact Or.inr (Or.inl rfl)

theorem cmpNat_swap (a b : Nat) : cmpNat b a = -cmpNat a b := by
  unfold cmpNat
  rcases lt_trichotomy a b with h | h | h
  · have h1 : ¬ b < a := by omega
    rw [if_neg h1, if_pos h, if_pos h]
    norm_num
  · subst h
    simp
  · have h1 : ¬ a < b := by omega
    rw [if_pos h, if_neg h1, if_pos h]

theorem cmpNat_succ_succ (a b : Nat) : cmpNat (a + 1) (b + 1) = cmpNat a b := by
  unfold cmpNat
  simp [Nat.add_lt_add_iff_right]

/-- Unfolding lemmas giving listCmp the shape of the standard list
lexicographic comparison (shorter list first on a common prefix). -/
theorem listCmp_nil_nil : listCmp [] [] = 0 := by
  simp [listCmp, compareSeq, cmpNat]

theorem listCmp_nil_cons (y : Value) (ys : List Value) : listCmp [] (y :: ys) = -1 := by
  simp [listCmp, compareSeq, cmpNat]

theorem listCmp_cons_nil (x : Value) (xs : List Value) : listCmp (x :: xs) [] = 1 := by
  simp [listCmp, compareSeq, cmpNat]

theorem listCmp_cons_cons (x y : Value) (xs ys : List Value) :
    listCmp (x :: xs) (y :: ys)
      = if compareThings x y = 0 then listCmp xs ys else compareThings x y := by
  by_cases h : compareThings x y = 0
  · simp [listCmp, compareSeq, h, cmpNat_succ_succ]
  · simp [listCmp, compareSeq, h]

/-- Array comparison of compareThings written through listCmp. -/
theorem cmp_arr (xs ys : List Value) :
    compareThings (.arr xs) (.arr ys) = listCmp xs ys := by
  simp only [compareThings, listCmp]

theorem objVals_length (f : List (String × Value)) :
    (objVals f).length = (objSortedKeys f).length := by
  simp [objVals]

/-- Object comparison of compareThings written through listCmp over the
values in sorted key order (the key-count tiebreak coincides with the
length tiebreak of listCmp). -/
theorem cmp_obj (f g : List (String × Value)) :
    compareThings (.obj f) (.obj g) = listCmp (objVals f) (objVals g) := by
  simp only [compareThings, listCmp, objVals_length]

/-- Constructor inversions from the type rank. -/
theorem rank_undef {v : Value} (h : typeRank v = 0) : v = .undef := by
  cases v <;> simp_all [typeRank]

theorem rank_null {v : Value} (h : typeRank v = 1) : v = .null := by
  cases v <;> simp_all [typeRank]

theorem rank_num {v : Value} (h : typeRank v = 2) : ∃ n, v = .num n := by
  cases v <;> first
    | exact ⟨_, rfl⟩
    | simp_all [typeRank]

theorem rank_str {v : Value} (h : typeRank v = 3) : ∃ s, v = .str s := by
  cases v <;> first
    | exact ⟨_, rfl⟩
    | simp_all [typeRank]

theorem rank_bool {v : Value} (h : typeRank v = 4) : ∃ b, v = .bool b := by
  cases v <;> first
    | exact ⟨_, rfl⟩
    | simp_all [typeRank]

theorem rank_date {v : Value} (h : typeRank v = 5) : ∃ d, v = .date d := by
  cases v <;> first
    | exact ⟨_, rfl⟩
    | simp_all [typeRank]

theorem rank_arr {v : Value} (h : typeRank v = 6) : ∃ xs, v = .arr xs := by
  cases v <;> first
    | exact ⟨_, rfl⟩
    | simp_all [typeRank]

theorem rank_obj {v : Value} (h : typeRank v = 7) : ∃ f, v = .obj f := by
  cases v <;> first
    | exact ⟨_, rfl⟩
    | simp_all [typeRank]

/-- A value of strictly smaller type rank compares below. -/
theorem cmp_rank_lt : ∀ a b, typeRank a < typeRank b → compareThings a b = -1 := by
  intro a b h
  cases a <;> cases b <;> simp_all [compareThings, typeRank]

/-- Comparing below only happens from a type rank that is not larger. -/
theorem cmp_neg1_rank_le : ∀ a b, compareThings a b = -1 → typeRank a ≤ typeRank b := by
  intro a b h
  cases a <;> cases b <;> simp_all [compareThings, typeRank]

mutual
/-- compareThings is reflexive. -/
theorem cmp_refl : ∀ a, compareThings a a = 0
  | .undef => by simp [compareThings]
  | .null => by simp [compareThings]
  | .num a => by simp only [compareThings]; exact (cmpInt_eq_zero a a).mpr rfl
  | .str s => by simp only [compareThings]; exact (cmpStr_eq_zero s s).mpr rfl
  | .bool b => by simp only [compareThings]; exact (cmpBool_eq_zero b b).mpr rfl
  | .date d => by simp only [compareThings]; exact (cmpInt_eq_zero d d).mpr rfl
  | .arr xs => by rw [cmp_arr]; exact listCmp_refl xs
  | .obj f => by rw [cmp_obj]; exact listCmp_refl (objVals f)
termination_by a => (depth a, 0)
decreasing_by
  · apply Prod.Lex.left
    simp only [depth]
    omega
  · apply Prod.Lex.left
    simp only [depth]
    exact Nat.lt_of_le_of_lt (depthList_objVals_le f) (by omega)
theorem listCmp_refl : ∀ xs, listCmp xs xs = 0
  | [] => listCmp_nil_nil
  | x :: xs => by
      rw [listCmp_cons_cons, if_pos (cmp_refl x)]
      exact listCmp_refl xs
termination_by xs => (depthList xs, xs.length + 1)
decreasing_by
  · exact prodLex_of_le_of_lt (depth_head_le x xs) (by omega)
  · exact prodLex_of_le_of_lt (depthList_tail_le x xs) (by simp only [List.length_cons]; omega)
end

mutual
/-- Swapping the arguments of compareThings negates the result. -/
theorem cmp_swap : ∀ a b, compareThings b a = -compareThings a b
  | a, b => by
    cases a <;> cases b <;>
      first
        | (rw [cmp_arr, cmp_arr]; exact listCmp_swap _ _)
        | (rw [cmp_obj, cmp_obj]; exact listCmp_swap _ _)
        | (simp only [compareThings]; exact cmpInt_swap _ _)
        | (simp only [compareThings]; exact cmpStr_swap _ _)
        | (simp only [compareThings]; exact cmpBool_swap _ _)
        | simp [compareThings]
termination_by a b => (depth a + depth b, 0)
decreasing_by
  all_goals first
    | (apply Prod.Lex.left
       simp only [depth]
       omega)
    | (apply Prod.Lex.left
       simp only [depth]
       exact Nat.lt_of_le_of_lt
         (Nat.add_le_add (depthList_objVals_le _) (depthList_objVals_le _)) (by omega))
theorem listCmp_swap : ∀ xs ys, listCmp ys xs = -listCmp xs ys
  | [], [] => by simp [listCmp_nil_nil]
  | [], y :: ys => by rw [listCmp_cons_nil, listCmp_nil_cons]; norm_num
  | x :: xs, [] => by rw [listCmp_nil_cons, listCmp_cons_nil]
  | x :: xs, y :: ys => by
      rw [listCmp_cons_cons, listCmp_cons_cons]
      have hs := cmp_swap x y
      by_cases h : compareThings x y = 0
      · rw [if_pos h, hs, h]
        norm_num
        exact listCmp_swap xs ys
      · rw [if_neg h, hs]
        rw [if_neg (by intro he; exact h (by omega))]
termination_by xs ys => (depthList xs + depthList ys, xs.length + 1)
decreasing_by
  all_goals first
    | exact prodLex_of_le_of_lt
        (Nat.add_le_add (depth_head_le _ _) (depth_head_le _ _))
        (by simp only [List.length_cons]; omega)
    | exact prodLex_of_le_of_lt
        (Nat.add_le_add (depthList_tail_le _ _) (depthList_tail_le _ _))
        (by simp only [List.length_cons]; omega)
end

mutual
/-- compareThings only returns the three sentinel values. -/
theorem cmp_range : ∀ a b,
    compareThings a b = -1 ∨ compareThings a b = 0 ∨ compareThings a b = 1
  | a, b => by
    cases a <;> cases b <;>
      first
        | (rw [cmp_arr]; exact listCmp_range _ _)
        | (rw [cmp_obj]; exact listCmp_range _ _)
        | (simp only [compareThings]; exact cmpInt_tri _ _)
        | (simp only [compareThings]; exact cmpStr_tri _ _)
        | (simp only [compareThings]; exact cmpBool_tri _ _)
        | simp [compareThings]
termination_by a b => (depth a + depth b, 0)
decreasing_by
  all_goals first
    | (apply Prod.Lex.left
       simp only [depth]
       omega)
    | (apply Prod.Lex.left
       simp only [depth]
       exact Nat.lt_of_le_of_lt
         (Nat.add_le_add (depthList_objVals_le _) (depthList_objVals_le _)) (by omega))
theorem listCmp_range : ∀ xs ys, listCmp xs ys = -1 ∨ listCmp xs ys = 0 ∨ listCmp xs ys = 1
  | [], [] => by rw [listCmp_nil_nil]; norm_num
  | [], y :: ys => by rw [listCmp_nil_cons]; norm_num
  | x :: xs, [] => by rw [listCmp_cons_nil]; norm_num
  | x :: xs, y :: ys => by
      rw [listCmp_cons_cons]
      by_cases h : compareThings x y = 0
      · rw [if_pos h]
        exact listCmp_range xs ys
      · rw [if_neg h]
        rcases cmp_range x y with h1 | h1 | h1
        · exact Or.inl h1
        · exact absurd h1 h
        · exact Or.inr (Or.inr h1)
termination_by xs ys => (depthList xs + depthList ys, xs.length + 1)
decreasing_by
  all_goals first
    | exact prodLex_of_le_of_lt
        (Nat.add_le_add (depth_head_le _ _) (depth_head_le _ _))
        (by simp only [List.length_cons]; omega)
    | exact prodLex_of_le_of_lt
        (Nat.add_le_add (depthList_tail_le _ _) (depthList_tail_le _ _))
        (by simp only [List.length_cons]; omega)
end

mutual
/-- Values that compare equal compare identically against every third
value (compareThings ties are a congruence for the comparison, even
though tied values need not be equal). -/
theorem cmp_tie_congr : ∀ a b, compareThings a b = 0 →
    ∀ c, compareThings a c = compareThings b c
  | a, b => by
    intro h c
    cases a <;> cases b <;>
      first
        | rfl
        | (simp [compareThings] at h; done)
        | (simp only [compareThings] at h
           obtain rfl := (cmpInt_eq_zero _ _).mp h
           rfl)
        | (simp only [compareThings] at h
           obtain rfl := (cmpStr_eq_zero _ _).mp h
           rfl)
        | (simp only [compareThings] at h
           obtain rfl := (cmpBool_eq_zero _ _).mp h
           rfl)
        | (rw [cmp_arr] at h
           cases c <;>
             first
               | (rw [cmp_arr, cmp_arr]; exact listCmp_tie_congr _ _ h _)
               | simp [compareThings])
        | (rw [cmp_obj] at h
           cases c <;>
             first
               | (rw [cmp_obj, cmp_obj]; exact listCmp_tie_congr _ _ h _)
               | simp [compareThings])
termination_by a b => (depth a + depth b, 0)
decreasing_by
  all_goals first
    | (apply Prod.Lex.left
       simp only [depth]
       omega)
    | (apply Prod.Lex.left
       simp only [depth]
       exact Nat.lt_of_le_of_lt
         (Nat.add_le_add (depthList_objVals_le _) (depthList_objVals_le _)) (by omega))
theorem listCmp_tie_congr : ∀ xs ys, listCmp xs ys = 0 →
    ∀ zs, listCmp xs zs = listCmp ys zs
  | [], [] => fun _ _ => rfl
  | [], y :: ys => by
      intro h
      rw [listCmp_nil_cons] at h
      exact absurd h (by norm_num)
  | x :: xs, [] => by
      intro h
      rw [listCmp_cons_nil] at h
      exact absurd h (by norm_num)
  | x :: xs, y :: ys => by
      intro h zs
      rw [listCmp_cons_cons] at h
      by_cases hxy : compareThings x y = 0
      · rw [if_pos hxy] at h
        cases zs with
        | nil => rw [listCmp_cons_nil, listCmp_cons_nil]
        | cons z zs =>
          rw [listCmp_cons_cons, listCmp_cons_cons]
          have hcong := cmp_tie_congr x y hxy z
          rw [hcong]
          by_cases hyz : compareThings y z = 0
          · rw [if_pos hyz, if_pos hyz]
            exact listCmp_tie_congr xs ys h zs
          · rw [if_neg hyz, if_neg hyz]
      · rw [if_neg hxy] at h
        exact absurd h hxy
termination_by xs ys => (depthList xs + depthList ys, xs.length + 1)
decreasing_by
  all_goals first
    | exact prodLex_of_le_of_lt
        (Nat.add_le_add (depth_head_le _ _) (depth_head_le _ _))
        (by simp only [List.length_cons]; omega)
    | exact prodLex_of_le_of_lt
        (Nat.add_le_add (depthList_tail_le _ _) (depthList_tail_le _ _))
        (by simp only [List.length_cons]; omega)
end

mutual
/-- Strict transitivity of compareThings. -/
theorem cmp_strict_trans : ∀ a b c, compareThings a b = -1 →
    compareThings b c = -1 → compareThings a c = -1
  | a, b, c => by
    intro hab hbc
    cases a <;> cases b <;> cases c <;>
      first
        | (simp [compareThings]; done)
        | (simp [compareThings] at hab; done)
        | (simp [compareThings] at hbc; done)
        | (simp only [compareThings] at hab hbc ⊢
           exact (cmpInt_eq_neg1 _ _).mpr
             (lt_trans ((cmpInt_eq_neg1 _ _).mp hab) ((cmpInt_eq_neg1 _ _).mp hbc)))
        | (simp only [compareThings] at hab hbc ⊢
           exact (cmpStr_eq_neg1 _ _).mpr
             (lt_trans ((cmpStr_eq_neg1 _ _).mp hab) ((cmpStr_eq_neg1 _ _).mp hbc)))
        | (simp only [compareThings] at hab hbc ⊢
           exact (cmpBool_eq_neg1 _ _).mpr
             (lt_trans ((cmpBool_eq_neg1 _ _).mp hab) ((cmpBool_eq_neg1 _ _).mp hbc)))
        | (rw [cmp_arr] at hab hbc ⊢
           exact listCmp_strict_trans _ _ _ hab hbc)
        | (rw [cmp_obj] at hab hbc ⊢
           exact listCmp_strict_trans _ _ _ hab hbc)
termination_by a b c => (depth a + depth b + depth c, 0)
decreasing_by
  all_goals apply Prod.Lex.left
  all_goals simp only [depth]
  all_goals first
    | omega
    | (refine Nat.lt_of_le_of_lt
        (Nat.add_le_add (Nat.add_le_add (depthList_objVals_le _) (depthList_objVals_le _))
          (depthList_objVals_le _)) ?_
       omega)
theorem listCmp_strict_trans : ∀ xs ys zs, listCmp xs ys = -1 →
    listCmp ys zs = -1 → listCmp xs zs = -1
  | xs, ys, zs => by
    intro hab hbc
    cases xs with
    | nil =>
      cases ys with
      | nil => exact absurd (listCmp_nil_nil ▸ hab) (by norm_num)
      | cons y ys =>
        cases zs with
        | nil => exact absurd (listCmp_cons_nil y ys ▸ hbc) (by norm_num)
        | cons z zs => exact listCmp_nil_cons z zs
    | cons x xs =>
      cases ys with
      | nil => exact absurd (listCmp_cons_nil x xs ▸ hab) (by norm_num)
      | cons y ys =>
        cases zs with
        | nil => exact absurd (listCmp_cons_nil y ys ▸ hbc) (by norm_num)
        | cons z zs =>
          rw [listCmp_cons_cons] at hab hbc ⊢
          by_cases hxy : compareThings x y = 0
          · rw [if_pos hxy] at hab
            have hxz_eq : compareThings x z = compareThings y z :=
              cmp_tie_congr x y hxy z
            by_cases hyz : compareThings y z = 0
            · rw [if_pos hyz] at hbc
              rw [if_pos (hxz_eq.trans hyz)]
              exact listCmp_strict_trans xs ys zs hab hbc
            · rw [if_neg hyz] at hbc
              rw [hxz_eq, if_neg hyz]
              exact hbc
          · rw [if_neg hxy] at hab
            by_cases hyz : compareThings y z = 0
            · have hzy : compareThings z y = 0 := by
                rw [cmp_swap y z, hyz]
                norm_num
              have hxz_eq : compareThings x z = compareThings x y := by
                have h1 : compareThings z x = compareThings y x :=
                  cmp_tie_congr z y hzy x
                have h2 := cmp_swap x z
                have h3 := cmp_swap x y
                omega
              rw [hxz_eq, if_neg hxy]
              exact hab
            · rw [if_neg hyz] at hbc
              have hxz := cmp_strict_trans x y z hab hbc
              rw [hxz, if_neg (by norm_num)]
termination_by xs ys zs => (depthList xs + depthList ys + depthList zs, xs.length + 1)
decreasing_by
  all_goals first
    | exact prodLex_of_le_of_lt
        (Nat.add_le_add (Nat.add_le_add (depth_head_le _ _) (depth_head_le _ _))
          (depth_head_le _ _))
        (by simp only [List.length_cons]; omega)
    | exact prodLex_of_le_of_lt
        (Nat.add_le_add (Nat.add_le_add (depthList_tail_le _ _) (depthList_tail_le _ _))
          (depthList_tail_le _ _))
        (by simp only [List.length_cons]; omega)
end

/-- Claim C5, amended: compareThings is a TOTAL PREORDER on values, not a
total order.  It only returns the three sentinel values; it is reflexive;
swapping the arguments negates the result (so any two values are
comparable); it is transitive; a value of strictly smaller type rank in
the order undefined, null, number, string, boolean, date, array, object
compares below any value of larger rank; within a type, numbers, strings
and booleans compare naturally, dates by timestamp, arrays by listCmp
(lexicographic with the longer array winning on a common prefix, per the
unfolding conjuncts) and objects by listCmp over their values in sorted
key order with the key count as tiebreak.  The claim as stated is refuted
by the counterexample below: distinct objects can compare equal, so
compareThings is not antisymmetric and hence not a total order. -/
theorem claim_C5_comparethings :
    (∀ a b, compareThings a b = -1 ∨ compareThings a b = 0 ∨ compareThings a b = 1) ∧
    (∀ a, compareThings a a = 0) ∧
    (∀ a b, compareThings b a = -compareThings a b) ∧
    (∀ a b c, compareThings a b ≤ 0 → compareThings b c ≤ 0 → compareThings a c ≤ 0) ∧
    (∀ a b, typeRank a < typeRank b → compareThings a b = -1) ∧
    (∀ a b : Int, compareThings (.num a) (.num b) = cmpInt a b ∧ (cmpInt a b = -1 ↔ a < b)) ∧
    (∀ a b : String, compareThings (.str a) (.str b) = cmpStr a b ∧ (cmpStr a b = -1 ↔ a < b)) ∧
    (∀ a b : Bool, compareThings (.bool a) (.bool b) = cmpBool a b ∧ (cmpBool a b = -1 ↔ a < b)) ∧
    (∀ a b : Int, compareThings (.date a) (.date b) = cmpInt a b) ∧
    (∀ xs ys, compareThings (.arr xs) (.arr ys) = listCmp xs ys) ∧
    (∀ x y xs ys, listCmp (x :: xs) (y :: ys)
        = if compareThings x y = 0 then listCmp xs ys else compareThings x y) ∧
    (∀ y ys, listCmp [] (y :: ys) = -1 ∧ listCmp (y :: ys) [] = 1) ∧
    (∀ f g, compareThings (.obj f) (.obj g) = listCmp (objVals f) (objVals g)) := by
  refine ⟨cmp_range, cmp_refl, cmp_swap, ?_, cmp_rank_lt, ?_, ?_, ?_, ?_, cmp_arr, ?_, ?_, cmp_obj⟩
  · intro a b c hab hbc
    rcases cmp_range a b with h1 | h1 | h1
    · rcases cmp_range b c with h2 | h2 | h2
      · rw [cmp_strict_trans a b c h1 h2]
        norm_num
      · have hcb : compareThings c b = 0 := by
          rw [cmp_swap b c, h2]
          norm_num
        have h3 : compareThings c a = compareThings b a := cmp_tie_congr c b hcb a
        have h4 := cmp_swap a c
        have h5 := cmp_swap a b
        omega
      · rw [h2] at hbc
        omega
    · have h3 : compareThings a c = compareThings b c := cmp_tie_congr a b h1 c
      omega
    · rw [h1] at hab
      omega
  · intro a b
    exact ⟨by simp only [compareThings], cmpInt_eq_neg1 a b⟩
  · intro a b
    exact ⟨by simp only [compareThings], cmpStr_eq_neg1 a b⟩
  · intro a b
    exact ⟨by simp only [compareThings], cmpBool_eq_neg1 a b⟩
  · intro a b
    simp only [compareThings]
  · exact fun x y xs ys => listCmp_cons_cons x y xs ys
  · exact fun y ys => ⟨listCmp_nil_cons y ys, listCmp_cons_nil y ys⟩

/-- Claim C5 counterexample: two DIFFERENT one-field objects compare
equal (the keys never participate in the comparison, only the values in
sorted key order and the key count), so compareThings is not a total
order, merely a total preorder; the second conjunct shows the key names
being ignored in favour of the values. -/
theorem claim_C5_counterexample :
    compareThings (.obj [("a", .num 1)]) (.obj [("b", .num 1)]) = 0 ∧
    Value.obj [("a", Value.num 1)] ≠ Value.obj [("b", Value.num 1)] ∧
    compareThings (.obj [("b", .num 1)]) (.obj [("a", .num 2)]) = -1 := by
  refine ⟨?_, by decide, ?_⟩
  · rw [cmp_obj]
    have h1 : objVals [("a", Value.num 1)] = [Value.num 1] := rfl
    have h2 : objVals [("b", Value.num 1)] = [Value.num 1] := rfl
    rw [h1, h2, listCmp_cons_cons]
    rw [if_pos (by simp only [compareThings]; exact (cmpInt_eq_zero 1 1).mpr rfl)]
    exact listCmp_nil_nil
  · rw [cmp_obj]
    have h1 : objVals [("b", Value.num 1)] = [Value.num 1] := rfl
    have h2 : objVals [("a", Value.num 2)] = [Value.num 2] := rfl
    rw [h1, h2, listCmp_cons_cons]
    have hc : compareThings (Value.num 1) (Value.num 2) = -1 := by
      simp only [compareThings]
      exact (cmpInt_eq_neg1 1 2).mpr (by norm_num)
    rw [if_neg (by rw [hc]; norm_num), hc]

theorem claim_C5_witness :
    typeRank Value.null < typeRank (Value.num 5) ∧
    compareThings Value.null (Value.num 5) = -1 :=
  ⟨by decide, claim_C5_comparethings.2.2.2.2.1 Value.null (Value.num 5) (by decide)⟩

/-- Deleting the key just inserted restores a map that did not hold it. -/
theorem mapDel_append_self (m : List (String × Value)) (k : String) (d : Value)
    (h : mapHas m k = false) : mapDel (m ++ [(k, d)]) k = m := by
  unfold mapDel
  rw [List.filter_append]
  have h1 : m.filter (fun p => p.1 ≠ k) = m := by
    rw [List.filter_eq_self]
    intro p hp
    have hk : ¬ (m.map Prod.fst).contains k := by
      simpa [mapHas] using h
    simp only [ne_eq, decide_eq_true_eq]
    intro he
    have hmem : k ∈ m.map Prod.fst := he ▸ List.mem_map_of_mem Prod.fst hp
    exact hk (by simpa using hmem)
  have h2 : List.filter (fun p => decide (p.1 ≠ k)) [(k, d)] = [] := by simp
  rw [h1, h2, List.append_nil]

/-- Insert of a single document into the unique-string index, written as
one case split. -/
theorem usiInsert_single_eq (i : USI) (d : Value) :
    usiInsert i [d] =
      if [d].all (usiDocOk i.fieldName) = false then (some .invalidDoc, i)
      else if mapHas i.map (usiFieldOf i.fieldName d) then
        (some (.uniqueViolated (.str (usiFieldOf i.fieldName d))), i)
      else (none, { i with map := mapSet i.map (usiFieldOf i.fieldName d) d }) := by
  by_cases hval : [d].all (usiDocOk i.fieldName) = false
  · simp [usiInsert, hval]
  · by_cases hhas : mapHas i.map (usiFieldOf i.fieldName d) = true
    · simp [usiInsert, usiRawInsert, usiRawInsertGo, hval, hhas]
    · simp [usiInsert, usiRawInsert, usiRawInsertGo, hval, hhas]

/-- A failing insert of one document leaves the unique-string index
unchanged. -/
theorem usiInsert_single_err (i : USI) (d : Value) (e : IdxErr) (i2 : USI)
    (h : usiInsert i [d] = (some e, i2)) : i2 = i := by
  rw [usiInsert_single_eq] at h
  split at h
  · cases h
    rfl
  · split at h
    · cases h
      rfl
    · cases h

/-- A successful insert of one document into the unique-string index is
undone exactly by remove. -/
theorem usiInsert_single_ok_remove (i : USI) (d : Value) (i2 : USI)
    (h : usiInsert i [d] = (none, i2)) : usiRemove i2 [d] = (none, i) := by
  rw [usiInsert_single_eq] at h
  split at h
  · cases h
  · next hval =>
    split at h
    · cases h
    · next hhas =>
      cases h
      unfold usiRemove
      rw [if_neg (by simpa using hval)]
      have hset : mapSet i.map (usiFieldOf i.fieldName d) d
          = i.map ++ [(usiFieldOf i.fieldName d, d)] := by
        unfold mapSet
        rw [if_neg (by simpa using hhas)]
      simp only [List.foldl_cons, List.foldl_nil]
      rw [hset, mapDel_append_self _ _ _ (by simpa using hhas)]

/-- The fold of deletions over a list of keys is the filter dropping the
entries that hold the document under one of the keys. -/
theorem foldl_treeDel_filter (d : Value) : ∀ (vs : List Value) (t : List (Value × Value)),
    vs.foldl (fun t v => treeDel t v d) t
      = t.filter (fun e => !((vs.any (fun v => compareThings e.1 v == 0)) && decide (e.2 = d)))
  | [], t => by simp
  | v :: vs, t => by
    rw [List.foldl_cons, foldl_treeDel_filter d vs (treeDel t v d)]
    unfold treeDel
    rw [List.filter_filter]
    apply List.filter_congr
    intro e _
    cases hc : compareThings e.1 v == 0 <;> cases hd : decide (e.2 = d) <;>
      simp [hc, hd, List.any_cons]

/-- Rolling the inserted entries back deletes them and nothing else. -/
theorem treeDel_rollback (d : Value) (vs : List Value) (t0 adds : List (Value × Value))
    (hfresh : ∀ p ∈ t0, p.2 ≠ d)
    (hadds : ∀ p ∈ adds, p.2 = d ∧ ∃ v ∈ vs, compareThings p.1 v = 0) :
    vs.foldl (fun t v => treeDel t v d) (t0 ++ adds) = t0 := by
  rw [foldl_treeDel_filter, List.filter_append]
  have h1 : t0.filter (fun e =>
      !((vs.any (fun v => compareThings e.1 v == 0)) && decide (e.2 = d))) = t0 := by
    rw [List.filter_eq_self]
    intro p hp
    simp [hfresh p hp]
  have h2 : adds.filter (fun e =>
      !((vs.any (fun v => compareThings e.1 v == 0)) && decide (e.2 = d))) = [] := by
    rw [List.filter_eq_nil_iff]
    intro p hp
    obtain ⟨hpd, v, hv, hcmp⟩ := hadds p hp
    have hany : (vs.any (fun v => compareThings p.1 v == 0)) = true :=
      List.any_eq_true.mpr ⟨v, hv, by simp [hcmp]⟩
    simp [hany, hpd]
  rw [h1, h2, List.append_nil]

/-- A failing AVL insertion leaves the tree unchanged. -/
theorem treeInsert_err (u : Bool) (t : List (Value × Value)) (k d : Value) (e : IdxErr)
    (t2 : List (Value × Value)) (h : treeInsert u t k d = (some e, t2)) : t2 = t := by
  unfold treeInsert at h
  split at h
  · cases h
    rfl
  · cases h

/-- A successful AVL insertion appends the entry. -/
theorem treeInsert_ok (u : Bool) (t : List (Value × Value)) (k d : Value)
    (t2 : List (Value × Value)) (h : treeInsert u t k d = (none, t2)) : t2 = t ++ [(k, d)] := by
  unfold treeInsert at h
  split at h
  · cases h
  · cases h
    rfl

/-- A successful array-branch insertion appends one entry per value. -/
theorem treeInsValsGo_ok (u : Bool) (d : Value) :
    ∀ (vs : List Value) (t : List (Value × Value)) (done : List Value)
      (t2 : List (Value × Value)),
      treeInsValsGo u d t vs done = (none, t2) → t2 = t ++ vs.map (fun v => (v, d))
  | [], t, done, t2 => by
    intro h
    cases h
    simp
  | v :: vs, t, done, t2 => by
    intro h
    unfold treeInsValsGo at h
    split at h
    · cases h
    · next t1 hins =>
      have h1 := treeInsert_ok u t v d t1 hins
      subst h1
      have h2 := treeInsValsGo_ok u d vs (t ++ [(v, d)]) (v :: done) t2 h
      rw [h2]
      simp

/-- A failing array-branch insertion rolls back to the tree without the
inserted entries. -/
theorem treeInsValsGo_err (u : Bool) (d : Value) :
    ∀ (vs : List Value) (done : List Value) (t0 : List (Value × Value)) (e : IdxErr)
      (t2 : List (Value × Value)),
      (∀ p ∈ t0, p.2 ≠ d) →
      treeInsValsGo u d (t0 ++ done.reverse.map (fun v => (v, d))) vs done = (some e, t2) →
      t2 = t0
  | [], done, t0, e, t2 => by
    intro _ h
    cases h
  | v :: vs, done, t0, e, t2 => by
    intro hfresh h
    unfold treeInsValsGo at h
    split at h
    · next tE hins =>
      have h1 := treeInsert_err u _ v d _ tE hins
      subst h1
      cases h
      apply treeDel_rollback
      · exact hfresh
      · intro p hp
        simp only [List.mem_map, List.mem_reverse] at hp
        obtain ⟨w, hw, rfl⟩ := hp
        exact ⟨rfl, w, hw, cmp_refl w⟩
    · next t1 hins =>
      have h1 := treeInsert_ok u _ v d t1 hins
      subst h1
      have heq : (t0 ++ done.reverse.map (fun v => (v, d))) ++ [(v, d)]
          = t0 ++ (v :: done).reverse.map (fun v => (v, d)) := by
        simp
      rw [heq] at h
      exact treeInsValsGo_err u d vs (v :: done) t0 e t2 hfresh h

/-- A failing insert of one document leaves the ordered index unchanged. -/
theorem oidxInsertOne_err (i : OIdx) (d : Value) (e : IdxErr) (i2 : OIdx)
    (hfresh : ∀ p ∈ i.tree, p.2 ≠ d)
    (h : oidxInsertOne i d = (some e, i2)) : i2 = i := by
  unfold oidxInsertOne at h
  split at h
  · cases h
    rfl
  · next fv hget =>
    split at h
    · cases h
    · next hsp =>
      split at h
      · next v2 elems =>
        rcases hins : treeInsValsGo i.unique d i.tree (toDateSafeUnique elems) [] with ⟨e1, t1⟩
        rw [hins] at h
        cases e1 with
        | none => cases h
        | some e1 =>
          cases h
          have h2 := treeInsValsGo_err i.unique d (toDateSafeUnique elems) [] i.tree e t1
            hfresh (by simpa using hins)
          rw [h2]
      · next v2 hnotarr =>
        rcases hins : treeInsert i.unique i.tree fv d with ⟨e1, t1⟩
        rw [hins] at h
        cases e1 with
        | none => cases h
        | some e1 =>
          cases h
          have h2 := treeInsert_err i.unique i.tree fv d e t1 hins
          rw [h2]

/-- A successful insert of one document into the ordered index is undone
exactly by remove. -/
theorem oidxInsertOne_ok_remove (i : OIdx) (d : Value) (i2 : OIdx)
    (hfresh : ∀ p ∈ i.tree, p.2 ≠ d)
    (h : oidxInsertOne i d = (none, i2)) : oidxRemoveOne i2 d = (none, i) := by
  unfold oidxInsertOne at h
  split at h
  · cases h
  · next fv hget =>
    split at h
    · next hsp =>
      cases h
      unfold oidxRemoveOne
      rw [hget]
      dsimp only
      rw [if_pos hsp]
    · next hsp =>
      split at h
      · next v2 elems =>
        rcases hins : treeInsValsGo i.unique d i.tree (toDateSafeUnique elems) [] with ⟨e1, t1⟩
        rw [hins] at h
        cases e1 with
        | some e1 => cases h
        | none =>
          cases h
          have h2 := treeInsValsGo_ok i.unique d (toDateSafeUnique elems) i.tree [] t1 hins
          subst h2
          have h3 : (toDateSafeUnique elems).foldl (fun t v => treeDel t v d)
              (i.tree ++ (toDateSafeUnique elems).map (fun v => (v, d))) = i.tree := by
            apply treeDel_rollback
            · exact hfresh
            · intro p hp
              simp only [List.mem_map] at hp
              obtain ⟨w, hw, rfl⟩ := hp
              exact ⟨rfl, w, hw, cmp_refl w⟩
          unfold oidxRemoveOne
          rw [hget]
          dsimp only
          rw [if_neg hsp]
          rw [h3]
      · next v2 hnotarr =>
        rcases hins : treeInsert i.unique i.tree fv d with ⟨e1, t1⟩
        rw [hins] at h
        cases e1 with
        | some e1 => cases h
        | none =>
          cases h
          have h2 := treeInsert_ok i.unique i.tree fv d t1 hins
          subst h2
          have h3 : treeDel (i.tree ++ [(fv, d)]) fv d = i.tree := by
            have h4 := treeDel_rollback d [fv] i.tree [(fv, d)] hfresh
              (by intro p hp; simp at hp; subst hp; exact ⟨rfl, fv, by simp, cmp_refl fv⟩)
            simpa using h4
          cases fv <;>
            first
              | exact absurd rfl (hnotarr _)
              | (unfold oidxRemoveOne
                 rw [hget]
                 dsimp only
                 rw [if_neg hsp]
                 rw [h3])

/-- Freshness unpacked for an ordered index. -/
theorem docFreshB_ord {d : Value} {o : OIdx} (hf : docFreshB d (.ord o) = true) :
    ∀ p ∈ o.tree, p.2 ≠ d := by
  have h2 : o.tree.all (fun p => !(decide (p.2 = d))) = true := hf
  intro p hp
  have h3 := List.all_eq_true.mp h2 p hp
  simpa using h3

/-- A failing insert of one document leaves any index unchanged. -/
theorem idxInsertOne_err (i : Idx) (d : Value) (e : IdxErr) (i2 : Idx)
    (hf : docFreshB d i = true) (h : idxInsertOne i d = (some e, i2)) : i2 = i := by
  cases i with
  | usi u =>
    simp only [idxInsertOne] at h
    rcases hu : usiInsert u [d] with ⟨e1, u2⟩
    rw [hu] at h
    cases e1 with
    | none => cases h
    | some e1 =>
      cases h
      rw [usiInsert_single_err u d _ u2 hu]
  | ord o =>
    simp only [idxInsertOne] at h
    rcases ho : oidxInsertOne o d with ⟨e1, o2⟩
    rw [ho] at h
    cases e1 with
    | none => cases h
    | some e1 =>
      cases h
      rw [oidxInsertOne_err o d _ o2 (docFreshB_ord hf) ho]

/-- A successful insert of one document into any index is undone exactly
by remove. -/
theorem idxInsertOne_ok_remove (i : Idx) (d : Value) (i2 : Idx)
    (hf : docFreshB d i = true) (h : idxInsertOne i d = (none, i2)) :
    idxRemoveOne i2 d = (none, i) := by
  cases i with
  | usi u =>
    simp only [idxInsertOne] at h
    rcases hu : usiInsert u [d] with ⟨e1, u2⟩
    rw [hu] at h
    cases e1 with
    | some e1 => cases h
    | none =>
      cases h
      simp only [idxRemoveOne]
      rw [usiInsert_single_ok_remove u d u2 hu]
  | ord o =>
    simp only [idxInsertOne] at h
    rcases ho : oidxInsertOne o d with ⟨e1, o2⟩
    rw [ho] at h
    cases e1 with
    | some e1 => cases h
    | none =>
      cases h
      simp only [idxRemoveOne]
      rw [oidxInsertOne_ok_remove o d o2 (docFreshB_ord hf) ho]

/-- The shape of a successful ordered-index insert: entries are appended
and every appended entry holds the inserted document. -/
theorem oidxInsertOne_ok_shape (o : OIdx) (d : Value) (o2 : OIdx)
    (h : oidxInsertOne o d = (none, o2)) :
    o2.fieldName = o.fieldName ∧
    ∃ adds, o2.tree = o.tree ++ adds ∧ ∀ p ∈ adds, p.2 = d := by
  unfold oidxInsertOne at h
  split at h
  · cases h
  · next fv hget =>
    split at h
    · cases h
      exact ⟨rfl, [], by simp⟩
    · next hsp =>
      split at h
      · next v2 elems =>
        rcases hins : treeInsValsGo o.unique d o.tree (toDateSafeUnique elems) [] with ⟨e1, t1⟩
        rw [hins] at h
        cases e1 with
        | some e1 => cases h
        | none =>
          cases h
          refine ⟨rfl, (toDateSafeUnique elems).map (fun v => (v, d)), ?_, ?_⟩
          · exact treeInsValsGo_ok o.unique d (toDateSafeUnique elems) o.tree [] t1 hins
          · intro p hp
            simp only [List.mem_map] at hp
            obtain ⟨w, _, rfl⟩ := hp
            rfl
      · next v2 hnotarr =>
        rcases hins : treeInsert o.unique o.tree fv d with ⟨e1, t1⟩
        rw [hins] at h
        cases e1 with
        | some e1 => cases h
        | none =>
          cases h
          refine ⟨rfl, [(fv, d)], ?_, ?_⟩
          · exact treeInsert_ok o.unique o.tree fv d t1 hins
          · intro p hp
            simp only [List.mem_singleton] at hp
            subst hp
            rfl

/-- A successful insert keeps every other document fresh. -/
theorem idxInsertOne_ok_fresh (i : Idx) (d d2 : Value) (i2 : Idx)
    (hne : d2 ≠ d) (hf : docFreshB d2 i = true)
    (h : idxInsertOne i d = (none, i2)) : docFreshB d2 i2 = true := by
  cases i with
  | usi u =>
    simp only [idxInsertOne] at h
    rcases hu : usiInsert u [d] with ⟨e1, u2⟩
    rw [hu] at h
    cases e1 with
    | some e1 => cases h
    | none =>
      cases h
      rfl
  | ord o =>
    simp only [idxInsertOne] at h
    rcases ho : oidxInsertOne o d with ⟨e1, o2⟩
    rw [ho] at h
    cases e1 with
    | some e1 => cases h
    | none =>
      cases h
      obtain ⟨-, adds, htree, hadds⟩ := oidxInsertOne_ok_shape o d o2 ho
      have hford := docFreshB_ord hf
      show o2.tree.all (fun p => !(decide (p.2 = d2))) = true
      rw [List.all_eq_true]
      intro p hp
      rw [htree] at hp
      rcases List.mem_append.mp hp with hp2 | hp2
      · simp [hford p hp2]
      · have h5 := hadds p hp2
        simp [h5, Ne.symm hne]

/-- The rollback of addToIndexes after a failure in the k-th index
restores the index list exactly. -/
theorem insertPhase_rollback (d : Value) : ∀ (idxs idxs1 : List Idx) (e : IdxErr) (k : Nat),
    (∀ i ∈ idxs, docFreshB d i = true) →
    idxInsertPhase d idxs = (idxs1, some e, k) →
    idxRollbackFirst d k idxs1 = (none, idxs)
  | [], idxs1, e, k => by
    intro _ h
    simp only [idxInsertPhase] at h
    cases h
  | i :: rest, idxs1, e, k => by
    intro hf h
    simp only [idxInsertPhase] at h
    rcases hins : idxInsertOne i d with ⟨e1, i1⟩
    rw [hins] at h
    cases e1 with
    | some e1 =>
      cases h
      simp only [idxRollbackFirst]
      rw [idxInsertOne_err i d _ i1 (hf i (by simp)) hins]
    | none =>
      rcases hrest : idxInsertPhase d rest with ⟨rest1, e2, k2⟩
      rw [hrest] at h
      cases e2 with
      | none => cases h
      | some e2 =>
        cases h
        simp only [idxRollbackFirst]
        rw [insertPhase_rollback d rest rest1 _ k2 (fun j hj => hf j (by simp [hj])) hrest]
        rw [idxInsertOne_ok_remove i d i1 (hf i (by simp)) hins]

/-- A failing addToIndexes leaves the index list unchanged. -/
theorem addToIndexes_err_unchanged (d : Value) (idxs : List Idx) (e : IdxErr)
    (idxs2 : List Idx) (hf : ∀ i ∈ idxs, docFreshB d i = true)
    (h : addToIndexes d idxs = (some e, idxs2)) : idxs2 = idxs := by
  simp only [addToIndexes] at h
  rcases hph : idxInsertPhase d idxs with ⟨idxs1, e1, k⟩
  rw [hph] at h
  cases e1 with
  | none => cases h
  | some e1 =>
    rw [insertPhase_rollback d idxs idxs1 _ k hf hph] at h
    cases h
    rfl

/-- A successful addToIndexes is undone exactly by removeFromIndexes. -/
theorem addToIndexes_ok_remove (d : Value) : ∀ (idxs idxs1 : List Idx),
    (∀ i ∈ idxs, docFreshB d i = true) →
    addToIndexes d idxs = (none, idxs1) →
    removeFromIndexes d idxs1 = (none, idxs)
  | [], idxs1 => by
    intro _ h
    simp only [addToIndexes, idxInsertPhase] at h
    cases h
    rfl
  | i :: rest, idxs1 => by
    intro hf h
    simp only [addToIndexes, idxInsertPhase] at h
    rcases hins : idxInsertOne i d with ⟨e1, i1⟩
    rw [hins] at h
    cases e1 with
    | some e1 =>
      rcases hrb : idxRollbackFirst d 0 (i1 :: rest) with ⟨e2, l2⟩
      rw [hrb] at h
      cases e2 <;> cases h
    | none =>
      rcases hrest : idxInsertPhase d rest with ⟨rest1, e2, k2⟩
      rw [hrest] at h
      cases e2 with
      | some e2 =>
        rcases hrb : idxRollbackFirst d (k2 + 1) (i1 :: rest1) with ⟨e3, l3⟩
        rw [hrb] at h
        cases e3 <;> cases h
      | none =>
        cases h
        have hrest2 : addToIndexes d rest = (none, rest1) := by
          simp only [addToIndexes]
          rw [hrest]
        simp only [removeFromIndexes]
        rw [idxInsertOne_ok_remove i d i1 (hf i (by simp)) hins]
        rw [addToIndexes_ok_remove d rest rest1 (fun j hj => hf j (by simp [hj])) hrest2]

/-- A successful addToIndexes keeps every other document fresh in every
index. -/
theorem addToIndexes_ok_fresh (d d2 : Value) (hne : d2 ≠ d) : ∀ (idxs idxs1 : List Idx),
    (∀ i ∈ idxs, docFreshB d2 i = true) →
    addToIndexes d idxs = (none, idxs1) →
    ∀ i ∈ idxs1, docFreshB d2 i = true
  | [], idxs1 => by
    intro _ h
    simp only [addToIndexes, idxInsertPhase] at h
    cases h
    intro i hi
    simp at hi
  | i :: rest, idxs1 => by
    intro hf h
    simp only [addToIndexes, idxInsertPhase] at h
    rcases hins : idxInsertOne i d with ⟨e1, i1⟩
    rw [hins] at h
    cases e1 with
    | some e1 =>
      rcases hrb : idxRollbackFirst d 0 (i1 :: rest) with ⟨e2, l2⟩
      rw [hrb] at h
      cases e2 <;> cases h
    | none =>
      rcases hrest : idxInsertPhase d rest with ⟨rest1, e2, k2⟩
      rw [hrest] at h
      cases e2 with
      | some e2 =>
        rcases hrb : idxRollbackFirst d (k2 + 1) (i1 :: rest1) with ⟨e3, l3⟩
        rw [hrb] at h
        cases e3 <;> cases h
      | none =>
        cases h
        have hrest2 : addToIndexes d rest = (none, rest1) := by
          simp only [addToIndexes]
          rw [hrest]
        intro j hj
        rcases List.mem_cons.mp hj with rfl | hj2
        · exact idxInsertOne_ok_fresh i d d2 j hne (hf i (by simp)) hins
        · exact addToIndexes_ok_fresh d d2 hne rest rest1
            (fun l hl => hf l (by simp [hl])) hrest2 j hj2

/-- The rollback of _addMultipleDocsToIndexes after a failure on the k-th
document restores the index list exactly. -/
theorem docsPhase_rollback : ∀ (docs : List Value) (idxs idxs1 : List Idx) (e : IdxErr) (k : Nat),
    (∀ d ∈ docs, ∀ i ∈ idxs, docFreshB d i = true) →
    docs.Pairwise (fun a b => a ≠ b) →
    docsInsertPhase idxs docs = (idxs1, some e, k) →
    docsRollbackFirst k docs idxs1 = (none, idxs)
  | [], idxs, idxs1, e, k => by
    intro _ _ h
    simp only [docsInsertPhase] at h
    cases h
  | d :: ds, idxs, idxs1, e, k => by
    intro hf hpw h
    simp only [docsInsertPhase] at h
    rcases haddi : addToIndexes d idxs with ⟨e1, idxsA⟩
    rw [haddi] at h
    cases e1 with
    | some e1 =>
      cases h
      simp only [docsRollbackFirst]
      rw [addToIndexes_err_unchanged d idxs _ _ (hf d (by simp)) haddi]
    | none =>
      dsimp only at h
      rcases hph : docsInsertPhase idxsA ds with ⟨idxsB, e2, k2⟩
      rw [hph] at h
      cases e2 with
      | none => cases h
      | some e2 =>
        cases h
        have hpwt := List.pairwise_cons.mp hpw
        have hfA : ∀ d2 ∈ ds, ∀ i ∈ idxsA, docFreshB d2 i = true := by
          intro d2 hd2 i hi
          exact addToIndexes_ok_fresh d d2 (fun he => (hpwt.1 d2 hd2) he.symm) idxs idxsA
            (fun l hl => hf d2 (by simp [hd2]) l hl) haddi i hi
        simp only [docsRollbackFirst]
        rw [docsPhase_rollback ds idxsA idxsB _ k2 hfA hpwt.2 hph]
        exact addToIndexes_ok_remove d idxs idxsA (hf d (by simp)) haddi


/-- Claim C1: when inserting a document batch throws in any index, every
index is restored exactly, so getAllData is unchanged.  Freshness of the
inserted documents (pairwise distinct, and absent from every ordered
index) models the reference identity of freshly prepared documents that
checkValueEquality relies on in the source. -/
theorem claim_C1_insert_rollback :
    (∀ (d : Value) (idxs : List Idx) (e : IdxErr) (idxs2 : List Idx),
      (∀ i ∈ idxs, docFreshB d i = true) →
      addToIndexes d idxs = (some e, idxs2) →
      idxs2 = idxs ∧ getAllData idxs2 = getAllData idxs) ∧
    (∀ (docs : List Value) (idxs : List Idx) (e : IdxErr) (idxs2 : List Idx),
      (∀ d ∈ docs, ∀ i ∈ idxs, docFreshB d i = true) →
      docs.Pairwise (fun a b => a ≠ b) →
      addMultipleDocsToIndexes docs idxs = (some e, idxs2) →
      idxs2 = idxs ∧ getAllData idxs2 = getAllData idxs) := by
  constructor
  · intro d idxs e idxs2 hf h
    have h1 := addToIndexes_err_unchanged d idxs e idxs2 hf h
    exact ⟨h1, by rw [h1]⟩
  · intro docs idxs e idxs2 hf hpw h
    simp only [addMultipleDocsToIndexes] at h
    rcases hph : docsInsertPhase idxs docs with ⟨idxs1, e1, k⟩
    rw [hph] at h
    cases e1 with
    | none => cases h
    | some e1 =>
      rw [docsPhase_rollback docs idxs idxs1 _ k hf hpw hph] at h
      cases h
      exact ⟨rfl, rfl⟩

theorem claim_C1_witness :
    addToIndexes (Value.obj [("_id", Value.str "a")])
        [Idx.usi ⟨"_id", [("a", Value.obj [("_id", Value.str "a"), ("x", Value.num 1)])]⟩]
      = (some (IdxErr.uniqueViolated (Value.str "a")),
         [Idx.usi ⟨"_id", [("a", Value.obj [("_id", Value.str "a"), ("x", Value.num 1)])]⟩]) ∧
    getAllData [Idx.usi ⟨"_id", [("a", Value.obj [("_id", Value.str "a"), ("x", Value.num 1)])]⟩]
      = getAllData [Idx.usi ⟨"_id", [("a", Value.obj [("_id", Value.str "a"), ("x", Value.num 1)])]⟩] := by
  have h : addToIndexes (Value.obj [("_id", Value.str "a")])
      [Idx.usi ⟨"_id", [("a", Value.obj [("_id", Value.str "a"), ("x", Value.num 1)])]⟩]
      = (some (IdxErr.uniqueViolated (Value.str "a")),
         [Idx.usi ⟨"_id", [("a", Value.obj [("_id", Value.str "a"), ("x", Value.num 1)])]⟩]) := by
    decide
  exact ⟨h, (claim_C1_insert_rollback.1 _ _ _ _ (by decide) h).2⟩

/-- serialize of each good document succeeds and deserializes back. -/
theorem serializeEach_roundtrip : ∀ (docs : List Value), (∀ d ∈ docs, goodDoc d = true) →
    ∃ js, serializeEach docs = .ok js ∧ js.map deserializeJ = docs
  | [] => fun _ => ⟨[], rfl, rfl⟩
  | d :: ds => fun h => by
    obtain ⟨j, hj, hr⟩ := ser_roundtrip d (h d (by simp))
    obtain ⟨js, hjs, hrs⟩ := serializeEach_roundtrip ds (fun x hx => h x (by simp [hx]))
    refine ⟨j :: js, ?_, ?_⟩
    · simp [serializeEach, hj, hjs]
    · simp only [List.map_cons, hrs]
      rw [show deserializeJ j = d from hr]

/-- The index-created record serializes to itself. -/
theorem idxOptionLine_serialize (o : OIdx) :
    serializeJ (idxOptionLine o) = .ok (idxOptionLine o) := rfl

/-- The index-created record deserializes to itself. -/
theorem idxOptionLine_deserialize (o : OIdx) :
    deserializeJ (idxOptionLine o) = idxOptionLine o := rfl

/-- serialize of a list of index records succeeds unchanged. -/
theorem serializeEach_idxlines : ∀ (os : List OIdx),
    serializeEach (os.map idxOptionLine) = .ok (os.map idxOptionLine)
  | [] => rfl
  | o :: os => by
    simp only [List.map_cons, serializeEach, idxOptionLine_serialize]
    rw [serializeEach_idxlines os]

/-- treatRawData on a line holding a live document inserts it under its
_id. -/
theorem treatLine_doc (acc : TreatAcc) (j d : Value)
    (hd : deserializeJ j = d)
    (hnn : d ≠ .null) (hnu : d ≠ .undef)
    (hid : truthy (jsGetSafe d "_id") = true)
    (hdel : jsGetSafe d "$$deleted" ≠ .bool true) :
    treatLine acc (some j)
      = { acc with dataById := assocSetV acc.dataById (jsGetSafe d "_id") d } := by
  simp only [treatLine, hd]
  rw [if_neg ?_]
  · rw [if_pos hid, if_neg hdel]
  · rintro (h | h)
    · exact hnn h
    · exact hnu h

/-- treatRawData on an index-created record accumulates the definition
under its field name. -/
theorem treatLine_idxline (acc : TreatAcc) (o : OIdx) :
    treatLine acc (some (idxOptionLine o))
      = { acc with indexes := mapSet acc.indexes o.fieldName (Value.obj
          [("fieldName", Value.str o.fieldName), ("unique", Value.bool o.unique),
           ("sparse", Value.bool o.sparse)]) } := rfl

/-- Membership test distributes over append. -/
theorem contains_append_eq {α : Type} [BEq α] (l1 l2 : List α) (a : α) :
    (l1 ++ l2).contains a = (l1.contains a || l2.contains a) := by
  induction l1 with
  | nil => simp
  | cons x xs ih =>
    simp [List.contains_cons, ih, Bool.or_assoc]

/-- Replaying serialized live documents accumulates them in the
_id-keyed map, leaving indexes and the corrupt counter alone. -/
theorem treat_fold_docs : ∀ (js : List Value) (acc : TreatAcc),
    (∀ j ∈ js, deserializeJ j ≠ .null ∧ deserializeJ j ≠ .undef ∧
      truthy (jsGetSafe (deserializeJ j) "_id") = true ∧
      jsGetSafe (deserializeJ j) "$$deleted" ≠ .bool true) →
    (js.map some).foldl treatLine acc
      = { acc with dataById := (js.foldl
          (fun m j => assocSetV m (jsGetSafe (deserializeJ j) "_id") (deserializeJ j))
          acc.dataById) }
  | [], acc => by
    intro _
    rfl
  | j :: js, acc => by
    intro h
    obtain ⟨h1, h2, h3, h4⟩ := h j (by simp)
    simp only [List.map_cons, List.foldl_cons]
    rw [treatLine_doc acc j (deserializeJ j) rfl h1 h2 h3 h4]
    rw [treat_fold_docs js _ (fun x hx => h x (by simp [hx]))]

/-- Replaying index-created records accumulates the definitions, leaving
the document map and the corrupt counter alone. -/
theorem treat_fold_idxlines : ∀ (os : List OIdx) (acc : TreatAcc),
    ((os.map idxOptionLine).map some).foldl treatLine acc
      = { acc with indexes := (os.foldl
          (fun m o => mapSet m o.fieldName (Value.obj
            [("fieldName", Value.str o.fieldName), ("unique", Value.bool o.unique),
             ("sparse", Value.bool o.sparse)]))
          acc.indexes) }
  | [], acc => rfl
  | o :: os, acc => by
    simp only [List.map_cons, List.foldl_cons]
    rw [treatLine_idxline acc o]
    rw [treat_fold_idxlines os _]

/-- Setting fresh pairwise-distinct keys appends the bindings in order. -/
theorem assocSetV_fold_fresh (f : Value → Value) : ∀ (ds : List Value) (m : List (Value × Value)),
    (∀ d ∈ ds, (m.map Prod.fst).contains (f d) = false) →
    (ds.map f).Pairwise (fun a b => a ≠ b) →
    ds.foldl (fun m d => assocSetV m (f d) d) m = m ++ ds.map (fun d => (f d, d))
  | [], m => by
    intro _ _
    simp
  | d :: ds, m => by
    intro hfresh hpw
    simp only [List.foldl_cons]
    have h1 : assocSetV m (f d) d = m ++ [(f d, d)] := by
      unfold assocSetV
      rw [if_neg (by rw [hfresh d (by simp)]; simp)]
    rw [h1]
    rw [List.map_cons] at hpw
    obtain ⟨hh, ht⟩ := List.pairwise_cons.mp hpw
    rw [assocSetV_fold_fresh f ds (m ++ [(f d, d)]) ?_ ht]
    · simp
    · intro x hx
      have hx1 := hfresh x (by simp [hx])
      have hx2 : f x ≠ f d := fun he => hh (f x) (List.mem_map_of_mem f hx) he.symm
      rw [List.map_append, contains_append_eq, hx1]
      simp [List.contains_cons, hx2]

/-- Setting fresh pairwise-distinct string keys appends the bindings. -/
theorem mapSet_fold_fresh (g : OIdx → Value) : ∀ (os : List OIdx) (m : List (String × Value)),
    (∀ o ∈ os, mapHas m o.fieldName = false) →
    (os.map (fun o => o.fieldName)).Pairwise (fun a b => a ≠ b) →
    os.foldl (fun m o => mapSet m o.fieldName (g o)) m = m ++ os.map (fun o => (o.fieldName, g o))
  | [], m => by
    intro _ _
    simp
  | o :: os, m => by
    intro hfresh hpw
    simp only [List.foldl_cons]
    have h1 : mapSet m o.fieldName (g o) = m ++ [(o.fieldName, g o)] := by
      unfold mapSet
      rw [if_neg (by rw [hfresh o (by simp)]; simp)]
    rw [h1]
    rw [List.map_cons] at hpw
    obtain ⟨hh, ht⟩ := List.pairwise_cons.mp hpw
    rw [mapSet_fold_fresh g os (m ++ [(o.fieldName, g o)]) ?_ ht]
    · simp
    · intro x hx
      have hx1 := hfresh x (by simp [hx])
      have hx2 : x.fieldName ≠ o.fieldName :=
        fun he => hh x.fieldName (List.mem_map_of_mem (fun o => o.fieldName) hx) he.symm
      show ((m ++ [(o.fieldName, g o)]).map Prod.fst).contains x.fieldName = false
      rw [List.map_append, contains_append_eq]
      have hx1b : (m.map Prod.fst).contains x.fieldName = false := hx1
      rw [hx1b]
      simp [List.contains_cons, hx2]


/-- Raw insertion of documents with fresh pairwise-distinct keys appends
them in order. -/
theorem usiRawInsertGo_fresh (f : String) :
    ∀ (docs : List Value) (m : List (String × Value)) (done : List String),
    (∀ d ∈ docs, mapHas m (usiFieldOf f d) = false) →
    (docs.map (usiFieldOf f)).Pairwise (fun a b => a ≠ b) →
    usiRawInsertGo f m docs done = (none, m ++ docs.map (fun d => (usiFieldOf f d, d)))
  | [], m, done => by
    intro _ _
    simp [usiRawInsertGo]
  | d :: ds, m, done => by
    intro hfresh hpw
    unfold usiRawInsertGo
    rw [if_neg (by rw [hfresh d (by simp)]; simp)]
    have hset : mapSet m (usiFieldOf f d) d = m ++ [(usiFieldOf f d, d)] := by
      unfold mapSet
      rw [if_neg (by rw [hfresh d (by simp)]; simp)]
    rw [hset]
    rw [List.map_cons] at hpw
    obtain ⟨hh, ht⟩ := List.pairwise_cons.mp hpw
    rw [usiRawInsertGo_fresh f ds (m ++ [(usiFieldOf f d, d)]) _ ?_ ht]
    · simp
    · intro x hx
      have hx1 : (m.map Prod.fst).contains (usiFieldOf f x) = false := hfresh x (by simp [hx])
      have hx2 : usiFieldOf f x ≠ usiFieldOf f d :=
        fun he => hh (usiFieldOf f x) (List.mem_map_of_mem (usiFieldOf f) hx) he.symm
      show ((m ++ [(usiFieldOf f d, d)]).map Prod.fst).contains (usiFieldOf f x) = false
      rw [List.map_append, contains_append_eq, hx1]
      simp [List.contains_cons, hx2]

/-- A successful sequential insertion gives the same run of the insertion
loop of updateMultipleDocs. -/
theorem ordInsGo_of_seq (olds1 : List Value) :
    ∀ (ds : List Value) (i : OIdx) (added : List Value) (i2 : OIdx),
    oidxInsertSeq i ds = (none, i2) →
    oidxUpdateInsGo olds1 i ds added = (none, i2)
  | [], i, added, i2 => by
    intro h
    simp only [oidxInsertSeq] at h
    cases h
    rfl
  | d :: ds, i, added, i2 => by
    intro h
    simp only [oidxInsertSeq] at h
    rcases hone : oidxInsertOne i d with ⟨e1, i1⟩
    rw [hone] at h
    cases e1 with
    | some e1 => cases h
    | none =>
      simp only [oidxUpdateInsGo]
      rw [hone]
      exact ordInsGo_of_seq olds1 ds i1 (d :: added) i2 h

/-- Evaluation of docKeys at a resolving scalar field value. -/
theorem docKeys_scalar (f : String) (d fv : Value)
    (hget : getDotValue d f = Except.ok fv) (harr : ∀ es, fv ≠ Value.arr es) :
    docKeys f d = [fv] := by
  unfold docKeys
  rw [hget]
  cases fv with
  | arr es => exact absurd rfl (harr es)
  | undef => rfl
  | null => rfl
  | bool b => rfl
  | num n => rfl
  | str s => rfl
  | date dt => rfl
  | obj fs => rfl

/-- Evaluation of docKeys at an array field value. -/
theorem docKeys_arr (f : String) (d : Value) (es : List Value)
    (hget : getDotValue d f = Except.ok (Value.arr es)) :
    docKeys f d = toDateSafeUnique es := by
  unfold docKeys
  rw [hget]

/-- docEntries under the sparse skip. -/
theorem docEntries_skip (f : String) (sp : Bool) (d : Value)
    (hget : getDotValue d f = Except.ok Value.undef) (hsp : sp = true) :
    docEntries f sp d = [] := by
  unfold docEntries
  rw [hget]
  dsimp only
  rw [if_pos ⟨rfl, hsp⟩]

/-- docEntries when the sparse skip does not apply. -/
theorem docEntries_noskip (f : String) (sp : Bool) (d fv : Value)
    (hget : getDotValue d f = Except.ok fv)
    (hns : ¬(fv = Value.undef ∧ sp = true)) :
    docEntries f sp d = (docKeys f d).map (fun v => (v, d)) := by
  unfold docEntries
  rw [hget]
  dsimp only
  rw [if_neg hns]

/-- docKeysEff when the sparse skip does not apply. -/
theorem docKeysEff_noskip (f : String) (sp : Bool) (d fv : Value)
    (hget : getDotValue d f = Except.ok fv)
    (hns : ¬(fv = Value.undef ∧ sp = true)) :
    docKeysEff f sp d = docKeys f d := by
  unfold docKeysEff
  rw [docEntries_noskip f sp d fv hget hns, List.map_map]
  have hc : (Prod.fst ∘ fun v : Value => (v, d)) = id := rfl
  rw [hc, List.map_id]

/-- Membership in the entries of one document. -/
theorem docEntries_mem (f : String) (sp : Bool) (d : Value) (q : Value × Value)
    (h : q ∈ docEntries f sp d) : q.2 = d ∧ q.1 ∈ docKeys f d := by
  unfold docEntries at h
  rcases hg : getDotValue d f with e | fv
  · rw [hg] at h
    cases h
  · rw [hg] at h
    dsimp only at h
    by_cases hskip : fv = Value.undef ∧ sp = true
    · rw [if_pos hskip] at h
      cases h
    · rw [if_neg hskip] at h
      obtain ⟨v, hv, he⟩ := List.mem_map.mp h
      rw [← he]
      exact ⟨rfl, hv⟩

/-- A contributed key certifies that the sparse skip does not apply and
that it is one of the document's keys. -/
theorem docKeysEff_mem_cases (f : String) (sp : Bool) (d fv v : Value)
    (hget : getDotValue d f = Except.ok fv) (hv : v ∈ docKeysEff f sp d) :
    ¬(fv = Value.undef ∧ sp = true) ∧ v ∈ docKeys f d := by
  by_cases hns : fv = Value.undef ∧ sp = true
  · exfalso
    have hgu : getDotValue d f = Except.ok Value.undef := by
      rw [← hns.1]
      exact hget
    have hE : docKeysEff f sp d = [] := by
      unfold docKeysEff
      rw [docEntries_skip f sp d hgu hns.2]
      rfl
    rw [hE] at hv
    cases hv
  · refine ⟨hns, ?_⟩
    rw [docKeysEff_noskip f sp d fv hget hns] at hv
    exact hv

/-- entriesSeq distributes over append. -/
theorem entriesSeq_append (f : String) (sp : Bool) (l1 l2 : List Value) :
    entriesSeq f sp (l1 ++ l2) = entriesSeq f sp l1 ++ entriesSeq f sp l2 := by
  induction l1 with
  | nil => rfl
  | cons d l1 ih =>
    simp only [List.cons_append, entriesSeq, List.append_eq, ih, List.append_assoc]

/-- Membership in the entries of a document list. -/
theorem entriesSeq_mem (f : String) (sp : Bool) :
    ∀ (ds : List Value) (q : Value × Value), q ∈ entriesSeq f sp ds →
    q.2 ∈ ds ∧ q.1 ∈ docKeys f q.2
  | [], q => by
    intro h
    cases h
  | d :: ds, q => by
    intro h
    rcases List.mem_append.mp h with h1 | h2
    · obtain ⟨hd, hk⟩ := docEntries_mem f sp d q h1
      subst hd
      exact ⟨by simp, hk⟩
    · obtain ⟨hm, hk⟩ := entriesSeq_mem f sp ds q h2
      exact ⟨by simp [hm], hk⟩

/-- Deleting a scalar key of a document is the filter by its removal
predicate. -/
theorem treeDel_eq_filter_remPred (f : String) (d fv : Value)
    (t : List (Value × Value)) (hk : docKeys f d = [fv]) :
    treeDel t fv d = t.filter (fun q => !(remPred f d q)) := by
  unfold treeDel
  apply List.filter_congr
  intro q hq
  simp only [remPred, hk, List.any_cons, List.any_nil, Bool.or_false]

/-- remove of one document from an ordered index with a resolving field
value: skip under sparse undefined, otherwise drop exactly the entries
matched by the removal predicate. -/
theorem oidxRemoveOne_eval (f : String) (u sp : Bool) (t : List (Value × Value))
    (d fv : Value) (hget : getDotValue d f = Except.ok fv) :
    oidxRemoveOne ⟨f, u, sp, t⟩ d =
      (none, ⟨f, u, sp, if fv = Value.undef ∧ sp = true then t
        else t.filter (fun q => !(remPred f d q))⟩) := by
  unfold oidxRemoveOne
  rw [hget]
  dsimp only
  by_cases hskip : fv = Value.undef ∧ sp = true
  · rw [if_pos hskip, if_pos hskip]
  · rw [if_neg hskip, if_neg hskip]
    cases fv <;>
      first
        | (rename_i es
           dsimp only
           rw [foldl_treeDel_filter]
           have hk : docKeys f d = toDateSafeUnique es := docKeys_arr f d es hget
           have hfe : t.filter (fun e =>
               !((toDateSafeUnique es).any (fun v => compareThings e.1 v == 0) &&
                 decide (e.2 = d))) = t.filter (fun q => !(remPred f d q)) := by
             apply List.filter_congr
             intro q hq
             simp only [remPred, hk]
           rw [hfe])
        | (dsimp only
           rw [treeDel_eq_filter_remPred f d _ t
             (docKeys_scalar f d _ hget (fun es h => by cases h))])

/-- Sequential removal of pairwise distinct documents whose matched
entries are exactly their canonical entries: the removals succeed, remove
exactly those entries up to permutation, and every surviving entry
matches no removed document. -/
theorem ordRemSeq_perm (f : String) (u sp : Bool) :
    ∀ (ds : List Value) (t : List (Value × Value)),
    ds.Pairwise (fun a b => a ≠ b) →
    (∀ d ∈ ds, ∃ fv, getDotValue d f = Except.ok fv ∧
      (¬(fv = Value.undef ∧ sp = true) →
        List.Perm (t.filter (remPred f d)) (docEntries f sp d))) →
    ∃ t1, oidxRemoveSeq ⟨f, u, sp, t⟩ ds = (none, ⟨f, u, sp, t1⟩) ∧
      List.Perm t (entriesSeq f sp ds ++ t1) ∧ t1.Sublist t ∧
      (∀ q ∈ t1, ∀ d ∈ ds, ∀ fv, getDotValue d f = Except.ok fv →
        ¬(fv = Value.undef ∧ sp = true) → remPred f d q = false) ∧
      (∀ q ∈ t, (∀ d ∈ ds, remPred f d q = false) → q ∈ t1)
  | [], t => by
    intro _ _
    refine ⟨t, by simp [oidxRemoveSeq], by simp [entriesSeq], List.Sublist.refl t, ?_, ?_⟩
    · intro q _ d hd
      exact absurd hd (List.not_mem_nil d)
    · intro q hq _
      exact hq
  | d :: ds, t => by
    intro hnd hok
    obtain ⟨fv, hget, hrem⟩ := hok d (by simp)
    obtain ⟨hhd, htl⟩ := List.pairwise_cons.mp hnd
    by_cases hskip : fv = Value.undef ∧ sp = true
    · have hgu : getDotValue d f = Except.ok Value.undef := by
        rw [← hskip.1]
        exact hget
      have hE : docEntries f sp d = [] := docEntries_skip f sp d hgu hskip.2
      obtain ⟨t1, hseq, hperm, hsub, hno, hrev⟩ := ordRemSeq_perm f u sp ds t htl
        (fun d2 h2 => hok d2 (by simp [h2]))
      refine ⟨t1, ?_, ?_, hsub, ?_, ?_⟩
      · simp only [oidxRemoveSeq]
        rw [oidxRemoveOne_eval f u sp t d fv hget, if_pos hskip]
        exact hseq
      · simpa [entriesSeq, hE] using hperm
      · intro q hq d2 hd2 fv2 hget2 hns2
        rcases List.mem_cons.mp hd2 with rfl | hd3
        · rw [hget] at hget2
          injection hget2 with hfv
          subst hfv
          exact absurd hskip hns2
        · exact hno q hq d2 hd3 fv2 hget2 hns2
      · intro q hq hall
        exact hrev q hq (fun d2 h2 => hall d2 (by simp [h2]))
    · have hfilter2 : ∀ d2, d ≠ d2 →
          (t.filter (fun q => !(remPred f d q))).filter (remPred f d2)
            = t.filter (remPred f d2) := by
        intro d2 hne
        rw [List.filter_filter]
        apply List.filter_congr
        intro q hq
        cases h2 : remPred f d2 q with
        | false => simp [h2]
        | true =>
          have h3 := h2
          simp only [remPred, Bool.and_eq_true, decide_eq_true_eq] at h3
          have h4 : remPred f d q = false := by
            simp [remPred, h3.2, Ne.symm hne]
          simp [h2, h4]
      have hok2 : ∀ d2 ∈ ds, ∃ fv2, getDotValue d2 f = Except.ok fv2 ∧
          (¬(fv2 = Value.undef ∧ sp = true) →
            List.Perm ((t.filter (fun q => !(remPred f d q))).filter (remPred f d2))
              (docEntries f sp d2)) := by
        intro d2 hd2
        obtain ⟨fv2, hget2, hrem2⟩ := hok d2 (by simp [hd2])
        refine ⟨fv2, hget2, fun hns2 => ?_⟩
        rw [hfilter2 d2 (hhd d2 hd2)]
        exact hrem2 hns2
      obtain ⟨t1, hseq, hperm, hsub, hno, hrev⟩ := ordRemSeq_perm f u sp ds
        (t.filter (fun q => !(remPred f d q))) htl hok2
      refine ⟨t1, ?_, ?_, hsub.trans (List.filter_sublist t), ?_, ?_⟩
      · simp only [oidxRemoveSeq]
        rw [oidxRemoveOne_eval f u sp t d fv hget, if_neg hskip]
        exact hseq
      · have hsplit : List.Perm t
            (t.filter (remPred f d) ++ t.filter (fun q => !(remPred f d q))) :=
          (List.filter_append_perm (remPred f d) t).symm
        have hstep : List.Perm
            (t.filter (remPred f d) ++ t.filter (fun q => !(remPred f d q)))
            (docEntries f sp d ++ (entriesSeq f sp ds ++ t1)) :=
          List.Perm.append (hrem hskip) hperm
        simp only [entriesSeq]
        rw [List.append_assoc]
        exact hsplit.trans hstep
      · intro q hq d2 hd2 fv2 hget2 hns2
        rcases List.mem_cons.mp hd2 with rfl | hd3
        · have hq' : q ∈ t.filter (fun q => !(remPred f d2 q)) := hsub.subset hq
          have h5 := (List.mem_filter.mp hq').2
          simpa using h5
        · exact hno q hq d2 hd3 fv2 hget2 hns2
      · intro q hq hall
        have hq' : q ∈ t.filter (fun q => !(remPred f d q)) := by
          rw [List.mem_filter]
          exact ⟨hq, by simp [hall d (by simp)]⟩
        exact hrev q hq' (fun d2 h2 => hall d2 (by simp [h2]))

/-- Removing documents in order from a tree holding their entries behind a
fresh base removes exactly those entries. -/
theorem ordRemSeq_entries (f : String) (u sp : Bool) :
    ∀ (ds : List Value) (t1 : List (Value × Value)),
    ds.Pairwise (fun a b => a ≠ b) →
    (∀ d ∈ ds, ∃ fv, getDotValue d f = Except.ok fv) →
    (∀ q ∈ t1, ∀ d ∈ ds, q.2 ≠ d) →
    oidxRemoveSeq ⟨f, u, sp, t1 ++ entriesSeq f sp ds⟩ ds = (none, ⟨f, u, sp, t1⟩)
  | [], t1 => by
    intro _ _ _
    simp [oidxRemoveSeq, entriesSeq]
  | d :: ds, t1 => by
    intro hnd hget hfr
    obtain ⟨fv, hgetd⟩ := hget d (by simp)
    obtain ⟨hhd, htl⟩ := List.pairwise_cons.mp hnd
    simp only [oidxRemoveSeq]
    rw [oidxRemoveOne_eval f u sp (t1 ++ entriesSeq f sp (d :: ds)) d fv hgetd]
    by_cases hskip : fv = Value.undef ∧ sp = true
    · rw [if_pos hskip]
      dsimp only
      have hgu : getDotValue d f = Except.ok Value.undef := by
        rw [← hskip.1]
        exact hgetd
      have hE : docEntries f sp d = [] := docEntries_skip f sp d hgu hskip.2
      have ht : t1 ++ entriesSeq f sp (d :: ds) = t1 ++ entriesSeq f sp ds := by
        simp [entriesSeq, hE]
      rw [ht]
      exact ordRemSeq_entries f u sp ds t1 htl (fun x hx => hget x (by simp [hx]))
        (fun q hq x hx => hfr q hq x (by simp [hx]))
    · rw [if_neg hskip]
      dsimp only
      have hfe : (t1 ++ entriesSeq f sp (d :: ds)).filter (fun q => !(remPred f d q))
          = t1 ++ entriesSeq f sp ds := by
        rw [show entriesSeq f sp (d :: ds) = docEntries f sp d ++ entriesSeq f sp ds
          from rfl]
        rw [List.filter_append, List.filter_append]
        have h1 : t1.filter (fun q => !(remPred f d q)) = t1 := by
          rw [List.filter_eq_self]
          intro q hq
          simp [remPred, hfr q hq d (by simp)]
        have h2 : (docEntries f sp d).filter (fun q => !(remPred f d q)) = [] := by
          rw [List.filter_eq_nil_iff]
          intro q hq
          obtain ⟨hq2, hq1⟩ := docEntries_mem f sp d q hq
          have hany : (docKeys f d).any (fun v => compareThings q.1 v == 0) = true :=
            List.any_eq_true.mpr ⟨q.1, hq1, by simp [cmp_refl]⟩
          simp [remPred, hany, hq2]
        have h3 : (entriesSeq f sp ds).filter (fun q => !(remPred f d q))
            = entriesSeq f sp ds := by
          rw [List.filter_eq_self]
          intro q hq
          obtain ⟨hq2, hq1⟩ := entriesSeq_mem f sp ds q hq
          have hqd : q.2 ≠ d := fun he => hhd q.2 hq2 he.symm
          simp [remPred, hqd]
        rw [h1, h2, h3]
        simp
      rw [hfe]
      exact ordRemSeq_entries f u sp ds t1 htl (fun x hx => hget x (by simp [hx]))
        (fun q hq x hx => hfr q hq x (by simp [hx]))

/-- A plain AVL insertion succeeds when the key is free under a unique
index. -/
theorem treeInsert_ok_of_free (u : Bool) (t : List (Value × Value)) (k d : Value)
    (hfree : u = true → ∀ q ∈ t, compareThings q.1 k ≠ 0) :
    treeInsert u t k d = (none, t ++ [(k, d)]) := by
  have hcond : (u && treeHasKey t k) = false := by
    cases u with
    | false => rfl
    | true =>
      rw [Bool.true_and]
      unfold treeHasKey
      rw [List.any_eq_false]
      intro q hq
      simp only [beq_iff_eq]
      exact hfree rfl q hq
  simp [treeInsert, hcond]

/-- The array-branch insertion loop succeeds under key freedom and
pairwise distinct values. -/
theorem treeInsValsGo_ok_of (u : Bool) (d : Value) :
    ∀ (vs : List Value) (t : List (Value × Value)) (done : List Value),
    (u = true → ∀ q ∈ t, ∀ v ∈ vs, compareThings q.1 v ≠ 0) →
    (u = true → vs.Pairwise (fun a b => compareThings a b ≠ 0)) →
    treeInsValsGo u d t vs done = (none, t ++ vs.map (fun v => (v, d)))
  | [], t, done => by
    intro _ _
    simp [treeInsValsGo]
  | v :: vs, t, done => by
    intro hfree hpw
    have hins : treeInsert u t v d = (none, t ++ [(v, d)]) :=
      treeInsert_ok_of_free u t v d (fun hu q hq => hfree hu q hq v (by simp))
    simp only [treeInsValsGo]
    rw [hins]
    dsimp only
    have hfree2 : u = true → ∀ q ∈ t ++ [(v, d)], ∀ w ∈ vs,
        compareThings q.1 w ≠ 0 := by
      intro hu q hq w hw
      rcases List.mem_append.mp hq with h1 | h2
      · exact hfree hu q h1 w (by simp [hw])
      · have hq2 : q = (v, d) := by simpa using h2
        subst hq2
        exact (List.pairwise_cons.mp (hpw hu)).1 w hw
    have hpw2 : u = true → vs.Pairwise (fun a b => compareThings a b ≠ 0) :=
      fun hu => (List.pairwise_cons.mp (hpw hu)).2
    rw [treeInsValsGo_ok_of u d vs (t ++ [(v, d)]) (v :: done) hfree2 hpw2]
    simp

/-- insert of one document succeeds and appends its entries when its keys
are free and pairwise distinct under a unique index. -/
theorem oidxInsertOne_ok_of (f : String) (u sp : Bool) (t : List (Value × Value))
    (d fv : Value) (hget : getDotValue d f = Except.ok fv)
    (hfree : u = true → ∀ q ∈ t, ∀ v ∈ docKeysEff f sp d, compareThings q.1 v ≠ 0)
    (hpw : u = true → (docKeysEff f sp d).Pairwise (fun a b => compareThings a b ≠ 0)) :
    oidxInsertOne ⟨f, u, sp, t⟩ d = (none, ⟨f, u, sp, t ++ docEntries f sp d⟩) := by
  unfold oidxInsertOne
  rw [hget]
  dsimp only
  by_cases hskip : fv = Value.undef ∧ sp = true
  · rw [if_pos hskip]
    have hgu : getDotValue d f = Except.ok Value.undef := by
      rw [← hskip.1]
      exact hget
    rw [docEntries_skip f sp d hgu hskip.2]
    simp
  · rw [if_neg hskip]
    have hE : docEntries f sp d = (docKeys f d).map (fun v => (v, d)) :=
      docEntries_noskip f sp d fv hget hskip
    have hKE : docKeysEff f sp d = docKeys f d := docKeysEff_noskip f sp d fv hget hskip
    cases fv <;>
      first
        | (rename_i es
           dsimp only
           have hK : docKeys f d = toDateSafeUnique es := docKeys_arr f d es hget
           rw [treeInsValsGo_ok_of u d (toDateSafeUnique es) t []
             (by rw [← hK, ← hKE]; exact hfree)
             (by rw [← hK, ← hKE]; exact hpw)]
           rw [hE, hK])
        | (dsimp only
           have hK := docKeys_scalar f d _ hget (fun es h => by cases h)
           rw [treeInsert_ok_of_free u t _ d (fun hu q hq =>
             hfree hu q hq _ (by rw [hKE, hK]; simp))]
           simp [hE, hK])

/-- Shape of any successful insert of one document: it appends the
document's entries. -/
theorem oidxInsertOne_ok_entries (f : String) (u sp : Bool) (t : List (Value × Value))
    (d : Value) (o2 : OIdx) (h : oidxInsertOne ⟨f, u, sp, t⟩ d = (none, o2)) :
    o2 = ⟨f, u, sp, t ++ docEntries f sp d⟩ := by
  unfold oidxInsertOne at h
  dsimp only at h
  split at h
  · cases h
  · next fv hget =>
    split at h
    · next hsp =>
      cases h
      have hgu : getDotValue d f = Except.ok Value.undef := by
        rw [← hsp.1]
        exact hget
      rw [docEntries_skip f sp d hgu hsp.2]
      simp
    · next hsp =>
      split at h
      · next elems =>
        rcases hiv : treeInsValsGo u d t (toDateSafeUnique elems) [] with ⟨e1, t2⟩
        rw [hiv] at h
        dsimp only at h
        cases e1 with
        | some e1 => cases h
        | none =>
          cases h
          have h2 := treeInsValsGo_ok u d (toDateSafeUnique elems) t [] t2 hiv
          subst h2
          rw [docEntries_noskip f sp d _ hget hsp, docKeys_arr f d elems hget]
      · next hnotarr =>
        rcases hins : treeInsert u t fv d with ⟨e1, t2⟩
        rw [hins] at h
        dsimp only at h
        cases e1 with
        | some e1 => cases h
        | none =>
          cases h
          rw [treeInsert_ok u t fv d t2 hins]
          rw [docEntries_noskip f sp d fv hget hsp]
          rw [docKeys_scalar f d fv hget (fun es he => (hnotarr es he).elim)]
          rfl

/-- Shape of a successful sequential insertion. -/
theorem oidxInsertSeq_shape (f : String) (u sp : Bool) :
    ∀ (ds : List Value) (t : List (Value × Value)) (i2 : OIdx),
    oidxInsertSeq ⟨f, u, sp, t⟩ ds = (none, i2) →
    i2 = ⟨f, u, sp, t ++ entriesSeq f sp ds⟩
  | [], t, i2 => by
    intro h
    simp only [oidxInsertSeq] at h
    cases h
    simp [entriesSeq]
  | d :: ds, t, i2 => by
    intro h
    simp only [oidxInsertSeq] at h
    rcases hone : oidxInsertOne ⟨f, u, sp, t⟩ d with ⟨e1, i1⟩
    rw [hone] at h
    cases e1 with
    | some e1 => cases h
    | none =>
      dsimp only at h
      have h1 := oidxInsertOne_ok_entries f u sp t d i1 hone
      subst h1
      have h2 := oidxInsertSeq_shape f u sp ds (t ++ docEntries f sp d) i2 h
      rw [h2]
      simp [entriesSeq, List.append_assoc]

/-- Success of a sequential insertion under key freedom and pairwise
distinct keys. -/
theorem oidxInsertSeq_ok2 (f : String) (u sp : Bool) :
    ∀ (ds : List Value) (t : List (Value × Value)),
    (∀ d ∈ ds, ∃ fv, getDotValue d f = Except.ok fv) →
    (u = true → ∀ d ∈ ds, ∀ q ∈ t, ∀ v ∈ docKeysEff f sp d, compareThings q.1 v ≠ 0) →
    (u = true → ∀ d ∈ ds, (docKeysEff f sp d).Pairwise
      (fun a b => compareThings a b ≠ 0)) →
    (u = true → ds.Pairwise (fun a b => ∀ v ∈ docKeysEff f sp a,
      ∀ w ∈ docKeysEff f sp b, compareThings v w ≠ 0)) →
    oidxInsertSeq ⟨f, u, sp, t⟩ ds = (none, ⟨f, u, sp, t ++ entriesSeq f sp ds⟩)
  | [], t => by
    intro _ _ _ _
    simp [oidxInsertSeq, entriesSeq]
  | d :: ds, t => by
    intro hget hfree hpw hpwx
    obtain ⟨fv, hgetd⟩ := hget d (by simp)
    simp only [oidxInsertSeq]
    rw [oidxInsertOne_ok_of f u sp t d fv hgetd
      (fun hu q hq => hfree hu d (by simp) q hq) (fun hu => hpw hu d (by simp))]
    dsimp only
    have hfree2 : u = true → ∀ d2 ∈ ds, ∀ q ∈ t ++ docEntries f sp d,
        ∀ v ∈ docKeysEff f sp d2, compareThings q.1 v ≠ 0 := by
      intro hu d2 hd2 q hq v hv
      rcases List.mem_append.mp hq with h1 | h2
      · exact hfree hu d2 (by simp [hd2]) q h1 v hv
      · have hq1 : q.1 ∈ docKeysEff f sp d := List.mem_map_of_mem Prod.fst h2
        exact (List.pairwise_cons.mp (hpwx hu)).1 d2 hd2 q.1 hq1 v hv
    rw [oidxInsertSeq_ok2 f u sp ds (t ++ docEntries f sp d)
      (fun x hx => hget x (by simp [hx])) hfree2
      (fun hu x hx => hpw hu x (by simp [hx]))
      (fun hu => (List.pairwise_cons.mp (hpwx hu)).2)]
    simp [entriesSeq, List.append_assoc]

/-- A successful sequential insertion gives the same run of
insertMultipleDocs. -/
theorem oidxInsertMultiGo_of_seq :
    ∀ (ds : List Value) (i : OIdx) (done : List Value) (i2 : OIdx),
    oidxInsertSeq i ds = (none, i2) →
    oidxInsertMultiGo i ds done = (none, i2)
  | [], i, done, i2 => by
    intro h
    simp only [oidxInsertSeq] at h
    cases h
    rfl
  | d :: ds, i, done, i2 => by
    intro h
    simp only [oidxInsertSeq] at h
    rcases hone : oidxInsertOne i d with ⟨e1, i1⟩
    rw [hone] at h
    cases e1 with
    | some e1 => cases h
    | none =>
      simp only [oidxInsertMultiGo]
      rw [hone]
      exact oidxInsertMultiGo_of_seq ds i1 (d :: done) i2 h

/-- Appending to a successful sequential insertion. -/
theorem oidxInsertSeq_append :
    ∀ (ds1 ds2 : List Value) (i i1 : OIdx),
    oidxInsertSeq i ds1 = (none, i1) →
    oidxInsertSeq i (ds1 ++ ds2) = oidxInsertSeq i1 ds2
  | [], ds2, i, i1 => by
    intro h
    simp only [oidxInsertSeq] at h
    cases h
    rfl
  | d :: ds1, ds2, i, i1 => by
    intro h
    simp only [oidxInsertSeq] at h
    rcases hone : oidxInsertOne i d with ⟨e1, ia⟩
    rw [hone] at h
    cases e1 with
    | some e1 => cases h
    | none =>
      simp only [List.cons_append, oidxInsertSeq]
      rw [hone]
      exact oidxInsertSeq_append ds1 ds2 ia i1 h

/-- Appending to a successful sequential removal. -/
theorem oidxRemoveSeq_append :
    ∀ (ds1 ds2 : List Value) (i i1 : OIdx),
    oidxRemoveSeq i ds1 = (none, i1) →
    oidxRemoveSeq i (ds1 ++ ds2) = oidxRemoveSeq i1 ds2
  | [], ds2, i, i1 => by
    intro h
    simp only [oidxRemoveSeq] at h
    cases h
    rfl
  | d :: ds1, ds2, i, i1 => by
    intro h
    simp only [oidxRemoveSeq] at h
    rcases hone : oidxRemoveOne i d with ⟨e1, ia⟩
    rw [hone] at h
    cases e1 with
    | some e1 => cases h
    | none =>
      simp only [List.cons_append, oidxRemoveSeq]
      rw [hone]
      exact oidxRemoveSeq_append ds1 ds2 ia i1 h

/-- Sequential removal in reverse undoes a successful sequential
insertion. -/
theorem ordRemSeq_of_insSeq (f : String) (u sp : Bool) :
    ∀ (ds : List Value) (t : List (Value × Value)) (i2 : OIdx),
    (∀ q ∈ t, ∀ d ∈ ds, q.2 ≠ d) →
    ds.Pairwise (fun a b => a ≠ b) →
    oidxInsertSeq ⟨f, u, sp, t⟩ ds = (none, i2) →
    oidxRemoveSeq i2 ds.reverse = (none, ⟨f, u, sp, t⟩)
  | [], t, i2 => by
    intro _ _ h
    simp only [oidxInsertSeq] at h
    cases h
    rfl
  | d :: ds, t, i2 => by
    intro hfr hnd h
    simp only [oidxInsertSeq] at h
    rcases hone : oidxInsertOne ⟨f, u, sp, t⟩ d with ⟨e1, i1⟩
    rw [hone] at h
    cases e1 with
    | some e1 => cases h
    | none =>
      dsimp only at h
      have hsh := oidxInsertOne_ok_entries f u sp t d i1 hone
      subst hsh
      have hfr2 : ∀ q ∈ t ++ docEntries f sp d, ∀ x ∈ ds, q.2 ≠ x := by
        intro q hq x hx
        rcases List.mem_append.mp hq with h1 | h2
        · exact hfr q h1 x (by simp [hx])
        · obtain ⟨hq2, -⟩ := docEntries_mem f sp d q h2
          rw [hq2]
          exact fun he => (List.pairwise_cons.mp hnd).1 x hx he
      have hrec := ordRemSeq_of_insSeq f u sp ds (t ++ docEntries f sp d) i2 hfr2
        (List.pairwise_cons.mp hnd).2 h
      have hrem1 : oidxRemoveOne ⟨f, u, sp, t ++ docEntries f sp d⟩ d
          = (none, ⟨f, u, sp, t⟩) :=
        oidxInsertOne_ok_remove ⟨f, u, sp, t⟩ d _ (fun p hp => hfr p hp d (by simp)) hone
      have hseq : oidxRemoveSeq i2 (ds.reverse ++ [d]) = (none, ⟨f, u, sp, t⟩) := by
        rw [oidxRemoveSeq_append ds.reverse [d] i2 _ hrec]
        simp only [oidxRemoveSeq]
        rw [hrem1]
      simpa [List.reverse_cons] using hseq

/-- Shape of a successful insertion loop of updateMultipleDocs: the new
entries are appended in order. -/
theorem ordInsGo_shape2 (f : String) (u sp : Bool) (olds1 : List Value) :
    ∀ (ds : List Value) (t : List (Value × Value)) (added : List Value) (o1 : OIdx),
    oidxUpdateInsGo olds1 ⟨f, u, sp, t⟩ ds added = (none, o1) →
    o1 = ⟨f, u, sp, t ++ entriesSeq f sp ds⟩
  | [], t, added, o1 => by
    intro h
    simp only [oidxUpdateInsGo] at h
    cases h
    simp [entriesSeq]
  | d :: ds, t, added, o1 => by
    intro h
    simp only [oidxUpdateInsGo] at h
    rcases hone : oidxInsertOne ⟨f, u, sp, t⟩ d with ⟨e1, i1⟩
    rw [hone] at h
    cases e1 with
    | some e1 =>
      exfalso
      dsimp only at h
      rcases h2 : oidxRemoveSeq i1 added with ⟨e2, i2⟩
      rw [h2] at h
      cases e2 with
      | some e2 => cases h
      | none =>
        dsimp only at h
        rcases h3 : oidxInsertSeq i2 olds1 with ⟨e3, i3⟩
        rw [h3] at h
        cases e3 <;> cases h
    | none =>
      dsimp only at h
      have hs := oidxInsertOne_ok_entries f u sp t d i1 hone
      subst hs
      have h5 := ordInsGo_shape2 f u sp olds1 ds (t ++ docEntries f sp d) (d :: added) o1 h
      rw [h5]
      simp [entriesSeq, List.append_assoc]

/-- A failing insertion loop of updateMultipleDocs removes the documents
it added and re-inserts the old documents. -/
theorem ordInsGo_fail2 (f : String) (u sp : Bool) (olds : List Value)
    (t1 : List (Value × Value))
    (holds : ∀ d ∈ olds, ∃ fv, getDotValue d f = Except.ok fv)
    (hfreeO : u = true → ∀ d ∈ olds, ∀ q ∈ t1, ∀ v ∈ docKeysEff f sp d,
      compareThings q.1 v ≠ 0)
    (hpwO : u = true → ∀ d ∈ olds, (docKeysEff f sp d).Pairwise
      (fun a b => compareThings a b ≠ 0))
    (hpwxO : u = true → olds.Pairwise (fun a b => ∀ v ∈ docKeysEff f sp a,
      ∀ w ∈ docKeysEff f sp b, compareThings v w ≠ 0)) :
    ∀ (ns added : List Value) (i : OIdx) (e : IdxErr) (o2 : OIdx),
    (∀ q ∈ t1, ∀ n, (n ∈ ns ∨ n ∈ added) → q.2 ≠ n) →
    added.Pairwise (fun a b => a ≠ b) →
    ns.Pairwise (fun a b => a ≠ b) →
    (∀ a ∈ added, ∀ b ∈ ns, a ≠ b) →
    oidxInsertSeq ⟨f, u, sp, t1⟩ added.reverse = (none, i) →
    oidxUpdateInsGo olds i ns added = (some e, o2) →
    o2 = ⟨f, u, sp, t1 ++ entriesSeq f sp olds⟩
  | [], added, i, e, o2 => by
    intro _ _ _ _ _ h
    simp only [oidxUpdateInsGo] at h
    cases h
  | n :: ns, added, i, e, o2 => by
    intro hfresh haddpw hnspw hdisj hinv h
    simp only [oidxUpdateInsGo] at h
    rcases hone : oidxInsertOne i n with ⟨e1, i1⟩
    rw [hone] at h
    cases e1 with
    | none =>
      dsimp only at h
      have hinv2 : oidxInsertSeq ⟨f, u, sp, t1⟩ (n :: added).reverse = (none, i1) := by
        rw [List.reverse_cons, oidxInsertSeq_append added.reverse [n] _ i hinv]
        simp only [oidxInsertSeq]
        rw [hone]
      have hfresh2 : ∀ q ∈ t1, ∀ x, (x ∈ ns ∨ x ∈ n :: added) → q.2 ≠ x := by
        intro q hq x hx
        apply hfresh q hq x
        rcases hx with hx1 | hx2
        · exact Or.inl (by simp [hx1])
        · rcases List.mem_cons.mp hx2 with rfl | hx3
          · exact Or.inl (by simp)
          · exact Or.inr hx3
      have haddpw2 : (n :: added).Pairwise (fun a b => a ≠ b) := by
        rw [List.pairwise_cons]
        exact ⟨fun b hb he => hdisj b hb n (by simp) he.symm, haddpw⟩
      have hnspw2 : ns.Pairwise (fun a b => a ≠ b) := (List.pairwise_cons.mp hnspw).2
      have hdisj2 : ∀ a ∈ n :: added, ∀ b ∈ ns, a ≠ b := by
        intro a ha b hb
        rcases List.mem_cons.mp ha with rfl | ha2
        · exact (List.pairwise_cons.mp hnspw).1 b hb
        · exact hdisj a ha2 b (by simp [hb])
      exact ordInsGo_fail2 f u sp olds t1 holds hfreeO hpwO hpwxO ns (n :: added)
        i1 e o2 hfresh2 haddpw2 hnspw2 hdisj2 hinv2 h
    | some e1 =>
      dsimp only at h
      have hish := oidxInsertSeq_shape f u sp added.reverse t1 i hinv
      have hifr : ∀ p ∈ i.tree, p.2 ≠ n := by
        rw [hish]
        intro p hp
        rcases List.mem_append.mp hp with h1 | h2
        · exact hfresh p h1 n (Or.inl (by simp))
        · obtain ⟨hp2, -⟩ := entriesSeq_mem f sp added.reverse p h2
          have hp3 : p.2 ∈ added := by simpa using hp2
          exact hdisj p.2 hp3 n (by simp)
      have hieq := oidxInsertOne_err i n e1 i1 hifr hone
      rw [hieq] at h
      have hrem := ordRemSeq_of_insSeq f u sp added.reverse t1 i
        (fun q hq x hx => hfresh q hq x (Or.inr (by simpa using hx)))
        (List.pairwise_reverse.mpr (haddpw.imp (fun hab => Ne.symm hab))) hinv
      rw [List.reverse_reverse] at hrem
      rw [hrem] at h
      dsimp only at h
      rw [oidxInsertSeq_ok2 f u sp olds t1 holds hfreeO hpwO hpwxO] at h
      dsimp only at h
      cases h
      rfl

/-- Forward removal facts of a restorable update batch on an ordered
index: the removal phase succeeds, removes exactly the entries of the old
documents up to permutation, and afterwards no old key remains stored
under a unique index. -/
theorem ord_forward_facts (f : String) (u sp : Bool) (t : List (Value × Value))
    (ps : List (Value × Value)) (hr : ordRestorable ⟨f, u, sp, t⟩ ps) :
    ∃ t1, oidxRemoveSeq ⟨f, u, sp, t⟩ (ps.map Prod.fst) = (none, ⟨f, u, sp, t1⟩) ∧
      List.Perm t (entriesSeq f sp (ps.map Prod.fst) ++ t1) ∧ t1.Sublist t ∧
      (u = true → ∀ d ∈ ps.map Prod.fst, ∀ q ∈ t1, ∀ v ∈ docKeysEff f sp d,
        compareThings q.1 v ≠ 0) ∧
      (u = true → (ps.map Prod.fst).Pairwise (fun a b => ∀ v ∈ docKeysEff f sp a,
        ∀ w ∈ docKeysEff f sp b, compareThings v w ≠ 0)) := by
  obtain ⟨hfstpw, hsndpw, hpr⟩ := hr
  have hremhyp : ∀ d ∈ ps.map Prod.fst, ∃ fv, getDotValue d f = Except.ok fv ∧
      (¬(fv = Value.undef ∧ sp = true) →
        List.Perm (t.filter (remPred f d)) (docEntries f sp d)) := by
    intro d hd
    obtain ⟨p, hp, hpd⟩ := List.mem_map.mp hd
    obtain ⟨fvo, fvn, hgo, hgn, hfr, hrm, huq, hpwk⟩ := hpr p hp
    exact ⟨fvo, hpd ▸ hgo, hpd ▸ hrm⟩
  obtain ⟨t1, hseq, hperm, hsub, hno, hrev⟩ :=
    ordRemSeq_perm f u sp (ps.map Prod.fst) t hfstpw hremhyp
  refine ⟨t1, hseq, hperm, hsub, ?_, ?_⟩
  · intro hu d hd q hq v hv
    obtain ⟨p, hp, hpd⟩ := List.mem_map.mp hd
    subst hpd
    obtain ⟨fvo, fvn, hgo, hgn, hfr, hrm, huq, hpwk⟩ := hpr p hp
    obtain ⟨hns, hvk⟩ := docKeysEff_mem_cases f sp p.1 fvo v hgo hv
    intro hcmp
    have hq2 : q.2 = p.1 := huq hu hns q (hsub.subset hq) v hvk (Or.inl hcmp)
    have hrp : remPred f p.1 q = true := by
      simp only [remPred, Bool.and_eq_true, decide_eq_true_eq]
      exact ⟨List.any_eq_true.mpr ⟨v, hvk, by simp [hcmp]⟩, hq2⟩
    have hnoq := hno q hq p.1 (List.mem_map_of_mem Prod.fst hp) fvo hgo hns
    rw [hnoq] at hrp
    cases hrp
  · intro hu
    rw [List.pairwise_map]
    rw [List.pairwise_map] at hfstpw
    apply hfstpw.imp_of_mem
    intro p p2 hp hp2 hne v hv w hw hcmp
    obtain ⟨fvo, fvn, hgo, hgn, hfr, hrm, huq, hpwk⟩ := hpr p hp
    obtain ⟨fvo2, fvn2, hgo2, hgn2, hfr2, hrm2, huq2, hpwk2⟩ := hpr p2 hp2
    obtain ⟨hns1, hvk⟩ := docKeysEff_mem_cases f sp p.1 fvo v hgo hv
    obtain ⟨hns2, hwk⟩ := docKeysEff_mem_cases f sp p2.1 fvo2 w hgo2 hw
    have hmemt : (w, p2.1) ∈ t := by
      have h1 : (w, p2.1) ∈ docEntries f sp p2.1 := by
        rw [docEntries_noskip f sp p2.1 fvo2 hgo2 hns2]
        exact List.mem_map_of_mem (fun v => (v, p2.1)) hwk
      have h3 := (hrm2 hns2).symm.subset h1
      exact List.mem_of_mem_filter h3
    have h4 := huq hu hns1 (w, p2.1) hmemt v hvk (Or.inr hcmp)
    exact hne h4.symm

/-- A successful restorable update of an ordered index followed by its
revertUpdate succeeds and restores the tree up to permutation of its
entries. -/
theorem oidx_update_revert (f : String) (u sp : Bool) (t : List (Value × Value))
    (ps : List (Value × Value)) (o1 o2 : OIdx) (e2 : Option IdxErr)
    (hr : ordRestorable ⟨f, u, sp, t⟩ ps)
    (h1 : oidxUpdatePairs ⟨f, u, sp, t⟩ ps = (none, o1))
    (h2 : oidxRevert o1 ps = (e2, o2)) :
    e2 = none ∧ List.Perm o2.tree t := by
  obtain ⟨t1, hseq1, hperm1, hsub1, hkeyfree, hopair⟩ := ord_forward_facts f u sp t ps hr
  obtain ⟨hfstpw, hsndpw, hpr⟩ := hr
  have holdok : ∀ d ∈ ps.map Prod.fst, ∃ fv, getDotValue d f = Except.ok fv := by
    intro d hd
    obtain ⟨p, hp, hpd⟩ := List.mem_map.mp hd
    obtain ⟨fvo, fvn, hgo, hgn, hfr, hrm, huq, hpwk⟩ := hpr p hp
    exact ⟨fvo, hpd ▸ hgo⟩
  have hnewok : ∀ n ∈ ps.map Prod.snd, ∃ fv, getDotValue n f = Except.ok fv := by
    intro n hn
    obtain ⟨p, hp, hpn⟩ := List.mem_map.mp hn
    obtain ⟨fvo, fvn, hgo, hgn, hfr, hrm, huq, hpwk⟩ := hpr p hp
    exact ⟨fvn, hpn ▸ hgn⟩
  have hnewfr : ∀ q ∈ t, ∀ n ∈ ps.map Prod.snd, q.2 ≠ n := by
    intro q hq n hn
    obtain ⟨p, hp, hpn⟩ := List.mem_map.mp hn
    obtain ⟨fvo, fvn, hgo, hgn, hfr, hrm, huq, hpwk⟩ := hpr p hp
    rw [← hpn]
    exact hfr q hq
  have hpwO2 : u = true → ∀ d ∈ ps.map Prod.fst,
      (docKeysEff f sp d).Pairwise (fun a b => compareThings a b ≠ 0) := by
    intro hu d hd
    obtain ⟨p, hp, hpd⟩ := List.mem_map.mp hd
    obtain ⟨fvo, fvn, hgo, hgn, hfr, hrm, huq, hpwk⟩ := hpr p hp
    exact hpd ▸ hpwk hu
  simp only [oidxUpdatePairs] at h1
  rw [hseq1] at h1
  dsimp only at h1
  have ho1 := ordInsGo_shape2 f u sp (ps.map Prod.fst) (ps.map Prod.snd) t1 [] o1 h1
  simp only [oidxRevert, oidxUpdatePairs] at h2
  rw [ho1] at h2
  have hmapfst : (ps.map (fun p => (p.2, p.1))).map Prod.fst = ps.map Prod.snd := by
    rw [List.map_map]
    rfl
  have hmapsnd : (ps.map (fun p => (p.2, p.1))).map Prod.snd = ps.map Prod.fst := by
    rw [List.map_map]
    rfl
  rw [hmapfst, hmapsnd] at h2
  have hfrt1 : ∀ q ∈ t1, ∀ n ∈ ps.map Prod.snd, q.2 ≠ n :=
    fun q hq => hnewfr q (hsub1.subset hq)
  have hremB := ordRemSeq_entries f u sp (ps.map Prod.snd) t1 hsndpw hnewok hfrt1
  rw [hremB] at h2
  dsimp only at h2
  have hinsB := oidxInsertSeq_ok2 f u sp (ps.map Prod.fst) t1 holdok hkeyfree hpwO2 hopair
  rw [ordInsGo_of_seq (ps.map Prod.snd) (ps.map Prod.fst) ⟨f, u, sp, t1⟩ [] _ hinsB] at h2
  cases h2
  refine ⟨rfl, ?_⟩
  exact (List.perm_append_comm).trans hperm1.symm

/-- A failing restorable update of an ordered index restores the tree up
to permutation of its entries before surfacing the error. -/
theorem oidx_update_fail (f : String) (u sp : Bool) (t : List (Value × Value))
    (ps : List (Value × Value)) (e : IdxErr) (o2 : OIdx)
    (hr : ordRestorable ⟨f, u, sp, t⟩ ps)
    (h : oidxUpdatePairs ⟨f, u, sp, t⟩ ps = (some e, o2)) :
    List.Perm o2.tree t := by
  obtain ⟨t1, hseq1, hperm1, hsub1, hkeyfree, hopair⟩ := ord_forward_facts f u sp t ps hr
  obtain ⟨hfstpw, hsndpw, hpr⟩ := hr
  have holdok : ∀ d ∈ ps.map Prod.fst, ∃ fv, getDotValue d f = Except.ok fv := by
    intro d hd
    obtain ⟨p, hp, hpd⟩ := List.mem_map.mp hd
    obtain ⟨fvo, fvn, hgo, hgn, hfr, hrm, huq, hpwk⟩ := hpr p hp
    exact ⟨fvo, hpd ▸ hgo⟩
  have hnewfr : ∀ q ∈ t, ∀ n ∈ ps.map Prod.snd, q.2 ≠ n := by
    intro q hq n hn
    obtain ⟨p, hp, hpn⟩ := List.mem_map.mp hn
    obtain ⟨fvo, fvn, hgo, hgn, hfr, hrm, huq, hpwk⟩ := hpr p hp
    rw [← hpn]
    exact hfr q hq
  have hpwO2 : u = true → ∀ d ∈ ps.map Prod.fst,
      (docKeysEff f sp d).Pairwise (fun a b => compareThings a b ≠ 0) := by
    intro hu d hd
    obtain ⟨p, hp, hpd⟩ := List.mem_map.mp hd
    obtain ⟨fvo, fvn, hgo, hgn, hfr, hrm, huq, hpwk⟩ := hpr p hp
    exact hpd ▸ hpwk hu
  simp only [oidxUpdatePairs] at h
  rw [hseq1] at h
  dsimp only at h
  have hfresh : ∀ q ∈ t1, ∀ n, (n ∈ ps.map Prod.snd ∨ n ∈ ([] : List Value)) →
      q.2 ≠ n := by
    intro q hq n hn
    rcases hn with hn | hn
    · exact hnewfr q (hsub1.subset hq) n hn
    · cases hn
  have h8 := ordInsGo_fail2 f u sp (ps.map Prod.fst) t1 holdok hkeyfree hpwO2 hopair
    (ps.map Prod.snd) [] ⟨f, u, sp, t1⟩ e o2 hfresh List.Pairwise.nil hsndpw
    (fun a ha => absurd ha (List.not_mem_nil a)) rfl h
  rw [h8]
  exact (List.perm_append_comm).trans hperm1.symm


/-- Resetting the primary index with valid documents carrying distinct
string identifiers rebuilds its map in document order. -/
theorem usiReset_ok (docs : List Value)
    (hval : docs.all (usiDocOk "_id") = true)
    (hpw : (docs.map (usiFieldOf "_id")).Pairwise (fun a b => a ≠ b)) :
    usiInsert ⟨"_id", []⟩ docs
      = (none, ⟨"_id", docs.map (fun d => (usiFieldOf "_id" d, d))⟩) := by
  unfold usiInsert
  rw [if_neg (by rw [hval]; simp)]
  unfold usiRawInsert
  rw [usiRawInsertGo_fresh "_id" docs [] [] (fun d _ => rfl) hpw]
  rfl

/-- Insertion into a non-unique tree never throws. -/
theorem treeInsert_nonunique (t : List (Value × Value)) (k d : Value) :
    treeInsert false t k d = (none, t ++ [(k, d)]) := by
  unfold treeInsert
  simp

theorem treeInsValsGo_nonunique (d : Value) :
    ∀ (vs : List Value) (t : List (Value × Value)) (done : List Value),
    ∃ t2, treeInsValsGo false d t vs done = (none, t2)
  | [], t, done => ⟨t, rfl⟩
  | v :: vs, t, done => by
    unfold treeInsValsGo
    rw [treeInsert_nonunique]
    exact treeInsValsGo_nonunique d vs (t ++ [(v, d)]) (v :: done)

/-- Insert into a non-unique ordered index succeeds whenever the dot
value resolves, and preserves the option fields. -/
theorem oidxInsertOne_nonunique (o : OIdx) (d : Value) (hu : o.unique = false)
    (hget : ∃ fv, getDotValue d o.fieldName = Except.ok fv) :
    ∃ o2, oidxInsertOne o d = (none, o2) ∧ o2.fieldName = o.fieldName ∧
      o2.unique = o.unique ∧ o2.sparse = o.sparse := by
  obtain ⟨fv, hfv⟩ := hget
  unfold oidxInsertOne
  rw [hfv]
  dsimp only
  by_cases hsp : fv = Value.undef ∧ o.sparse = true
  · rw [if_pos hsp]
    exact ⟨o, rfl, rfl, rfl, rfl⟩
  · rw [if_neg hsp]
    cases fv <;>
      first
        | (dsimp only
           rw [hu, treeInsert_nonunique]
           exact ⟨_, rfl, rfl, rfl, rfl⟩)
        | (rename_i elems
           dsimp only
           obtain ⟨t2, ht⟩ := treeInsValsGo_nonunique d (toDateSafeUnique elems) o.tree []
           rw [hu, ht]
           exact ⟨_, rfl, rfl, rfl, rfl⟩)

theorem oidxInsertMultiGo_nonunique :
    ∀ (docs : List Value) (o : OIdx) (done : List Value), o.unique = false →
    (∀ d ∈ docs, ∃ fv, getDotValue d o.fieldName = Except.ok fv) →
    ∃ o2, oidxInsertMultiGo o docs done = (none, o2) ∧ o2.fieldName = o.fieldName ∧
      o2.unique = o.unique ∧ o2.sparse = o.sparse
  | [], o, done => fun _ _ => ⟨o, rfl, rfl, rfl, rfl⟩
  | d :: ds, o, done => fun hu hget => by
    obtain ⟨o1, ho1, hf1, hu1, hs1⟩ := oidxInsertOne_nonunique o d hu (hget d (by simp))
    unfold oidxInsertMultiGo
    rw [ho1]
    dsimp only
    obtain ⟨o2, ho2, hf2, hu2, hs2⟩ := oidxInsertMultiGo_nonunique ds o1 (d :: done)
      (hu1.trans hu) (by intro x hx; rw [hf1]; exact hget x (by simp [hx]))
    rw [ho2]
    exact ⟨o2, rfl, hf2.trans hf1, hu2.trans hu1, hs2.trans hs1⟩

/-- Population of a fresh ordered index succeeds when the dot values
resolve and, under a unique index, the contributed keys are pairwise
distinct within and across the documents. -/
theorem oidxInsertMulti_reset_ok (f : String) (u sp : Bool) (docs : List Value)
    (hget : ∀ d ∈ docs, ∃ fv, getDotValue d f = Except.ok fv)
    (hpw : u = true → ∀ d ∈ docs, (docKeysEff f sp d).Pairwise
      (fun a b => compareThings a b ≠ 0))
    (hpwx : u = true → docs.Pairwise (fun a b => ∀ v ∈ docKeysEff f sp a,
      ∀ w ∈ docKeysEff f sp b, compareThings v w ≠ 0)) :
    oidxInsertMulti ⟨f, u, sp, []⟩ docs
      = (none, ⟨f, u, sp, entriesSeq f sp docs⟩) := by
  unfold oidxInsertMulti
  have hseq := oidxInsertSeq_ok2 f u sp docs [] hget
    (fun hu d hd q hq => absurd hq (List.not_mem_nil q)) hpw hpwx
  rw [oidxInsertMultiGo_of_seq docs ⟨f, u, sp, []⟩ [] _ hseq]
  simp

/-- Resetting freshly recreated ordered indexes succeeds and preserves
their options, given resolving dot values and key distinctness under
unique indexes. -/
theorem resetOrds_ok (docs : List Value) : ∀ (os : List OIdx),
    (∀ o ∈ os, (∀ d ∈ docs, ∃ fv, getDotValue d o.fieldName = Except.ok fv) ∧
      (o.unique = true →
        (∀ d ∈ docs, (docKeysEff o.fieldName o.sparse d).Pairwise
          (fun a b => compareThings a b ≠ 0)) ∧
        docs.Pairwise (fun a b => ∀ v ∈ docKeysEff o.fieldName o.sparse a,
          ∀ w ∈ docKeysEff o.fieldName o.sparse b, compareThings v w ≠ 0))) →
    ∃ os2 : List OIdx,
      idxResetAll (os.map (fun o => Idx.ord ⟨o.fieldName, o.unique, o.sparse, []⟩)) docs
        = (none, os2.map Idx.ord) ∧
      os2.map (fun o => (o.fieldName, o.unique, o.sparse))
        = os.map (fun o => (o.fieldName, o.unique, o.sparse))
  | [] => fun _ => ⟨[], rfl, rfl⟩
  | o :: os => fun h => by
    obtain ⟨hget, huniq⟩ := h o (by simp)
    obtain ⟨os2, hos2, hmeta⟩ := resetOrds_ok docs os (fun x hx => h x (by simp [hx]))
    simp only [List.map_cons, idxResetAll, idxReset]
    rw [oidxInsertMulti_reset_ok o.fieldName o.unique o.sparse docs hget
      (fun hu => (huniq hu).1) (fun hu => (huniq hu).2)]
    rw [hos2]
    refine ⟨⟨o.fieldName, o.unique, o.sparse, entriesSeq o.fieldName o.sparse docs⟩ :: os2,
      rfl, ?_⟩
    simp only [List.map_cons, hmeta]

/-- Every non-primary index has a field name other than _id. -/
theorem nonPrimaryOrds_ne_id {idxs : List Idx} {o : OIdx}
    (h : o ∈ nonPrimaryOrds idxs) : o.fieldName ≠ "_id" := by
  unfold nonPrimaryOrds at h
  simp only [List.mem_filterMap] at h
  obtain ⟨i, hi, hmap⟩ := h
  cases i with
  | usi u => simp at hmap
  | ord o2 =>
    by_cases hne : o2.fieldName = "_id"
    · simp [hne] at hmap
    · simp only [ne_eq, hne, not_false_iff, if_true, Option.some.injEq] at hmap
      subst hmap
      exact hne

/-- Non-primary indexes of the reloaded index list. -/
theorem nonPrimaryOrds_cons_usi (u : USI) (os2 : List OIdx)
    (h : ∀ o ∈ os2, o.fieldName ≠ "_id") :
    nonPrimaryOrds (Idx.usi u :: os2.map Idx.ord) = os2 := by
  unfold nonPrimaryOrds
  rw [List.filterMap_cons]
  dsimp only
  rw [List.filterMap_map]
  induction os2 with
  | nil => rfl
  | cons o os ih =>
    rw [List.filterMap_cons]
    dsimp only [Function.comp]
    rw [if_pos (h o (by simp))]
    rw [ih (fun x hx => h x (by simp [hx]))]

/-- Reconstruction of an ordered index from its persisted record. -/
theorem idxFromOptions_inner (o : OIdx) :
    idxFromOptions (Value.obj
      [("fieldName", Value.str o.fieldName), ("unique", Value.bool o.unique),
       ("sparse", Value.bool o.sparse)])
      = ⟨o.fieldName, o.unique, o.sparse, []⟩ := rfl

/-- Claim C3, amended: compaction followed by a reload reconstructs the
documents exactly and the non-primary indexes with their fieldName,
unique and sparse options, but the TTL option expireAfterSeconds is NOT
part of the reconstruction: persistCachedDatabase never writes it and
loadDatabase leaves the TTL mapping of the fresh datastore empty, as the
counterexample below shows concretely.  The hypotheses assert the
datastore invariants the source maintains: good serializable documents
with distinct truthy string identifiers and no reserved fields, and
secondary indexes (unique or not) whose dot values resolve on every
document and whose contributed keys, under a unique index, are pairwise
distinct within and across documents (the invariant a populated unique
index maintains). -/
theorem claim_C3_persistence :
    ∀ (q : ℚ) (st : DbState),
      0 ≤ q →
      (∀ d ∈ getAllData st.idxs, goodDoc d = true ∧ d ≠ .null ∧ d ≠ .undef ∧
        jsGetSafe d "_id" = .str (usiFieldOf "_id" d) ∧
        truthy (jsGetSafe d "_id") = true ∧
        jsGetSafe d "$$deleted" ≠ .bool true ∧ usiDocOk "_id" d = true) →
      ((getAllData st.idxs).map (usiFieldOf "_id")).Pairwise (fun a b => a ≠ b) →
      (∀ o ∈ nonPrimaryOrds st.idxs,
        (∀ d ∈ getAllData st.idxs, ∃ fv, getDotValue d o.fieldName = Except.ok fv) ∧
        (o.unique = true →
          (∀ d ∈ getAllData st.idxs, (docKeysEff o.fieldName o.sparse d).Pairwise
            (fun a b => compareThings a b ≠ 0)) ∧
          (getAllData st.idxs).Pairwise
            (fun a b => ∀ v ∈ docKeysEff o.fieldName o.sparse a,
              ∀ w ∈ docKeysEff o.fieldName o.sparse b, compareThings v w ≠ 0))) →
      ((nonPrimaryOrds st.idxs).map (fun o => o.fieldName)).Pairwise (fun a b => a ≠ b) →
      ∃ lines st2,
        persistCachedLines st = .ok lines ∧
        loadStateM q (readBackLines lines) = .ok st2 ∧
        getAllData st2.idxs = getAllData st.idxs ∧
        (nonPrimaryOrds st2.idxs).map (fun o => (o.fieldName, o.unique, o.sparse))
          = (nonPrimaryOrds st.idxs).map (fun o => (o.fieldName, o.unique, o.sparse)) ∧
        st2.ttl = [] := by
  intro q st hq hdocs hpwid hords hpwf
  obtain ⟨js, hser, hjs⟩ :=
    serializeEach_roundtrip (getAllData st.idxs) (fun d hd => (hdocs d hd).1)
  refine ⟨js ++ (nonPrimaryOrds st.idxs).map idxOptionLine, ?_⟩
  have hjmem : ∀ j ∈ js, deserializeJ j ∈ getAllData st.idxs := by
    intro j hj
    rw [← hjs]
    exact List.mem_map_of_mem deserializeJ hj
  have hjprops : ∀ j ∈ js, deserializeJ j ≠ .null ∧ deserializeJ j ≠ .undef ∧
      truthy (jsGetSafe (deserializeJ j) "_id") = true ∧
      jsGetSafe (deserializeJ j) "$$deleted" ≠ .bool true := by
    intro j hj
    have h := hdocs _ (hjmem j hj)
    exact ⟨h.2.1, h.2.2.1, h.2.2.2.2.1, h.2.2.2.2.2.1⟩
  have hpwkeys : ((getAllData st.idxs).map (fun d => jsGetSafe d "_id")).Pairwise
      (fun a b => a ≠ b) := by
    have hmapeq : (getAllData st.idxs).map (fun d => jsGetSafe d "_id")
        = (getAllData st.idxs).map (fun d => Value.str (usiFieldOf "_id" d)) :=
      List.map_congr_left (fun d hd => (hdocs d hd).2.2.2.1)
    rw [hmapeq, List.pairwise_map]
    rw [List.pairwise_map] at hpwid
    exact hpwid.imp (fun h he => h (Value.str.inj he))
  have hdata : js.foldl
        (fun m j => assocSetV m (jsGetSafe (deserializeJ j) "_id") (deserializeJ j)) []
      = (getAllData st.idxs).map (fun d => (jsGetSafe d "_id", d)) := by
    have h1 := List.foldl_map deserializeJ
      (fun m d => assocSetV m (jsGetSafe d "_id") d) js ([] : List (Value × Value))
    rw [← h1, hjs]
    have h2 := assocSetV_fold_fresh (fun d => jsGetSafe d "_id") (getAllData st.idxs) []
      (fun d _ => rfl) hpwkeys
    simpa using h2
  have hidx : (nonPrimaryOrds st.idxs).foldl
        (fun m o => mapSet m o.fieldName (Value.obj
          [("fieldName", Value.str o.fieldName), ("unique", Value.bool o.unique),
           ("sparse", Value.bool o.sparse)])) []
      = (nonPrimaryOrds st.idxs).map (fun o => (o.fieldName, Value.obj
          [("fieldName", Value.str o.fieldName), ("unique", Value.bool o.unique),
           ("sparse", Value.bool o.sparse)])) := by
    have h2 := mapSet_fold_fresh (fun o => Value.obj
        [("fieldName", Value.str o.fieldName), ("unique", Value.bool o.unique),
         ("sparse", Value.bool o.sparse)]) (nonPrimaryOrds st.idxs) []
      (fun o _ => rfl) hpwf
    simpa using h2
  have hacc : (readBackLines (js ++ (nonPrimaryOrds st.idxs).map idxOptionLine)).foldl
        treatLine ⟨[], [], -1⟩
      = ⟨(getAllData st.idxs).map (fun d => (jsGetSafe d "_id", d)),
         (nonPrimaryOrds st.idxs).map (fun o => (o.fieldName, Value.obj
           [("fieldName", Value.str o.fieldName), ("unique", Value.bool o.unique),
            ("sparse", Value.bool o.sparse)])), 0⟩ := by
    unfold readBackLines
    rw [List.map_append, List.foldl_append, List.foldl_append]
    rw [treat_fold_docs js ⟨[], [], -1⟩ hjprops]
    rw [treat_fold_idxlines (nonPrimaryOrds st.idxs) _]
    simp only [List.foldl_cons, List.foldl_nil, treatLine]
    rw [hdata, hidx]
    rfl
  have htreat : treatRawDataM q (readBackLines
        (js ++ (nonPrimaryOrds st.idxs).map idxOptionLine))
      = .ok ⟨getAllData st.idxs,
             (nonPrimaryOrds st.idxs).map (fun o => (o.fieldName, Value.obj
               [("fieldName", Value.str o.fieldName), ("unique", Value.bool o.unique),
                ("sparse", Value.bool o.sparse)]))⟩ := by
    have hcond : ¬(0 < (readBackLines
          (js ++ (nonPrimaryOrds st.idxs).map idxOptionLine)).length ∧
        (((0 : Int) : ℚ)) / ((readBackLines
          (js ++ (nonPrimaryOrds st.idxs).map idxOptionLine)).length : ℚ) > q) := by
      rintro ⟨-, hgt⟩
      have hlen0 : (((0 : Int) : ℚ)) = 0 := by norm_num
      rw [hlen0, zero_div] at hgt
      exact absurd hgt (not_lt.mpr hq)
    have hsnd : ((getAllData st.idxs).map (fun d => (jsGetSafe d "_id", d))).map Prod.snd
        = getAllData st.idxs := by
      rw [List.map_map]
      exact (List.map_congr_left (fun d _ => rfl)).trans (List.map_id _)
    unfold treatRawDataM
    rw [hacc]
    dsimp only
    rw [if_neg hcond]
    rw [hsnd]
  have hval : (getAllData st.idxs).all (usiDocOk "_id") = true :=
    List.all_eq_true.mpr (fun d hd => (hdocs d hd).2.2.2.2.2.2)
  obtain ⟨os2, hos2, hmeta⟩ := resetOrds_ok (getAllData st.idxs) (nonPrimaryOrds st.idxs)
    (fun o ho => (hords o ho))
  have hne2 : ∀ o2 ∈ os2, o2.fieldName ≠ "_id" := by
    intro o2 ho2
    have h1 : o2.fieldName ∈ os2.map (fun o => o.fieldName) :=
      List.mem_map_of_mem (fun o => o.fieldName) ho2
    have h2 : os2.map (fun o => o.fieldName)
        = (nonPrimaryOrds st.idxs).map (fun o => o.fieldName) := by
      have := congrArg (List.map (fun t : String × Bool × Bool => t.1)) hmeta
      simpa [List.map_map] using this
    rw [h2] at h1
    obtain ⟨o, ho, heq⟩ := List.mem_map.mp h1
    rw [← heq]
    exact nonPrimaryOrds_ne_id ho
  refine ⟨⟨Idx.usi ⟨"_id", (getAllData st.idxs).map (fun d => (usiFieldOf "_id" d, d))⟩
      :: os2.map Idx.ord, []⟩, ?_, ?_, ?_, ?_, rfl⟩
  · unfold persistCachedLines
    rw [hser, serializeEach_idxlines]
  · unfold loadStateM
    rw [htreat]
    dsimp only
    have hmap0 : ((nonPrimaryOrds st.idxs).map (fun o => (o.fieldName, Value.obj
          [("fieldName", Value.str o.fieldName), ("unique", Value.bool o.unique),
           ("sparse", Value.bool o.sparse)]))).map (fun p => Idx.ord (idxFromOptions p.2))
        = (nonPrimaryOrds st.idxs).map
            (fun o => Idx.ord ⟨o.fieldName, o.unique, o.sparse, []⟩) := by
      rw [List.map_map]
      exact List.map_congr_left (fun o _ => by simp [Function.comp, idxFromOptions_inner])
    rw [hmap0]
    simp only [idxResetAll, idxReset]
    rw [show usiInsert { fieldName := "_id", map := [] } (getAllData st.idxs)
        = usiInsert ⟨"_id", []⟩ (getAllData st.idxs) from rfl]
    rw [usiReset_ok (getAllData st.idxs) hval hpwid]
    rw [hos2]
  · unfold getAllData
    rw [List.find?_cons_of_pos _ (by simp [idxFieldName])]
    show ((getAllData st.idxs).map (fun d => (usiFieldOf "_id" d, d))).map Prod.snd
      = getAllData st.idxs
    rw [List.map_map]
    exact (List.map_congr_left (fun d _ => rfl)).trans (List.map_id _)
  · rw [nonPrimaryOrds_cons_usi _ os2 hne2]
    exact hmeta

/-- Claim C3 counterexample: a TTL index is created with
expireAfterSeconds, the compacted file records only fieldName, unique and
sparse for it, and the reloaded state carries an empty TTL mapping, so
replaying the file does not reconstruct the index definitions of the
original state. -/
theorem claim_C3_counterexample :
    ensureIndexM ⟨[Idx.usi ⟨"_id", []⟩], []⟩ ⟨"x", false, false, some (Value.num 30)⟩
      = (none, ⟨[Idx.usi ⟨"_id", []⟩, Idx.ord ⟨"x", false, false, []⟩],
                [("x", Value.num 30)]⟩) ∧
    persistCachedLines ⟨[Idx.usi ⟨"_id", []⟩, Idx.ord ⟨"x", false, false, []⟩],
        [("x", Value.num 30)]⟩
      = .ok [idxOptionLine ⟨"x", false, false, []⟩] ∧
    loadStateM (1/10) (readBackLines [idxOptionLine ⟨"x", false, false, []⟩])
      = .ok ⟨[Idx.usi ⟨"_id", []⟩, Idx.ord ⟨"x", false, false, []⟩], []⟩ ∧
    ([("x", Value.num 30)] : List (String × Value)) ≠ ([] : List (String × Value)) := by
  refine ⟨rfl, rfl, ?_, by simp⟩
  have hacc : (readBackLines [idxOptionLine ⟨"x", false, false, []⟩]).foldl
      treatLine ⟨[], [], -1⟩ = ⟨[], [("x", Value.obj
        [("fieldName", Value.str "x"), ("unique", Value.bool false),
         ("sparse", Value.bool false)])], 0⟩ := rfl
  unfold loadStateM treatRawDataM
  rw [hacc]
  rw [if_neg (by norm_num)]
  rfl

theorem claim_C3_witness :
    ∃ lines st2,
      persistCachedLines ⟨[Idx.usi ⟨"_id",
          [("a", Value.obj [("_id", Value.str "a"), ("x", Value.num 1)])]⟩], []⟩
        = .ok lines ∧
      loadStateM (1/10) (readBackLines lines) = .ok st2 ∧
      getAllData st2.idxs = getAllData [Idx.usi ⟨"_id",
          [("a", Value.obj [("_id", Value.str "a"), ("x", Value.num 1)])]⟩] ∧
      (nonPrimaryOrds st2.idxs).map (fun o => (o.fieldName, o.unique, o.sparse))
        = (nonPrimaryOrds [Idx.usi ⟨"_id",
            [("a", Value.obj [("_id", Value.str "a"), ("x", Value.num 1)])]⟩]).map
            (fun o => (o.fieldName, o.unique, o.sparse)) ∧
      st2.ttl = [] :=
  claim_C3_persistence (1/10)
    ⟨[Idx.usi ⟨"_id", [("a", Value.obj [("_id", Value.str "a"), ("x", Value.num 1)])]⟩], []⟩
    (by norm_num) (by decide) (by decide)
    (by intro o ho; simp [nonPrimaryOrds] at ho)
    (by simp [nonPrimaryOrds])

/-- remove of a document whose field resolves to a scalar under a
non-sparse index deletes the entry from the tree. -/
theorem oidxRemoveOne_scalar (i : OIdx) (d : Value) (fv : Value)
    (hget : getDotValue d i.fieldName = Except.ok fv) (hsp : i.sparse = false)
    (harr : ∀ es, fv ≠ Value.arr es) :
    oidxRemoveOne i d = (none, { i with tree := treeDel i.tree fv d }) := by
  unfold oidxRemoveOne
  rw [hget]
  dsimp only
  rw [if_neg (by rintro ⟨-, hc⟩; rw [hsp] at hc; cases hc)]
  cases fv with
  | arr es => exact absurd rfl (harr es)
  | undef => rfl
  | null => rfl
  | bool b => rfl
  | num n => rfl
  | str s => rfl
  | date dt => rfl
  | obj fs => rfl

/-- insert of a document whose field resolves to a scalar under a
non-sparse index is a plain tree insertion. -/
theorem oidxInsertOne_scalar (i : OIdx) (d : Value) (fv : Value)
    (hget : getDotValue d i.fieldName = Except.ok fv) (hsp : i.sparse = false)
    (harr : ∀ es, fv ≠ Value.arr es) :
    oidxInsertOne i d =
      ((treeInsert i.unique i.tree fv d).1,
       { i with tree := (treeInsert i.unique i.tree fv d).2 }) := by
  unfold oidxInsertOne
  rw [hget]
  dsimp only
  rw [if_neg (by rintro ⟨-, hc⟩; rw [hsp] at hc; cases hc)]
  cases fv with
  | arr es => exact absurd rfl (harr es)
  | undef => rfl
  | null => rfl
  | bool b => rfl
  | num n => rfl
  | str s => rfl
  | date dt => rfl
  | obj fs => rfl

/-- Deleting a key removes it from the membership test. -/
theorem mapHas_mapDel_self (m : List (String × Value)) (k : String) :
    mapHas (mapDel m k) k = false := by
  rw [Bool.eq_false_iff]
  intro hc
  have hmem : k ∈ (mapDel m k).map Prod.fst := by
    simpa [mapHas] using hc
  obtain ⟨p, hp, hpk⟩ := List.mem_map.mp hmem
  rw [mapDel, List.mem_filter] at hp
  have h2 := hp.2
  simp only [ne_eq, decide_eq_true_eq] at h2
  exact h2 hpk

/-- Key absence descends to sublists. -/
theorem mapHas_of_sublist (m1 m2 : List (String × Value)) (k : String)
    (hs : m1.Sublist m2) (h : mapHas m2 k = false) : mapHas m1 k = false := by
  rw [Bool.eq_false_iff] at h ⊢
  intro hc
  apply h
  have hmem : k ∈ m1.map Prod.fst := by
    simpa [mapHas] using hc
  have h3 : k ∈ m2.map Prod.fst := (hs.map Prod.fst).subset hmem
  simpa [mapHas] using h3

/-- Key membership over concatenation. -/
theorem mapHas_append (m m2 : List (String × Value)) (k : String) :
    mapHas (m ++ m2) k = (mapHas m k || mapHas m2 k) := by
  simp only [mapHas, List.map_append]
  exact contains_append_eq _ _ k

/-- A missing key names no stored pair. -/
theorem not_key_of_mapHas_false (m : List (String × Value)) (k : String)
    (h : mapHas m k = false) : ∀ p ∈ m, p.1 ≠ k := by
  intro p hp he
  have hmem : k ∈ m.map Prod.fst := by
    rw [← he]
    exact List.mem_map_of_mem Prod.fst hp
  have h3 : (m.map Prod.fst).contains k = true := by simpa using hmem
  unfold mapHas at h
  rw [h3] at h
  cases h

/-- Membership under an unrelated deletion. -/
theorem mem_mapDel_of_ne (m : List (String × Value)) (k k2 : String) (d : Value)
    (h : k2 ≠ k) : ((k2, d) ∈ mapDel m k) ↔ (k2, d) ∈ m := by
  simp [mapDel, List.mem_filter, h]

/-- Deleting a present key from a map with pairwise distinct keys removes
exactly its binding. -/
theorem mapDel_exact (m : List (String × Value)) (k : String) (d : Value)
    (hkeys : (m.map Prod.fst).Pairwise (fun a b => a ≠ b))
    (hmem : (k, d) ∈ m) :
    List.Perm m ((k, d) :: mapDel m k) := by
  obtain ⟨l1, l2, rfl⟩ := List.append_of_mem hmem
  rw [List.map_append, List.map_cons] at hkeys
  obtain ⟨pw1, pw2, hcross⟩ := List.pairwise_append.mp hkeys
  have hk1 : ∀ p ∈ l1, p.1 ≠ k := by
    intro p hp
    exact hcross p.1 (List.mem_map_of_mem Prod.fst hp) k (by simp)
  have hk2 : ∀ p ∈ l2, p.1 ≠ k := by
    intro p hp he
    have hh := (List.pairwise_cons.mp pw2).1 p.1 (List.mem_map_of_mem Prod.fst hp)
    exact hh he.symm
  have hdel : mapDel (l1 ++ (k, d) :: l2) k = l1 ++ l2 := by
    unfold mapDel
    rw [List.filter_append, List.filter_cons]
    have hc : (decide ((k, d).1 ≠ k)) = false := by simp
    rw [hc]
    rw [List.filter_eq_self.mpr (fun p hp => by simpa using hk1 p hp),
      List.filter_eq_self.mpr (fun p hp => by simpa using hk2 p hp)]
    simp
  rw [hdel]
  exact List.perm_middle

/-- Sequential deletion of pairwise distinct present keys: the deletions
remove exactly the named bindings and leave every named key absent. -/
theorem usiRemSeq_exact (f : String) :
    ∀ (ds : List Value) (m : List (String × Value)),
    (m.map Prod.fst).Pairwise (fun a b => a ≠ b) →
    ((ds.map (usiFieldOf f)).Pairwise (fun a b => a ≠ b)) →
    (∀ d ∈ ds, (usiFieldOf f d, d) ∈ m) →
    List.Perm m (ds.map (fun d => (usiFieldOf f d, d)) ++
        ds.foldl (fun m2 d => mapDel m2 (usiFieldOf f d)) m) ∧
      (ds.foldl (fun m2 d => mapDel m2 (usiFieldOf f d)) m).Sublist m ∧
      (∀ d ∈ ds, mapHas (ds.foldl (fun m2 d => mapDel m2 (usiFieldOf f d)) m)
        (usiFieldOf f d) = false)
  | [], m => by
    intro _ _ _
    exact ⟨by simp, List.Sublist.refl m, by simp⟩
  | d :: ds, m => by
    intro hkeys hdpw hmem
    rw [List.map_cons] at hdpw
    obtain ⟨hhd, htl⟩ := List.pairwise_cons.mp hdpw
    have hperm1 := mapDel_exact m (usiFieldOf f d) d hkeys (hmem d (by simp))
    have hsubdel : (mapDel m (usiFieldOf f d)).Sublist m := by
      unfold mapDel
      exact List.filter_sublist m
    have hkeys2 : ((mapDel m (usiFieldOf f d)).map Prod.fst).Pairwise
        (fun a b => a ≠ b) := hkeys.sublist (hsubdel.map Prod.fst)
    have hmem2 : ∀ d2 ∈ ds, (usiFieldOf f d2, d2) ∈ mapDel m (usiFieldOf f d) := by
      intro d2 hd2
      have hne : usiFieldOf f d2 ≠ usiFieldOf f d := by
        intro he
        exact hhd (usiFieldOf f d2) (List.mem_map_of_mem (usiFieldOf f) hd2) he.symm
      exact (mem_mapDel_of_ne m (usiFieldOf f d) (usiFieldOf f d2) d2 hne).mpr
        (hmem d2 (by simp [hd2]))
    obtain ⟨hperm2, hsub2, hhas2⟩ :=
      usiRemSeq_exact f ds (mapDel m (usiFieldOf f d)) hkeys2 htl hmem2
    simp only [List.foldl_cons]
    refine ⟨?_, hsub2.trans hsubdel, ?_⟩
    · have h3 := hperm1.trans (hperm2.cons (usiFieldOf f d, d))
      simpa using h3
    · intro d2 hd2
      rcases List.mem_cons.mp hd2 with hd3 | hd3
      · subst hd3
        exact mapHas_of_sublist _ _ _ hsub2 (mapHas_mapDel_self m (usiFieldOf f d2))
      · exact hhas2 d2 hd3

/-- Shape, freshness and distinctness extracted from a successful raw
insertion of UniqueStringIndex. -/
theorem usiRawInsertGo_ok_shape (f : String) :
    ∀ (ds : List Value) (m : List (String × Value)) (done : List String)
      (m2 : List (String × Value)),
    usiRawInsertGo f m ds done = (none, m2) →
    m2 = m ++ ds.map (fun d => (usiFieldOf f d, d)) ∧
      (∀ d ∈ ds, mapHas m (usiFieldOf f d) = false) ∧
      (ds.map (usiFieldOf f)).Pairwise (fun a b => a ≠ b)
  | [], m, done, m2 => by
    intro h
    simp only [usiRawInsertGo] at h
    cases h
    exact ⟨by simp, by simp, List.Pairwise.nil⟩
  | d :: ds, m, done, m2 => by
    intro h
    simp only [usiRawInsertGo] at h
    by_cases hhas : mapHas m (usiFieldOf f d)
    · rw [if_pos hhas] at h
      cases h
    · rw [if_neg hhas] at h
      have hset : mapSet m (usiFieldOf f d) d = m ++ [(usiFieldOf f d, d)] := by
        unfold mapSet
        rw [if_neg hhas]
      rw [hset] at h
      obtain ⟨hshape, hfresh, hpw⟩ := usiRawInsertGo_ok_shape f ds
        (m ++ [(usiFieldOf f d, d)]) (usiFieldOf f d :: done) m2 h
      have hfresh2 : ∀ x ∈ ds, mapHas m (usiFieldOf f x) = false ∧
          usiFieldOf f x ≠ usiFieldOf f d := by
        intro x hx
        have h4 := hfresh x hx
        rw [mapHas_append] at h4
        rcases Bool.or_eq_false_iff.mp h4 with ⟨h5, h6⟩
        refine ⟨h5, ?_⟩
        intro he
        rw [Bool.eq_false_iff] at h6
        apply h6
        simp [mapHas, he]
      refine ⟨?_, ?_, ?_⟩
      · rw [hshape]
        simp
      · intro x hx
        rcases List.mem_cons.mp hx with hx2 | hx2
        · subst hx2
          exact Bool.eq_false_iff.mpr hhas
        · exact (hfresh2 x hx2).1
      · rw [List.map_cons, List.pairwise_cons]
        refine ⟨?_, hpw⟩
        intro b hb
        obtain ⟨x, hx, hxb⟩ := List.mem_map.mp hb
        rw [← hxb]
        exact fun he => (hfresh2 x hx).2 he.symm

/-- A failing raw insertion of UniqueStringIndex rolls its own insertions
back exactly, leaving only the deletions named by the incoming rollback
list. -/
theorem usiRawInsertGo_fail (f : String) :
    ∀ (ds : List Value) (m : List (String × Value)) (done : List String)
      (e : IdxErr) (m2 : List (String × Value)),
    usiRawInsertGo f m ds done = (some e, m2) →
    m2 = done.foldl (fun m3 k => mapDel m3 k) m
  | [], m, done, e, m2 => by
    intro h
    simp only [usiRawInsertGo] at h
    cases h
  | d :: ds, m, done, e, m2 => by
    intro h
    simp only [usiRawInsertGo] at h
    by_cases hhas : mapHas m (usiFieldOf f d)
    · rw [if_pos hhas] at h
      cases h
      rfl
    · rw [if_neg hhas] at h
      have hset : mapSet m (usiFieldOf f d) d = m ++ [(usiFieldOf f d, d)] := by
        unfold mapSet
        rw [if_neg hhas]
      rw [hset] at h
      have h5 := usiRawInsertGo_fail f ds (m ++ [(usiFieldOf f d, d)])
        (usiFieldOf f d :: done) e m2 h
      rw [h5]
      simp only [List.foldl_cons]
      rw [mapDel_append_self m (usiFieldOf f d) d (Bool.eq_false_iff.mpr hhas)]

/-- Deleting freshly appended pairwise distinct keys restores the map
exactly. -/
theorem foldl_mapDel_fresh (f : String) :
    ∀ (ds : List Value) (m : List (String × Value)),
    (∀ d ∈ ds, mapHas m (usiFieldOf f d) = false) →
    ((ds.map (usiFieldOf f)).Pairwise (fun a b => a ≠ b)) →
    ds.foldl (fun m2 d => mapDel m2 (usiFieldOf f d))
      (m ++ ds.map (fun d => (usiFieldOf f d, d))) = m
  | [], m => by
    intro _ _
    simp
  | d :: ds, m => by
    intro hfresh hdpw
    rw [List.map_cons] at hdpw
    obtain ⟨hhd, htl⟩ := List.pairwise_cons.mp hdpw
    simp only [List.foldl_cons, List.map_cons]
    have h1 : mapDel (m ++ (usiFieldOf f d, d) :: ds.map (fun x => (usiFieldOf f x, x)))
        (usiFieldOf f d) = m ++ ds.map (fun x => (usiFieldOf f x, x)) := by
      unfold mapDel
      rw [List.filter_append, List.filter_cons]
      have hc : (decide (((usiFieldOf f d, d) : String × Value).1 ≠ usiFieldOf f d)) = false := by
        simp
      rw [hc]
      rw [List.filter_eq_self.mpr
        (fun p hp => by simpa using not_key_of_mapHas_false m _ (hfresh d (by simp)) p hp)]
      rw [List.filter_eq_self.mpr ?_]
      · simp
      · intro p hp
        obtain ⟨x, hx, hxp⟩ := List.mem_map.mp hp
        simp only [ne_eq, decide_eq_true_eq]
        rw [← hxp]
        intro he
        exact hhd (usiFieldOf f x) (List.mem_map_of_mem (usiFieldOf f) hx) he.symm
    rw [h1]
    exact foldl_mapDel_fresh f ds m (fun x hx => hfresh x (by simp [hx])) htl

/-- Pair validation of update of UniqueStringIndex is symmetric in the
old and the new document. -/
theorem usiPairOk_swap (f : String) (p : Value × Value) (h : usiPairOk f p = true) :
    usiPairOk f (p.2, p.1) = true := by
  unfold usiPairOk at h ⊢
  simp only [Bool.and_eq_true] at h ⊢
  tauto

/-- Pair validation of a swapped batch. -/
theorem usiPairOk_all_swap (f : String) (ps : List (Value × Value))
    (h : ps.all (usiPairOk f) = true) :
    (ps.map (fun p => (p.2, p.1))).all (usiPairOk f) = true := by
  rw [List.all_eq_true] at h ⊢
  intro x hx
  obtain ⟨p, hp, hpx⟩ := List.mem_map.mp hx
  rw [← hpx]
  exact usiPairOk_swap f p (h p hp)

/-- Case equation of usiInsert on a literal index. -/
theorem usiInsert_eq (f : String) (m : List (String × Value)) (ds : List Value) :
    usiInsert ⟨f, m⟩ ds =
      if ds.all (usiDocOk f) = false then (some .invalidDoc, ⟨f, m⟩)
      else ((usiRawInsert f m ds).1, ⟨f, (usiRawInsert f m ds).2⟩) := by
  by_cases hval : ds.all (usiDocOk f) = false
  · simp [usiInsert, hval]
  · rcases h : usiRawInsert f m ds with ⟨er, mr⟩
    simp [usiInsert, hval, h]

/-- Case equation of usiUpdate on a literal index. -/
theorem usiUpdate_eq (f : String) (m : List (String × Value)) (ps : List (Value × Value)) :
    usiUpdate ⟨f, m⟩ ps =
      if ps.all (usiPairOk f) = false then (some .invalidDoc, ⟨f, m⟩)
      else
        match usiRawInsert f ((ps.map Prod.fst).foldl
            (fun m2 d => mapDel m2 (usiFieldOf f d)) m) (ps.map Prod.snd) with
        | (none, m2) => (none, ⟨f, m2⟩)
        | (some e, m2) =>
          match usiInsert ⟨f, m2⟩ (ps.map Prod.fst) with
          | (none, i3) => (some e, i3)
          | (some e2, i3) => (some e2, i3) := by
  by_cases hval : ps.all (usiPairOk f) = false
  · simp [usiUpdate, hval]
  · rcases h : usiRawInsert f ((ps.map Prod.fst).foldl
        (fun m2 d => mapDel m2 (usiFieldOf f d)) m) (ps.map Prod.snd) with ⟨er, mr⟩
    cases er with
    | none => simp [usiUpdate, hval, h]
    | some e1 =>
      rcases h2 : usiInsert ⟨f, mr⟩ (ps.map Prod.fst) with ⟨er2, i3⟩
      cases er2 with
      | none => simp [usiUpdate, hval, h, h2]
      | some e2 => simp [usiUpdate, hval, h, h2]

/-- Forward facts of a restorable update on the unique-string index: the
deletion phase removes exactly the named bindings. -/
theorem usi_forward_facts (f : String) (m : List (String × Value))
    (ps : List (Value × Value)) (hr : usiRestorable ⟨f, m⟩ ps) :
    List.Perm m ((ps.map Prod.fst).map (fun d => (usiFieldOf f d, d)) ++
      (ps.map Prod.fst).foldl (fun m2 d => mapDel m2 (usiFieldOf f d)) m) ∧
    ((ps.map Prod.fst).foldl (fun m2 d => mapDel m2 (usiFieldOf f d)) m).Sublist m ∧
    (∀ d ∈ ps.map Prod.fst, mapHas ((ps.map Prod.fst).foldl
        (fun m2 d => mapDel m2 (usiFieldOf f d)) m) (usiFieldOf f d) = false) ∧
    ((ps.map Prod.fst).map (usiFieldOf f)).Pairwise (fun a b => a ≠ b) := by
  obtain ⟨hkeys, hkpw, hdm⟩ := hr
  have hkpw2 : ((ps.map Prod.fst).map (usiFieldOf f)).Pairwise (fun a b => a ≠ b) := by
    rw [List.map_map]
    exact hkpw
  have hmems : ∀ d ∈ ps.map Prod.fst, (usiFieldOf f d, d) ∈ m := by
    intro d hd
    obtain ⟨p, hp, hpd⟩ := List.mem_map.mp hd
    rw [← hpd]
    exact (hdm p hp).2
  obtain ⟨h1, h2, h3⟩ := usiRemSeq_exact f (ps.map Prod.fst) m hkeys hkpw2 hmems
  exact ⟨h1, h2, h3, hkpw2⟩

/-- A successful restorable update of the unique-string index followed by
its revertUpdate succeeds and restores the backing map up to permutation
of its bindings. -/
theorem usi_update_revert (f : String) (m : List (String × Value))
    (ps : List (Value × Value)) (u1 u2 : USI) (e2 : Option IdxErr)
    (hr : usiRestorable ⟨f, m⟩ ps)
    (h1 : usiUpdate ⟨f, m⟩ ps = (none, u1))
    (h2 : usiRevert u1 ps = (e2, u2)) :
    e2 = none ∧ List.Perm u2.map m := by
  obtain ⟨hperm1, hsub1, hhas1, hkpw2⟩ := usi_forward_facts f m ps hr
  rw [usiUpdate_eq] at h1
  by_cases hval : ps.all (usiPairOk f) = false
  · rw [if_pos hval] at h1
    cases h1
  · rw [if_neg hval] at h1
    have hvtrue : ps.all (usiPairOk f) = true := by
      cases hb : ps.all (usiPairOk f) with
      | false => exact absurd hb hval
      | true => rfl
    rcases hraw : usiRawInsert f ((ps.map Prod.fst).foldl
        (fun m2 d => mapDel m2 (usiFieldOf f d)) m) (ps.map Prod.snd) with ⟨er, mr⟩
    rw [hraw] at h1
    cases er with
    | some e1 =>
      dsimp only at h1
      rcases hri : usiInsert ⟨f, mr⟩ (ps.map Prod.fst) with ⟨er2, i3⟩
      rw [hri] at h1
      cases er2 <;> cases h1
    | none =>
      cases h1
      obtain ⟨hshape, hfreshN, hnpw⟩ :=
        usiRawInsertGo_ok_shape f (ps.map Prod.snd) _ [] mr hraw
      unfold usiRevert at h2
      rw [usiUpdate_eq] at h2
      rw [if_neg (by rw [usiPairOk_all_swap f ps hvtrue]; simp)] at h2
      have hmf : (ps.map (fun p => (p.2, p.1))).map Prod.fst = ps.map Prod.snd := by
        rw [List.map_map]
        rfl
      have hms : (ps.map (fun p => (p.2, p.1))).map Prod.snd = ps.map Prod.fst := by
        rw [List.map_map]
        rfl
      rw [hmf, hms] at h2
      rw [hshape] at h2
      rw [foldl_mapDel_fresh f (ps.map Prod.snd) _ hfreshN hnpw] at h2
      have hfr2 : usiRawInsert f ((ps.map Prod.fst).foldl
          (fun m2 d => mapDel m2 (usiFieldOf f d)) m) (ps.map Prod.fst) =
          (none, ((ps.map Prod.fst).foldl (fun m2 d => mapDel m2 (usiFieldOf f d)) m) ++
            (ps.map Prod.fst).map (fun d => (usiFieldOf f d, d))) :=
        usiRawInsertGo_fresh f (ps.map Prod.fst) _ [] hhas1 hkpw2
      rw [hfr2] at h2
      cases h2
      refine ⟨rfl, ?_⟩
      exact (List.perm_append_comm).trans hperm1.symm

/-- A failing restorable update of the unique-string index restores the
backing map up to permutation of its bindings before surfacing the
error. -/
theorem usi_update_fail (f : String) (m : List (String × Value))
    (ps : List (Value × Value)) (e : IdxErr) (u2 : USI)
    (hr : usiRestorable ⟨f, m⟩ ps)
    (h : usiUpdate ⟨f, m⟩ ps = (some e, u2)) :
    List.Perm u2.map m := by
  obtain ⟨hperm1, hsub1, hhas1, hkpw2⟩ := usi_forward_facts f m ps hr
  obtain ⟨hkeys, hkpw, hdm⟩ := hr
  rw [usiUpdate_eq] at h
  by_cases hval : ps.all (usiPairOk f) = false
  · rw [if_pos hval] at h
    cases h
    exact List.Perm.refl m
  · rw [if_neg hval] at h
    rcases hraw : usiRawInsert f ((ps.map Prod.fst).foldl
        (fun m2 d => mapDel m2 (usiFieldOf f d)) m) (ps.map Prod.snd) with ⟨er, mr⟩
    rw [hraw] at h
    cases er with
    | none => cases h
    | some e1 =>
      dsimp only at h
      have hmr : mr = ((ps.map Prod.fst).foldl (fun m2 d => mapDel m2 (usiFieldOf f d)) m) :=
        usiRawInsertGo_fail f (ps.map Prod.snd) _ [] e1 mr hraw
      subst hmr
      have hdocok : (ps.map Prod.fst).all (usiDocOk f) = true := by
        rw [List.all_eq_true]
        intro d hd
        obtain ⟨p, hp, hpd⟩ := List.mem_map.mp hd
        rw [← hpd]
        exact (hdm p hp).1
      have hfr2 : usiRawInsert f ((ps.map Prod.fst).foldl
          (fun m2 d => mapDel m2 (usiFieldOf f d)) m) (ps.map Prod.fst) =
          (none, ((ps.map Prod.fst).foldl (fun m2 d => mapDel m2 (usiFieldOf f d)) m) ++
            (ps.map Prod.fst).map (fun d => (usiFieldOf f d, d))) :=
        usiRawInsertGo_fresh f (ps.map Prod.fst) _ [] hhas1 hkpw2
      rw [usiInsert_eq, if_neg (by rw [hdocok]; simp), hfr2] at h
      cases h
      exact (List.perm_append_comm).trans hperm1.symm

/-- A restorable vectorized update of one index followed by revertUpdate
restores its document list up to permutation. -/
theorem idxUpdate_revert (i : Idx) (ps : List (Value × Value)) (i1 i2 : Idx)
    (e2 : Option IdxErr) (hr : idxRestorable i ps)
    (h1 : idxUpdatePairs i ps = (none, i1))
    (h2 : idxRevertPairs i1 ps = (e2, i2)) :
    e2 = none ∧ List.Perm (idxDocs i2) (idxDocs i) := by
  cases i with
  | usi u =>
    cases u with
    | mk f m =>
      simp only [idxUpdatePairs] at h1
      rcases hu : usiUpdate ⟨f, m⟩ ps with ⟨e1, u1⟩
      rw [hu] at h1
      cases e1 with
      | some e1 => cases h1
      | none =>
        cases h1
        simp only [idxRevertPairs] at h2
        rcases hv : usiRevert u1 ps with ⟨ev, u2v⟩
        rw [hv] at h2
        cases h2
        obtain ⟨he, hp⟩ := usi_update_revert f m ps u1 u2v ev (by exact hr) hu hv
        exact ⟨he, by simpa [idxDocs] using hp.map Prod.snd⟩
  | ord o =>
    cases o with
    | mk f u sp t =>
      simp only [idxUpdatePairs] at h1
      rcases ho : oidxUpdatePairs ⟨f, u, sp, t⟩ ps with ⟨e1, o1⟩
      rw [ho] at h1
      cases e1 with
      | some e1 => cases h1
      | none =>
        cases h1
        simp only [idxRevertPairs] at h2
        rcases hv : oidxRevert o1 ps with ⟨ev, o2v⟩
        rw [hv] at h2
        cases h2
        obtain ⟨he, hp⟩ := oidx_update_revert f u sp t ps o1 o2v ev (by exact hr) ho hv
        exact ⟨he, by simpa [idxDocs] using hp.map Prod.snd⟩

/-- A failing restorable vectorized update of one index restores its
document list up to permutation. -/
theorem idxUpdate_fail (i : Idx) (ps : List (Value × Value)) (e : IdxErr)
    (i2 : Idx) (hr : idxRestorable i ps)
    (h : idxUpdatePairs i ps = (some e, i2)) :
    List.Perm (idxDocs i2) (idxDocs i) := by
  cases i with
  | usi u =>
    cases u with
    | mk f m =>
      simp only [idxUpdatePairs] at h
      rcases hu : usiUpdate ⟨f, m⟩ ps with ⟨e1, u1⟩
      rw [hu] at h
      cases e1 with
      | none => cases h
      | some e1 =>
        cases h
        have hp := usi_update_fail f m ps _ u1 (by exact hr) hu
        simpa [idxDocs] using hp.map Prod.snd
  | ord o =>
    cases o with
    | mk f u sp t =>
      simp only [idxUpdatePairs] at h
      rcases ho : oidxUpdatePairs ⟨f, u, sp, t⟩ ps with ⟨e1, o1⟩
      rw [ho] at h
      cases e1 with
      | none => cases h
      | some e1 =>
        cases h
        have hp := oidx_update_fail f u sp t ps _ o1 (by exact hr) ho
        simpa [idxDocs] using hp.map Prod.snd

/-- Pointwise permutation of a list of indexes with itself. -/
theorem forall₂_perm_refl : ∀ (l : List Idx),
    List.Forall₂ (fun i i2 => List.Perm (idxDocs i2) (idxDocs i)) l l
  | [] => List.Forall₂.nil
  | i :: l => List.Forall₂.cons (List.Perm.refl _) (forall₂_perm_refl l)

/-- A failing update phase over restorable indexes reverts cleanly and
leaves every index with its document list restored up to permutation. -/
theorem updatePhase_revert (ps : List (Value × Value)) :
    ∀ (idxs idxs1 : List Idx) (e : IdxErr) (k : Nat),
    (∀ i ∈ idxs, idxRestorable i ps) →
    idxUpdatePhase ps idxs = (idxs1, some e, k) →
    ∃ idxs2, idxRevertFirst ps k idxs1 = (none, idxs2) ∧
      List.Forall₂ (fun i i2 => List.Perm (idxDocs i2) (idxDocs i)) idxs idxs2
  | [], idxs1, e, k => by
    intro _ h
    simp only [idxUpdatePhase] at h
    cases h
  | i :: rest, idxs1, e, k => by
    intro hres h
    simp only [idxUpdatePhase] at h
    rcases hu : idxUpdatePairs i ps with ⟨e1, i1⟩
    rw [hu] at h
    cases e1 with
    | some e1 =>
      cases h
      refine ⟨i1 :: rest, rfl, ?_⟩
      exact List.Forall₂.cons (idxUpdate_fail i ps _ i1 (hres i (by simp)) hu)
        (forall₂_perm_refl rest)
    | none =>
      dsimp only at h
      rcases hrest : idxUpdatePhase ps rest with ⟨rest1, e2, k2⟩
      rw [hrest] at h
      cases e2 with
      | none => cases h
      | some e2 =>
        cases h
        obtain ⟨rest2, hrev, hfa⟩ := updatePhase_revert ps rest rest1 _ k2
          (fun j hj => hres j (by simp [hj])) hrest
        rcases hrp : idxRevertPairs i1 ps with ⟨er, i1r⟩
        obtain ⟨hen, hpm⟩ := idxUpdate_revert i ps i1 i1r er (hres i (by simp)) hu hrp
        subst hen
        refine ⟨i1r :: rest2, ?_, List.Forall₂.cons hpm hfa⟩
        simp only [idxRevertFirst]
        rw [hrev]
        dsimp only
        rw [hrp]

/-- C2: as stated the claim is refuted (the counterexample below shows a
reverted update reorders the surviving documents, so the indexes are not
restored to exactly their previous state).  Amended: under the
restorability conditions of idxRestorable, a failing _updateIndexes run
reverts every index to its previous document list up to permutation, and
a failing updateMultipleDocs on an ordered index (unique or not, sparse
or not, scalar or array field values) removes the new documents it
inserted and re-inserts the old documents, restoring the tree up to
permutation of its entries. -/
theorem claim_C2_updateindexes :
    (∀ (pairs : List (Value × Value)) (idxs : List Idx) (e : IdxErr)
        (idxs2 : List Idx),
      (∀ i ∈ idxs, idxRestorable i pairs) →
      updateIndexes pairs idxs = (some e, idxs2) →
      List.Forall₂ (fun i i2 => List.Perm (idxDocs i2) (idxDocs i)) idxs idxs2) ∧
    (∀ (f : String) (u sp : Bool) (t : List (Value × Value))
        (pairs : List (Value × Value)) (e : IdxErr) (o2 : OIdx),
      ordRestorable ⟨f, u, sp, t⟩ pairs →
      oidxUpdatePairs ⟨f, u, sp, t⟩ pairs = (some e, o2) →
      List.Perm o2.tree t) := by
  constructor
  · intro pairs idxs e idxs2 hres h
    simp only [updateIndexes] at h
    rcases hph : idxUpdatePhase pairs idxs with ⟨idxs1, e1, k⟩
    rw [hph] at h
    dsimp only at h
    cases e1 with
    | none => cases h
    | some e1 =>
      obtain ⟨idxs2b, hrev, hfa⟩ := updatePhase_revert pairs idxs idxs1 e1 k hres hph
      rw [hrev] at h
      dsimp only at h
      cases h
      exact hfa
  · intro f u sp t pairs e o2 hr h
    exact oidx_update_fail f u sp t pairs e o2 hr h

/-- Numeric comparison facts of the concrete update scenario. -/
theorem c2_cmp11 : compareThings (Value.num 1) (Value.num 1) = 0 := by
  norm_num [compareThings, cmpInt]

/-- Two compares equal to itself. -/
theorem c2_cmp22 : compareThings (Value.num 2) (Value.num 2) = 0 := by
  norm_num [compareThings, cmpInt]

/-- Two compares above one. -/
theorem c2_cmp21 : compareThings (Value.num 2) (Value.num 1) = 1 := by
  norm_num [compareThings, cmpInt]

/-- One compares below two. -/
theorem c2_cmp12 : compareThings (Value.num 1) (Value.num 2) = -1 := by
  norm_num [compareThings, cmpInt]

/-- Removal step of the concrete ordered-index update. -/
theorem c2_ord_rem1 :
    oidxRemoveOne ⟨"x", true, false, [(Value.num 1, (Value.obj [("_id", Value.str "a"), ("x", Value.num 1)])), (Value.num 2, (Value.obj [("_id", Value.str "b"), ("x", Value.num 2)]))]⟩ (Value.obj [("_id", Value.str "a"), ("x", Value.num 1)]) =
      (none, ⟨"x", true, false, [(Value.num 2, (Value.obj [("_id", Value.str "b"), ("x", Value.num 2)]))]⟩) := by
  rw [oidxRemoveOne_scalar ⟨"x", true, false, [(Value.num 1, (Value.obj [("_id", Value.str "a"), ("x", Value.num 1)])), (Value.num 2, (Value.obj [("_id", Value.str "b"), ("x", Value.num 2)]))]⟩ (Value.obj [("_id", Value.str "a"), ("x", Value.num 1)]) (Value.num 1) rfl rfl (fun es h => by cases h)]
  have htd : treeDel [(Value.num 1, (Value.obj [("_id", Value.str "a"), ("x", Value.num 1)])), (Value.num 2, (Value.obj [("_id", Value.str "b"), ("x", Value.num 2)]))] (Value.num 1) (Value.obj [("_id", Value.str "a"), ("x", Value.num 1)]) =
      [(Value.num 2, (Value.obj [("_id", Value.str "b"), ("x", Value.num 2)]))] := by
    simp [treeDel, c2_cmp11, c2_cmp21]
  rw [htd]

/-- Failing insertion step of the concrete ordered-index update. -/
theorem c2_ord_insfail :
    oidxInsertOne ⟨"x", true, false, [(Value.num 2, (Value.obj [("_id", Value.str "b"), ("x", Value.num 2)]))]⟩ (Value.obj [("_id", Value.str "a"), ("x", Value.num 2)]) =
      (some (IdxErr.uniqueViolated (Value.num 2)), ⟨"x", true, false, [(Value.num 2, (Value.obj [("_id", Value.str "b"), ("x", Value.num 2)]))]⟩) := by
  rw [oidxInsertOne_scalar ⟨"x", true, false, [(Value.num 2, (Value.obj [("_id", Value.str "b"), ("x", Value.num 2)]))]⟩ (Value.obj [("_id", Value.str "a"), ("x", Value.num 2)]) (Value.num 2) rfl rfl (fun es h => by cases h)]
  have hti : treeInsert true [(Value.num 2, (Value.obj [("_id", Value.str "b"), ("x", Value.num 2)]))] (Value.num 2) (Value.obj [("_id", Value.str "a"), ("x", Value.num 2)]) =
      (some (IdxErr.uniqueViolated (Value.num 2)), [(Value.num 2, (Value.obj [("_id", Value.str "b"), ("x", Value.num 2)]))]) := by
    simp [treeInsert, treeHasKey, c2_cmp22]
  rw [hti]

/-- Rollback re-insertion step of the concrete ordered-index update. -/
theorem c2_ord_reins :
    oidxInsertOne ⟨"x", true, false, [(Value.num 2, (Value.obj [("_id", Value.str "b"), ("x", Value.num 2)]))]⟩ (Value.obj [("_id", Value.str "a"), ("x", Value.num 1)]) =
      (none, ⟨"x", true, false, [(Value.num 2, (Value.obj [("_id", Value.str "b"), ("x", Value.num 2)])), (Value.num 1, (Value.obj [("_id", Value.str "a"), ("x", Value.num 1)]))]⟩) := by
  rw [oidxInsertOne_scalar ⟨"x", true, false, [(Value.num 2, (Value.obj [("_id", Value.str "b"), ("x", Value.num 2)]))]⟩ (Value.obj [("_id", Value.str "a"), ("x", Value.num 1)]) (Value.num 1) rfl rfl (fun es h => by cases h)]
  have hti : treeInsert true [(Value.num 2, (Value.obj [("_id", Value.str "b"), ("x", Value.num 2)]))] (Value.num 1) (Value.obj [("_id", Value.str "a"), ("x", Value.num 1)]) =
      (none, [(Value.num 2, (Value.obj [("_id", Value.str "b"), ("x", Value.num 2)])), (Value.num 1, (Value.obj [("_id", Value.str "a"), ("x", Value.num 1)]))]) := by
    simp [treeInsert, treeHasKey, c2_cmp21]
  rw [hti]

/-- The concrete ordered-index update fails on the unique constraint and
leaves the old document re-inserted behind the surviving one. -/
theorem c2_ord_eval :
    oidxUpdatePairs ⟨"x", true, false, [(Value.num 1, (Value.obj [("_id", Value.str "a"), ("x", Value.num 1)])), (Value.num 2, (Value.obj [("_id", Value.str "b"), ("x", Value.num 2)]))]⟩
      [((Value.obj [("_id", Value.str "a"), ("x", Value.num 1)]), (Value.obj [("_id", Value.str "a"), ("x", Value.num 2)]))] =
    (some (IdxErr.uniqueViolated (Value.num 2)),
     ⟨"x", true, false, [(Value.num 2, (Value.obj [("_id", Value.str "b"), ("x", Value.num 2)])), (Value.num 1, (Value.obj [("_id", Value.str "a"), ("x", Value.num 1)]))]⟩) := by
  simp only [oidxUpdatePairs, List.map_cons, List.map_nil, oidxRemoveSeq,
    oidxUpdateInsGo, oidxInsertSeq]
  rw [c2_ord_rem1]
  dsimp only
  rw [c2_ord_insfail]
  dsimp only
  rw [c2_ord_reins]

/-- C2: the claim fails as stated.  A unique-constraint violation in the
second index makes _updateIndexes revert the primary index, but the
reverted document returns at the end of the insertion-ordered map, so the
indexes are not restored to exactly their previous state: getAllData
changes order, though it remains a permutation of the previous list. -/
theorem claim_C2_counterexample :
    updateIndexes [((Value.obj [("_id", Value.str "a"), ("x", Value.num 1)]), (Value.obj [("_id", Value.str "a"), ("x", Value.num 2)]))]
      [Idx.usi ⟨"_id", [("a", (Value.obj [("_id", Value.str "a"), ("x", Value.num 1)])), ("b", (Value.obj [("_id", Value.str "b"), ("x", Value.num 2)]))]⟩,
       Idx.ord ⟨"x", true, false, [(Value.num 1, (Value.obj [("_id", Value.str "a"), ("x", Value.num 1)])), (Value.num 2, (Value.obj [("_id", Value.str "b"), ("x", Value.num 2)]))]⟩] =
    (some (IdxErr.uniqueViolated (Value.num 2)),
     [Idx.usi ⟨"_id", [("b", (Value.obj [("_id", Value.str "b"), ("x", Value.num 2)])), ("a", (Value.obj [("_id", Value.str "a"), ("x", Value.num 1)]))]⟩,
      Idx.ord ⟨"x", true, false, [(Value.num 2, (Value.obj [("_id", Value.str "b"), ("x", Value.num 2)])), (Value.num 1, (Value.obj [("_id", Value.str "a"), ("x", Value.num 1)]))]⟩]) ∧
    getAllData [Idx.usi ⟨"_id", [("a", (Value.obj [("_id", Value.str "a"), ("x", Value.num 1)])), ("b", (Value.obj [("_id", Value.str "b"), ("x", Value.num 2)]))]⟩,
      Idx.ord ⟨"x", true, false, [(Value.num 1, (Value.obj [("_id", Value.str "a"), ("x", Value.num 1)])), (Value.num 2, (Value.obj [("_id", Value.str "b"), ("x", Value.num 2)]))]⟩] = [(Value.obj [("_id", Value.str "a"), ("x", Value.num 1)]), (Value.obj [("_id", Value.str "b"), ("x", Value.num 2)])] ∧
    getAllData [Idx.usi ⟨"_id", [("b", (Value.obj [("_id", Value.str "b"), ("x", Value.num 2)])), ("a", (Value.obj [("_id", Value.str "a"), ("x", Value.num 1)]))]⟩,
      Idx.ord ⟨"x", true, false, [(Value.num 2, (Value.obj [("_id", Value.str "b"), ("x", Value.num 2)])), (Value.num 1, (Value.obj [("_id", Value.str "a"), ("x", Value.num 1)]))]⟩] = [(Value.obj [("_id", Value.str "b"), ("x", Value.num 2)]), (Value.obj [("_id", Value.str "a"), ("x", Value.num 1)])] ∧
    ([(Value.obj [("_id", Value.str "b"), ("x", Value.num 2)]), (Value.obj [("_id", Value.str "a"), ("x", Value.num 1)])] : List Value) ≠ [(Value.obj [("_id", Value.str "a"), ("x", Value.num 1)]), (Value.obj [("_id", Value.str "b"), ("x", Value.num 2)])] ∧
    List.Perm ([(Value.obj [("_id", Value.str "b"), ("x", Value.num 2)]), (Value.obj [("_id", Value.str "a"), ("x", Value.num 1)])] : List Value) [(Value.obj [("_id", Value.str "a"), ("x", Value.num 1)]), (Value.obj [("_id", Value.str "b"), ("x", Value.num 2)])] := by
  refine ⟨?_, rfl, rfl, by decide, by decide⟩
  have husi : usiUpdate ⟨"_id", [("a", (Value.obj [("_id", Value.str "a"), ("x", Value.num 1)])), ("b", (Value.obj [("_id", Value.str "b"), ("x", Value.num 2)]))]⟩ [((Value.obj [("_id", Value.str "a"), ("x", Value.num 1)]), (Value.obj [("_id", Value.str "a"), ("x", Value.num 2)]))] =
      (none, ⟨"_id", [("b", (Value.obj [("_id", Value.str "b"), ("x", Value.num 2)])), ("a", (Value.obj [("_id", Value.str "a"), ("x", Value.num 2)]))]⟩) := by decide
  have hrev : usiRevert ⟨"_id", [("b", (Value.obj [("_id", Value.str "b"), ("x", Value.num 2)])), ("a", (Value.obj [("_id", Value.str "a"), ("x", Value.num 2)]))]⟩ [((Value.obj [("_id", Value.str "a"), ("x", Value.num 1)]), (Value.obj [("_id", Value.str "a"), ("x", Value.num 2)]))] =
      (none, ⟨"_id", [("b", (Value.obj [("_id", Value.str "b"), ("x", Value.num 2)])), ("a", (Value.obj [("_id", Value.str "a"), ("x", Value.num 1)]))]⟩) := by decide
  have hph : idxUpdatePhase [((Value.obj [("_id", Value.str "a"), ("x", Value.num 1)]), (Value.obj [("_id", Value.str "a"), ("x", Value.num 2)]))]
      [Idx.usi ⟨"_id", [("a", (Value.obj [("_id", Value.str "a"), ("x", Value.num 1)])), ("b", (Value.obj [("_id", Value.str "b"), ("x", Value.num 2)]))]⟩,
       Idx.ord ⟨"x", true, false, [(Value.num 1, (Value.obj [("_id", Value.str "a"), ("x", Value.num 1)])), (Value.num 2, (Value.obj [("_id", Value.str "b"), ("x", Value.num 2)]))]⟩] =
      ([Idx.usi ⟨"_id", [("b", (Value.obj [("_id", Value.str "b"), ("x", Value.num 2)])), ("a", (Value.obj [("_id", Value.str "a"), ("x", Value.num 2)]))]⟩,
        Idx.ord ⟨"x", true, false, [(Value.num 2, (Value.obj [("_id", Value.str "b"), ("x", Value.num 2)])), (Value.num 1, (Value.obj [("_id", Value.str "a"), ("x", Value.num 1)]))]⟩],
       some (IdxErr.uniqueViolated (Value.num 2)), 1) := by
    simp only [idxUpdatePhase, idxUpdatePairs]
    rw [husi]
    dsimp only
    rw [c2_ord_eval]
  have hrf : idxRevertFirst [((Value.obj [("_id", Value.str "a"), ("x", Value.num 1)]), (Value.obj [("_id", Value.str "a"), ("x", Value.num 2)]))] 1
      [Idx.usi ⟨"_id", [("b", (Value.obj [("_id", Value.str "b"), ("x", Value.num 2)])), ("a", (Value.obj [("_id", Value.str "a"), ("x", Value.num 2)]))]⟩,
       Idx.ord ⟨"x", true, false, [(Value.num 2, (Value.obj [("_id", Value.str "b"), ("x", Value.num 2)])), (Value.num 1, (Value.obj [("_id", Value.str "a"), ("x", Value.num 1)]))]⟩] =
      (none, [Idx.usi ⟨"_id", [("b", (Value.obj [("_id", Value.str "b"), ("x", Value.num 2)])), ("a", (Value.obj [("_id", Value.str "a"), ("x", Value.num 1)]))]⟩,
        Idx.ord ⟨"x", true, false, [(Value.num 2, (Value.obj [("_id", Value.str "b"), ("x", Value.num 2)])), (Value.num 1, (Value.obj [("_id", Value.str "a"), ("x", Value.num 1)]))]⟩]) := by
    simp only [idxRevertFirst, idxRevertPairs]
    rw [hrev]
  simp only [updateIndexes]
  rw [hph]
  dsimp only
  rw [hrf]

/-- C2 witness: the amended theorem applied to a failing unique-string
update over the primary index alone, and to the failing concrete
ordered-index update. -/
theorem claim_C2_witness :
    List.Forall₂ (fun i i2 => List.Perm (idxDocs i2) (idxDocs i))
      [Idx.usi ⟨"_id", [("a", (Value.obj [("_id", Value.str "a")])), ("b", (Value.obj [("_id", Value.str "b")]))]⟩]
      [Idx.usi ⟨"_id", [("b", (Value.obj [("_id", Value.str "b")])), ("a", (Value.obj [("_id", Value.str "a")]))]⟩] ∧
    List.Perm ([(Value.num 2, (Value.obj [("_id", Value.str "b"), ("x", Value.num 2)])), (Value.num 1, (Value.obj [("_id", Value.str "a"), ("x", Value.num 1)]))] : List (Value × Value))
      [(Value.num 1, (Value.obj [("_id", Value.str "a"), ("x", Value.num 1)])), (Value.num 2, (Value.obj [("_id", Value.str "b"), ("x", Value.num 2)]))] :=
  ⟨claim_C2_updateindexes.1 [((Value.obj [("_id", Value.str "a")]), (Value.obj [("_id", Value.str "b"), ("y", Value.num 1)]))]
      [Idx.usi ⟨"_id", [("a", (Value.obj [("_id", Value.str "a")])), ("b", (Value.obj [("_id", Value.str "b")]))]⟩]
      (IdxErr.uniqueViolated (Value.str "b"))
      [Idx.usi ⟨"_id", [("b", (Value.obj [("_id", Value.str "b")])), ("a", (Value.obj [("_id", Value.str "a")]))]⟩]
      (by
        intro i hi
        simp only [List.mem_singleton] at hi
        subst hi
        simp only [idxRestorable, usiRestorable]
        refine ⟨by decide, by decide, ?_⟩
        intro p hp
        simp only [List.mem_singleton] at hp
        subst hp
        exact ⟨by decide, by decide⟩)
      (by decide),
   claim_C2_updateindexes.2 "x" true false [(Value.num 1, (Value.obj [("_id", Value.str "a"), ("x", Value.num 1)])), (Value.num 2, (Value.obj [("_id", Value.str "b"), ("x", Value.num 2)]))]
      [((Value.obj [("_id", Value.str "a"), ("x", Value.num 1)]), (Value.obj [("_id", Value.str "a"), ("x", Value.num 2)]))] (IdxErr.uniqueViolated (Value.num 2))
      ⟨"x", true, false, [(Value.num 2, (Value.obj [("_id", Value.str "b"), ("x", Value.num 2)])), (Value.num 1, (Value.obj [("_id", Value.str "a"), ("x", Value.num 1)]))]⟩
      (by
        refine ⟨by decide, by decide, ?_⟩
        intro p hp
        simp only [List.mem_singleton] at hp
        subst hp
        refine ⟨Value.num 1, Value.num 2, rfl, rfl, by decide, ?_, ?_, ?_⟩
        · intro _
          show List.Perm
            (List.filter
              (remPred "x" (Value.obj [("_id", Value.str "a"), ("x", Value.num 1)]))
              [(Value.num 1, (Value.obj [("_id", Value.str "a"), ("x", Value.num 1)])),
               (Value.num 2, (Value.obj [("_id", Value.str "b"), ("x", Value.num 2)]))])
            (docEntries "x" false (Value.obj [("_id", Value.str "a"), ("x", Value.num 1)]))
          have hk : docKeys "x" (Value.obj [("_id", Value.str "a"), ("x", Value.num 1)])
              = [Value.num 1] := rfl
          have hf1 : remPred "x" (Value.obj [("_id", Value.str "a"), ("x", Value.num 1)])
              (Value.num 1, (Value.obj [("_id", Value.str "a"), ("x", Value.num 1)]))
              = true := by
            simp [remPred, hk, c2_cmp11]
          have hf2 : remPred "x" (Value.obj [("_id", Value.str "a"), ("x", Value.num 1)])
              (Value.num 2, (Value.obj [("_id", Value.str "b"), ("x", Value.num 2)]))
              = false := by
            simp [remPred, hk, c2_cmp21]
          have hde : docEntries "x" false (Value.obj [("_id", Value.str "a"), ("x", Value.num 1)])
              = [(Value.num 1, (Value.obj [("_id", Value.str "a"), ("x", Value.num 1)]))] := rfl
          rw [List.filter_cons, List.filter_cons, List.filter_nil, hf1, hf2, hde]
          simp
        · intro _ _ q hq v hv hcmp
          have hv2 : v ∈ ([Value.num 1] : List Value) := hv
          have hv3 : v = Value.num 1 := by simpa using hv2
          subst hv3
          rcases List.mem_cons.mp hq with hq3 | hq4
          · rw [hq3]
          · have hq5 : q = (Value.num 2, (Value.obj [("_id", Value.str "b"), ("x", Value.num 2)])) := by simpa using hq4
            subst hq5
            rcases hcmp with hc | hc
            · rw [c2_cmp21] at hc
              exact absurd hc (by norm_num)
            · rw [c2_cmp12] at hc
              exact absurd hc (by norm_num)
        · intro _
          have hke : docKeysEff "x" false (Value.obj [("_id", Value.str "a"), ("x", Value.num 1)])
              = [Value.num 1] := rfl
          show ([Value.num 1] : List Value).Pairwise (fun a b => compareThings a b ≠ 0)
          simp)
      c2_ord_eval⟩

end Nedb
